import Mathlib

/-! The scheduler core and the recursive timed mutex of boost.fiber.

A shallow embedding of `src/detail/default_scheduler.cpp` and
`src/recursive_timed_mutex.cpp`.

Conventions of the embedding

* A fiber handle (`fiber_base::ptr_t`) is a natural number; a null handle is
  `none` in an `Option Nat`.  A fiber id (`fiber_base::id`) is an `Option Nat`
  as well, `none` being the default-constructed id.
* `BOOST_ASSERT` is kept.  An operation of the mutex takes the flag `ndebug`
  (`true` = the assertions are compiled out) and ends in
  `outcome.assertion_failed` when a compiled-in assertion is false.  The
  operations of the scheduler are taken with the assertions compiled in: a
  false assertion ends the call in `fault.assert_at` with its line.
* A call that suspends the caller (`wait`, `wait_until`, `yield`, a `run()`
  pumped from the main context) hands control to other fibers.  What the caller
  finds when the call comes back is supplied from outside, one `resume_info`
  per blocking call; when the supply is used up the caller is still suspended
  (`outcome.blocked`).
-/

namespace boost.fibers

/-! ## recursive_timed_mutex -/

/-- The two values of `state_` (`state_t` in recursive_timed_mutex.hpp). -/
inductive state_t where
  | UNLOCKED
  | LOCKED
deriving DecidableEq, Repr

/-- A `detail::notify::ptr_t` stored in `waiting_`: the handle of the waiting
fiber, or the `main_notifier` of the thread's own context. -/
inductive notify_ptr where
  | fiber (f : Nat)
  | main_notifier
deriving DecidableEq, Repr

/-- Modelled from the spec: the members of `recursive_timed_mutex` are declared in
recursive_timed_mutex.hpp, which is not part of the sources; they are taken from
the constructor's initialiser list (lines 25-31) and from section 4.5 of the
specification (owner id, recursion count, atomic state, FIFO of notifiers).
The count is an integer so that `++count_` and `--count_` are exact. -/
structure recursive_timed_mutex where
  owner_ : Option Nat
  count_ : Int
  state_ : state_t
  waiting_ : List notify_ptr
deriving DecidableEq, Repr

/-- The freshly constructed mutex (lines 25-31). -/
def recursive_timed_mutex.init : recursive_timed_mutex :=
  { owner_ := none, count_ := 0, state_ := state_t.UNLOCKED, waiting_ := [] }

/-- The assertions of recursive_timed_mutex.cpp, and the one of
`default_scheduler::yield` that `try_lock` can reach. -/
inductive assertion where
  | owner_empty        -- BOOST_ASSERT( ! owner_)
  | count_zero         -- BOOST_ASSERT( 0 == count_)
  | state_locked       -- BOOST_ASSERT( LOCKED == state_)
  | caller_is_owner    -- BOOST_ASSERT( this_fiber::get_id() == owner_)
  | yield_active       -- BOOST_ASSERT( active_fiber_) in default_scheduler::yield
deriving DecidableEq, Repr

/-- Calls a mutex operation makes on its collaborators, in the order made. -/
inductive ext_call where
  | wait
  | wait_until (timeout_time : Nat)
  | run
  | yield
  | set_ready (n : notify_ptr)
deriving DecidableEq, Repr

/-- What the caller finds when a blocking call comes back: the mutex as the
other fibers left it, and either a normal return with the call's result
(`wait_until`: true = notified, false = timed out; a pumped `run()`: whether the
main notifier is ready afterwards; ignored for `wait` and `yield`) or an
exception thrown out of the call (the fiber is being unwound). -/
inductive resume_info where
  | returned (m : recursive_timed_mutex) (flag : Bool)
  | thrown (m : recursive_timed_mutex)
deriving DecidableEq, Repr

/-- How an operation of the mutex ends. -/
inductive outcome (α : Type) where
  | returned (value : α) (m : recursive_timed_mutex) (calls : List ext_call)
  | blocked (m : recursive_timed_mutex) (calls : List ext_call)
  | thrown (m : recursive_timed_mutex) (calls : List ext_call)
  | assertion_failed (a : assertion) (m : recursive_timed_mutex) (calls : List ext_call)
  | undefined (m : recursive_timed_mutex) (calls : List ext_call)
deriving DecidableEq, Repr

/-- The statement `waiting_.push_back( n)`. -/
def push_waiter (n : notify_ptr) (m : recursive_timed_mutex) : recursive_timed_mutex :=
  { m with waiting_ := m.waiting_ ++ [n] }

/-- The statement `waiting_.erase( std::find( waiting_.begin(), waiting_.end(), n) )`
when `n` is found: its first occurrence goes. -/
def erase_waiter (n : notify_ptr) (m : recursive_timed_mutex) : recursive_timed_mutex :=
  { m with waiting_ := m.waiting_.erase n }

/-- The statement `waiting_.erase( std::find( waiting_.begin(), waiting_.end(), n) )`
followed by `k`.  When `n` does not occur `std::find` returns `waiting_.end()`,
and erasing the end iterator of a sequence container is undefined. -/
def unregister {α : Type} (n : notify_ptr) (m : recursive_timed_mutex) (calls : List ext_call)
    (k : recursive_timed_mutex → outcome α) : outcome α :=
  if m.waiting_.contains n then k (erase_waiter n m) else outcome.undefined m calls

/-- The notifier a caller registers: `scheduler::instance()->active()` when a
fiber is active, else a `main_notifier`. -/
def notifier_of (self : Option Nat) : notify_ptr :=
  match self with
  | some f => notify_ptr.fiber f
  | none => notify_ptr.main_notifier

/-- Lines 84-88 of `lock()` and 188-194 of `try_lock_until()`: the two
assertions, then `owner_ = this_fiber::get_id(); ++count_`. -/
def take_ownership {α : Type} (ndebug : Bool) (self : Option Nat) (v : α)
    (m : recursive_timed_mutex) (calls : List ext_call) : outcome α :=
  if !ndebug && m.owner_ != none then outcome.assertion_failed assertion.owner_empty m calls
  else if !ndebug && m.count_ != 0 then outcome.assertion_failed assertion.count_zero m calls
  else outcome.returned v { m with owner_ := self, count_ := m.count_ + 1 } calls

/-- Where a blocked operation stands when it looks at the mutex: at the
compare-and-swap of the outer loop (lines 50 and 124), or inside the main
context's inner loop (lines 76 and 159) with its notifier registered and not
yet ready. -/
inductive lock_pc where
  | cas
  | pump
deriving DecidableEq, Repr

/-- The code of an operation from one program point up to its next blocking
call: either the operation ends, or it is suspended in that call with the
mutex, the calls made and the number of clock readings so far. -/
inductive progress (α : Type) where
  | finished (o : outcome α)
  | suspended (m : recursive_timed_mutex) (calls : List ext_call) (reads : Nat)

/-- The loop of `lock()`, lines 49-88, from a program point up to the next
blocking call (`wait()` of line 62, `run()` of line 79). -/
def lock_to_suspension (ndebug : Bool) (self : Option Nat) (pc : lock_pc)
    (m : recursive_timed_mutex) (calls : List ext_call) : progress Unit :=
  match pc with
  | lock_pc.cas =>
    if m.state_ = state_t.UNLOCKED then
      -- the compare-and-swap stores LOCKED and the loop ends
      progress.finished (take_ownership ndebug self () { m with state_ := state_t.LOCKED } calls)
    else
      match self with
      | some f =>
        -- lines 56-62: register, then scheduler wait()
        progress.suspended (push_waiter (notify_ptr.fiber f) m) (calls ++ [ext_call.wait]) 0
      | none =>
        -- lines 67-80: register a main_notifier (not ready), first run()
        progress.suspended (push_waiter notify_ptr.main_notifier m) (calls ++ [ext_call.run]) 0
  | lock_pc.pump =>
    -- line 76 found the notifier not ready: run() again
    progress.suspended m (calls ++ [ext_call.run]) 0

/-- Where the loop goes on when the blocking call has returned: a fiber is back
at the compare-and-swap, the main context is when its notifier is ready. -/
def resumed_at (self : Option Nat) (flag : Bool) : lock_pc :=
  match self with
  | some _ => lock_pc.cas
  | none => if flag then lock_pc.cas else lock_pc.pump

/-- The loop of `lock()`, lines 49-88.  An exception out of `wait()` or `run()`
leaves `lock()` as it is: there is no handler. -/
def lock_loop (ndebug : Bool) (self : Option Nat) :
    List resume_info → lock_pc → recursive_timed_mutex → List ext_call → outcome Unit
  | [], pc, m, calls =>
    match lock_to_suspension ndebug self pc m calls with
    | progress.finished o => o
    | progress.suspended m1 calls1 _ => outcome.blocked m1 calls1
  | resume_info.thrown m2 :: _, pc, m, calls =>
    match lock_to_suspension ndebug self pc m calls with
    | progress.finished o => o
    | progress.suspended _ calls1 _ => outcome.thrown m2 calls1
  | resume_info.returned m2 flag :: rest, pc, m, calls =>
    match lock_to_suspension ndebug self pc m calls with
    | progress.finished o => o
    | progress.suspended _ calls1 _ =>
      lock_loop ndebug self rest (resumed_at self flag) m2 calls1

/-- Operation `recursive_timed_mutex::lock()`, lines 40-89.  `self` is the
active fiber of the caller (`none` from the main context); `this_fiber::get_id()`
is its id. -/
def recursive_timed_mutex.lock (ndebug : Bool) (self : Option Nat) (env : List resume_info)
    (m : recursive_timed_mutex) : outcome Unit :=
  if m.state_ = state_t.LOCKED ∧ self = m.owner_ then
    outcome.returned () { m with count_ := m.count_ + 1 } []
  else lock_loop ndebug self env lock_pc.cas m []

/-- Operation `recursive_timed_mutex::try_lock()`, lines 91-112.  The failed
compare-and-swap calls `default_scheduler::yield()`, which asserts an active
fiber and dereferences it. -/
def recursive_timed_mutex.try_lock (ndebug : Bool) (self : Option Nat) (env : List resume_info)
    (m : recursive_timed_mutex) : outcome Bool :=
  if m.state_ = state_t.LOCKED ∧ self = m.owner_ then
    outcome.returned true { m with count_ := m.count_ + 1 } []
  else if m.state_ = state_t.UNLOCKED then
    outcome.returned true
      { m with state_ := state_t.LOCKED, owner_ := self, count_ := m.count_ + 1 } []
  else
    match self with
    | none =>
      if ndebug then outcome.undefined m [ext_call.yield]
      else outcome.assertion_failed assertion.yield_active m [ext_call.yield]
    | some _ =>
      match env with
      | [] => outcome.blocked m [ext_call.yield]
      | resume_info.thrown m2 :: _ => outcome.thrown m2 [ext_call.yield]
      | resume_info.returned m2 _ :: _ => outcome.returned false m2 [ext_call.yield]

/-- Lines 186-194 of `try_lock_until()`, reached when the loop of line 124 ends. -/
def try_lock_until_exit (ndebug : Bool) (self : Option Nat) (m : recursive_timed_mutex)
    (calls : List ext_call) : outcome Bool :=
  if m.state_ ≠ state_t.LOCKED then outcome.returned false m calls
  else take_ownership ndebug self true m calls

/-- The loop of `try_lock_until()`, lines 123-184, from a program point up to
the next blocking call (`wait_until` of line 138, `run()` of line 171).
`clock i` is the `i`-th reading of `clock_type::now()` the call makes. -/
def try_lock_until_to_suspension (ndebug : Bool) (self : Option Nat) (timeout_time : Nat)
    (clock : Nat → Nat) (pc : lock_pc) (i : Nat) (m : recursive_timed_mutex)
    (calls : List ext_call) : progress Bool :=
  match pc with
  | lock_pc.cas =>
    if clock i < timeout_time then
      if m.state_ = state_t.UNLOCKED then
        progress.finished
          (try_lock_until_exit ndebug self { m with state_ := state_t.LOCKED } calls)
      else
        match self with
        | some f =>
          -- lines 132-138
          progress.suspended (push_waiter (notify_ptr.fiber f) m)
            (calls ++ [ext_call.wait_until timeout_time]) (i + 1)
        | none =>
          -- lines 150-171, first turn of the inner loop
          let m1 := push_waiter notify_ptr.main_notifier m
          if clock (i + 1) < timeout_time then
            progress.suspended m1 (calls ++ [ext_call.run]) (i + 2)
          else
            progress.finished
              (unregister notify_ptr.main_notifier m1 calls
                (fun m2 => outcome.returned false m2 calls))
    else progress.finished (try_lock_until_exit ndebug self m calls)
  | lock_pc.pump =>
    -- line 159 found the main notifier not ready
    if clock i < timeout_time then
      progress.suspended m (calls ++ [ext_call.run]) (i + 1)
    else
      progress.finished
        (unregister notify_ptr.main_notifier m calls (fun m2 => outcome.returned false m2 calls))

/-- The loop of `try_lock_until()`, lines 123-195.  The function `wait_until`
is not part of the sources: its answer (true = notified, false = timed out, or
an exception) comes with the `resume_info`.  An exception out of the blocking
call runs the handler of lines 175-183. -/
def try_lock_until_loop (ndebug : Bool) (self : Option Nat) (timeout_time : Nat)
    (clock : Nat → Nat) :
    List resume_info → lock_pc → Nat → recursive_timed_mutex → List ext_call → outcome Bool
  | [], pc, i, m, calls =>
    match try_lock_until_to_suspension ndebug self timeout_time clock pc i m calls with
    | progress.finished o => o
    | progress.suspended m1 calls1 _ => outcome.blocked m1 calls1
  | resume_info.thrown m2 :: _, pc, i, m, calls =>
    match try_lock_until_to_suspension ndebug self timeout_time clock pc i m calls with
    | progress.finished o => o
    | progress.suspended _ calls1 _ =>
      unregister (notifier_of self) m2 calls1 (fun m3 => outcome.thrown m3 calls1)
  | resume_info.returned m2 flag :: rest, pc, i, m, calls =>
    match try_lock_until_to_suspension ndebug self timeout_time clock pc i m calls with
    | progress.finished o => o
    | progress.suspended _ calls1 i1 =>
      match self with
      | some f =>
        -- lines 138-145: wait_until answered
        if flag then try_lock_until_loop ndebug self timeout_time clock rest lock_pc.cas i1 m2 calls1
        else
          unregister (notify_ptr.fiber f) m2 calls1 (fun m3 => outcome.returned false m3 calls1)
      | none =>
        try_lock_until_loop ndebug self timeout_time clock rest
          (if flag then lock_pc.cas else lock_pc.pump) i1 m2 calls1

/-- Operation `recursive_timed_mutex::try_lock_until( timeout_time)`, lines 114-195. -/
def recursive_timed_mutex.try_lock_until (ndebug : Bool) (self : Option Nat)
    (timeout_time : Nat) (clock : Nat → Nat) (env : List resume_info)
    (m : recursive_timed_mutex) : outcome Bool :=
  if m.state_ = state_t.LOCKED ∧ self = m.owner_ then
    outcome.returned true { m with count_ := m.count_ + 1 } []
  else try_lock_until_loop ndebug self timeout_time clock env lock_pc.cas 0 m []

/-- Operation `recursive_timed_mutex::unlock()`, lines 197-220.  The notifier
popped from the front of `waiting_` is reported as the `set_ready` call. -/
def recursive_timed_mutex.unlock (ndebug : Bool) (self : Option Nat)
    (m : recursive_timed_mutex) : outcome Unit :=
  if !ndebug && m.state_ != state_t.LOCKED then
    outcome.assertion_failed assertion.state_locked m []
  else if !ndebug && self != m.owner_ then
    outcome.assertion_failed assertion.caller_is_owner m []
  else
    let m1 := { m with count_ := m.count_ - 1 }
    if m1.count_ = 0 then
      match m1.waiting_ with
      | [] => outcome.returned () { m1 with owner_ := none, state_ := state_t.UNLOCKED } []
      | n :: rest =>
        outcome.returned ()
          { m1 with waiting_ := rest, owner_ := none, state_ := state_t.UNLOCKED }
          [ext_call.set_ready n]
    else outcome.returned () m1 []

/-- The mutex after `n` successive calls of `op` that each return without a
blocking call (the only call out allowed is a `set_ready`); `none` as soon as
one of them does not. -/
def repeat_call (op : recursive_timed_mutex → outcome Unit) :
    Nat → recursive_timed_mutex → Option recursive_timed_mutex
  | 0, m => some m
  | n + 1, m =>
    match op m with
    | outcome.returned _ m1 calls =>
      if calls.all (fun c => match c with | ext_call.set_ready _ => true | _ => false)
      then repeat_call op n m1 else none
    | _ => none

/-! ## default_scheduler -/

/-- Modelled from the spec: `schedulable` is declared in default_scheduler.hpp,
which is not part of the sources.  Section 3 of the specification: a record is
a fiber handle plus an optional absolute deadline, and a record without a
deadline (the one-argument constructor used by `wait()`) is never returned by a
deadline scan. -/
structure schedulable where
  f : Nat
  abs_time : Option Nat
deriving DecidableEq, Repr

/-- The members of `default_scheduler` (constructor, lines 35-41); `f_idx_` and
`tp_idx_` are the two index views of `wqueue_`.  The waiting set is kept as the
list of its records in the order of insertion. -/
structure default_scheduler where
  active_fiber_ : Option Nat
  rqueue_ : List Nat
  wqueue_ : List schedulable
deriving DecidableEq, Repr

/-- The scheduler and the flags of the fiber objects: `complete` lists the
fibers with `is_complete()`, `resumed` those with `is_resumed()`. -/
structure world where
  sched : default_scheduler
  complete : List Nat
  resumed : List Nat
deriving DecidableEq, Repr

/-- The scheduler as constructed (lines 35-41), no fiber known yet. -/
def world.init : world :=
  { sched := { active_fiber_ := none, rqueue_ := [], wqueue_ := [] },
    complete := [], resumed := [] }

/-- A failed `BOOST_ASSERT` of default_scheduler.cpp, by the line it stands on,
a `suspend()` with no `resume()` to return to, or an event that the usage rule
under study excludes. -/
inductive fault where
  | assert_at (line : Nat)
  | no_resumer
  | not_permitted
deriving DecidableEq, Repr

/-- The macro `BOOST_ASSERT` at the given line. -/
def BOOST_ASSERT (line : Nat) (c : Bool) : Except fault Unit :=
  if c then Except.ok () else Except.error (fault.assert_at line)

/-- The call `f->is_complete()`. -/
def world.is_complete (w : world) (f : Nat) : Bool := w.complete.contains f

/-- The call `f->is_resumed()`. -/
def world.is_resumed (w : world) (f : Nat) : Bool := w.resumed.contains f

/-- The assignment `active_fiber_ = a`. -/
def world.set_active (a : Option Nat) (w : world) : world :=
  { w with sched := { w.sched with active_fiber_ := a } }

/-- The test `f_idx_.find( f) != f_idx_.end()`. -/
def f_idx_find (wq : List schedulable) (f : Nat) : Bool := wq.any (fun r => r.f == f)

/-- The call `f_idx_.erase( f)`: erase by key on the fiber index. -/
def f_idx_erase (f : Nat) (wq : List schedulable) : List schedulable :=
  wq.filter (fun r => r.f != f)

/-- An insert into the waiting set (`f_idx_.insert`, `wqueue_.insert`).  The
fiber index is unique (section 3 of the specification), so a record whose fiber
already has one is not inserted. -/
def wqueue_insert (r : schedulable) (wq : List schedulable) : List schedulable :=
  if f_idx_find wq r.f then wq else wq ++ [r]

/-- Order of the deadline index: an absent deadline comes after every time. -/
def deadline_le : Option Nat → Option Nat → Bool
  | some a, some b => decide (a ≤ b)
  | _, none => true
  | none, some _ => false

/-- The relation the deadline index `tp_idx_` is ordered by. -/
def tp_le (a b : schedulable) : Prop := deadline_le a.abs_time b.abs_time = true

instance : DecidableRel tp_le := fun a b =>
  inferInstanceAs (Decidable (deadline_le a.abs_time b.abs_time = true))

/-- The view `tp_idx_`: the records by ascending deadline, records of equal
deadline in the order of insertion. -/
def tp_idx (wq : List schedulable) : List schedulable := wq.insertionSort tp_le

/-- A record stands before `tp_idx_.upper_bound( now)`: its deadline is not
later than `now`. -/
def due (now : Nat) (r : schedulable) : Bool :=
  match r.abs_time with
  | some d => decide (d ≤ now)
  | none => false

/-- The range `[ tp_idx_.begin(), tp_idx_.upper_bound( now) )` of line 136. -/
def expired_range (now : Nat) (wq : List schedulable) : List schedulable :=
  (tp_idx wq).takeWhile (due now)

/-- Lines 134-142 of `run()`: every record of the range is pushed at the front
of the run queue, in the order of the range, then the range is erased. -/
def deadline_sweep (now : Nat) (s : default_scheduler) : default_scheduler :=
  let e := expired_range now s.wqueue_
  { s with rqueue_ := e.foldl (fun q r => r.f :: q) s.rqueue_,
           wqueue_ := s.wqueue_.filter (fun r => !(e.contains r)) }

/-- Lines 146-154 of `run()`: pop from the front until the popped handle is not
complete; `none` when the queue runs empty.  Every popped handle is asserted
(line 152) to have no record in the waiting set. -/
def pop_runnable (complete : List Nat) (wq : List schedulable) :
    List Nat → Except fault (Option Nat × List Nat)
  | [] => Except.ok (none, [])
  | f :: q =>
    if f_idx_find wq f then Except.error (fault.assert_at 152)
    else if complete.contains f then pop_runnable complete wq q
    else Except.ok (some f, q)

/-- Lines 134-154 of `run()`: the sweep and the choice of the fiber to resume. -/
def run_select (now : Nat) (w : world) : Except fault (world × Option Nat) :=
  let s1 := deadline_sweep now w.sched
  match pop_runnable w.complete s1.wqueue_ s1.rqueue_ with
  | Except.error e => Except.error e
  | Except.ok (sel, q) => Except.ok ({ w with sched := { s1 with rqueue_ := q } }, sel)

/-- The assertions of `RESUME_FIBER` before `f_->resume()` (lines 25-27; the
handle is not null by construction). -/
def resume_pre (w : world) (f : Nat) : Except fault Unit := do
  BOOST_ASSERT 26 (!w.is_complete f)
  BOOST_ASSERT 27 (!w.is_resumed f)

/-- The assertion of `RESUME_FIBER` after `f_->resume()` (line 29); the macro
argument is `active_fiber_`, read again at that point. -/
def resume_post (w : world) : Except fault Unit :=
  match w.sched.active_fiber_ with
  | none => Except.error (fault.assert_at 29)
  | some a => BOOST_ASSERT 29 (!w.is_resumed a)

/-- What a fiber does between the moment control is transferred to it and the
moment control comes back: the world it leaves, and whether control came back
by an exception. -/
abbrev fiber_code := Nat → world → world × Bool

/-- The tail shared by `spawn()` and `run()`: `RESUME_FIBER( active_fiber_)`
under the scope exit that restores `tmp`. -/
def resume_and_restore {α : Type} (resume : fiber_code) (tmp : Option Nat) (f : Nat) (v : α)
    (w : world) : Except fault (world × Option α) := do
  resume_pre w f
  let r := resume f w
  if r.2 then Except.ok (r.1.set_active tmp, none)
  else do
    resume_post r.1
    Except.ok (r.1.set_active tmp, some v)

/-- Operation `default_scheduler::spawn( f)`, lines 46-59.  The value is
`none` when an exception leaves the call. -/
def default_scheduler.spawn (resume : fiber_code) (f : Nat) (w : world) :
    Except fault (world × Option Unit) := do
  BOOST_ASSERT 50 (!w.is_complete f)
  BOOST_ASSERT 51 (some f != w.sched.active_fiber_)
  resume_and_restore resume w.sched.active_fiber_ f () (w.set_active (some f))

/-- Operation `default_scheduler::run()`, lines 131-163. -/
def default_scheduler.run (resume : fiber_code) (now : Nat) (w : world) :
    Except fault (world × Option Bool) := do
  let (w1, sel) ← run_select now w
  match sel with
  | none => Except.ok (w1, some false)
  | some f => resume_and_restore resume w.sched.active_fiber_ f true (w1.set_active (some f))

/-- Operation `default_scheduler::cancel( f)`, lines 87-111; `terminate` is what
`f->terminate()` does. -/
def default_scheduler.cancel (terminate : fiber_code) (f : Nat) (w : world) :
    Except fault (world × Option Unit) := do
  BOOST_ASSERT 91 (some f != w.sched.active_fiber_)
  if w.is_complete f then Except.ok (w, some ())
  else
    let r := terminate f (w.set_active (some f))
    let w1 := r.1.set_active w.sched.active_fiber_
    if r.2 then Except.ok (w1, none)
    else do
      let w2 := { w1 with sched := { w1.sched with wqueue_ := f_idx_erase f w1.sched.wqueue_ } }
      BOOST_ASSERT 110 (w2.is_complete f)
      Except.ok (w2, some ())

/-- Operation `default_scheduler::notify( f)`, lines 113-129.  The assertions of
lines 126-128 repeat those of lines 117-119 on flags the body does not touch. -/
def default_scheduler.notify (f : Nat) (w : world) : Except fault world := do
  BOOST_ASSERT 117 (!w.is_complete f)
  BOOST_ASSERT 118 (!w.is_resumed f)
  BOOST_ASSERT 119 (some f != w.sched.active_fiber_)
  Except.ok { w with sched := { w.sched with
    wqueue_ := f_idx_erase f w.sched.wqueue_, rqueue_ := f :: w.sched.rqueue_ } }

/-- The three assertions that open `wait()`, `yield()` and `sleep()`; the
active fiber when they hold. -/
def active_pre (l1 l2 l3 : Nat) (w : world) : Except fault Nat :=
  match w.sched.active_fiber_ with
  | none => Except.error (fault.assert_at l1)
  | some a => do
    BOOST_ASSERT l2 (!w.is_complete a)
    BOOST_ASSERT l3 (w.is_resumed a)
    Except.ok a

/-- Modelled from the spec: `fiber_base::suspend()` is not part of the sources.
Section 4.1: it returns control to whoever called `resume()`; section 3: the
fiber is no longer `resumed`. -/
def suspend (a : Nat) (w : world) : world :=
  { w with resumed := w.resumed.filter (fun x => x != a) }

/-- Operation `default_scheduler::wait()`, lines 165-175, up to the moment the
active fiber is suspended. -/
def default_scheduler.wait (w : world) : Except fault world := do
  let a ← active_pre 168 169 170 w
  Except.ok (suspend a { w with sched := { w.sched with
    wqueue_ := wqueue_insert { f := a, abs_time := none } w.sched.wqueue_ } })

/-- Operation `default_scheduler::yield()`, lines 182-192, up to the moment the
active fiber is suspended. -/
def default_scheduler.yield (w : world) : Except fault world := do
  let a ← active_pre 185 186 187 w
  Except.ok (suspend a { w with sched := { w.sched with rqueue_ := w.sched.rqueue_ ++ [a] } })

/-- Operation `default_scheduler::sleep( abs_time)`, lines 198-216, up to the
moment the active fiber is suspended; the flag tells whether it is. -/
def default_scheduler.sleep (abs_time now : Nat) (w : world) : Except fault (world × Bool) := do
  let a ← active_pre 201 202 203 w
  if abs_time > now then
    Except.ok (suspend a { w with sched := { w.sched with
      wqueue_ := wqueue_insert { f := a, abs_time := some abs_time } w.sched.wqueue_ } }, true)
  else Except.ok (w, false)

/-- Modelled from the spec: `fiber_base::terminate()` is not part of the sources.
Section 4.1: it unwinds the fiber's stack and after it returns the fiber is
complete; a complete fiber is not `resumed`. -/
def terminate_spec : fiber_code := fun f w =>
  ({ w with complete := f :: w.complete, resumed := w.resumed.filter (fun x => x != f) }, false)

/-! ### The scheduler as a machine

The operations above, taken one call at a time in the order in which they begin
or end.  A `spawn()` or `run()` that has transferred control to a fiber has not
returned yet; its saved `tmp` is kept until the fiber suspends or finishes. -/

/-- The world plus the saved `tmp` of every `spawn()`/`run()` whose `resume()`
has not returned, innermost first. -/
structure machine where
  w : world
  pending : List (Option Nat)
deriving DecidableEq, Repr

/-- The empty scheduler, control in the main context. -/
def machine.init : machine := { w := world.init, pending := [] }

/-- The calls of the scheduler's interface, and `finish`: the function of the
active fiber returns.  An event `run` carries the clock reading of line 136, an
event `sleep` the one of line 205. -/
inductive event where
  | spawn (f : Nat)
  | join (f : Nat)
  | cancel (f : Nat)
  | notify (f : Nat)
  | run (now : Nat)
  | wait
  | yield
  | sleep (abs_time : Nat) (now : Nat)
  | finish
deriving DecidableEq, Repr

/-- The macro `RESUME_FIBER` up to the transfer of control: the assertions, `tmp`
saved, the fiber active and resumed. -/
def machine.enter (f : Nat) (w1 : world) (m : machine) : Except fault machine := do
  resume_pre w1 f
  let w2 := w1.set_active (some f)
  Except.ok { w := { w2 with resumed := f :: w2.resumed },
              pending := m.w.sched.active_fiber_ :: m.pending }

/-- Control comes back to the innermost pending `resume()`: the assertion of
line 29, then the scope exit `active_fiber_ = tmp`. -/
def machine.leave (w1 : world) (m : machine) : Except fault machine :=
  match m.pending with
  | [] => Except.error fault.no_resumer
  | tmp :: rest => do
    resume_post w1
    Except.ok { w := w1.set_active tmp, pending := rest }

/-- One event of the machine.  `join( f)` from a fiber is `f->join( active)`
followed by `wait()`; from the main context it is a loop of `run()` calls, which
are events of their own.  `cancel` uses `terminate_spec`.
Modelled from the spec: the end of a fiber (`finish`) is the work of
`fiber_base`, which is not part of the sources.  Section 3: the fiber becomes
complete and is no longer resumed, and control returns to the `resume()` that
started it; the joiners are woken through `notify`, an event of its own.
The assertions a suspended call makes once it is resumed (lines 178-179, 195,
214-215) hold by `RESUME_FIBER`; the one of line 84 is not checked by the
machine, which therefore allows at least the runs of the code. -/
def machine.step (e : event) (m : machine) : Except fault machine :=
  match e with
  | event.spawn f => do
    BOOST_ASSERT 50 (!m.w.is_complete f)
    BOOST_ASSERT 51 (some f != m.w.sched.active_fiber_)
    m.enter f m.w
  | event.join f => do
    BOOST_ASSERT 65 (!m.w.is_complete f)
    BOOST_ASSERT 66 (some f != m.w.sched.active_fiber_)
    match m.w.sched.active_fiber_ with
    | some _ => do
      let w1 ← default_scheduler.wait m.w
      m.leave w1
    | none => Except.ok m
  | event.cancel f => do
    let r ← default_scheduler.cancel terminate_spec f m.w
    Except.ok { m with w := r.1 }
  | event.notify f => do
    let w1 ← default_scheduler.notify f m.w
    Except.ok { m with w := w1 }
  | event.run now => do
    let (w1, sel) ← run_select now m.w
    match sel with
    | none => Except.ok { m with w := w1 }
    | some f => m.enter f w1
  | event.wait => do
    let w1 ← default_scheduler.wait m.w
    m.leave w1
  | event.yield => do
    let w1 ← default_scheduler.yield m.w
    m.leave w1
  | event.sleep abs_time now => do
    let (w1, suspended) ← default_scheduler.sleep abs_time now m.w
    if suspended then m.leave w1 else Except.ok { m with w := w1 }
  | event.finish =>
    match m.w.sched.active_fiber_ with
    | none => Except.error fault.no_resumer
    | some a =>
      m.leave { m.w with complete := a :: m.w.complete,
                         resumed := m.w.resumed.filter (fun x => x != a) }

/-- The machine after a sequence of events, each under its assertions and only
where the usage rule `permitted` allows it. -/
def machine.exec (permitted : event → machine → Bool) :
    List event → machine → Except fault machine
  | [], m => Except.ok m
  | e :: es, m =>
    if permitted e m then
      match m.step e with
      | Except.error x => Except.error x
      | Except.ok m1 => machine.exec permitted es m1
    else Except.error fault.not_permitted

/-- A state of the machine reachable from the empty scheduler under a usage rule. -/
def machine.reachable (permitted : event → machine → Bool) (m : machine) : Prop :=
  ∃ es, machine.exec permitted es machine.init = Except.ok m

/-- No usage rule: every call whose assertions hold is allowed. -/
def asserted_only : event → machine → Bool := fun _ _ => true

/-- Usage rule: `spawn( f)` only for a fiber without a record in the waiting
set, `cancel( f)` only for a fiber that is not resumed. -/
def spawn_unwaiting_cancel_suspended : event → machine → Bool
  | event.spawn f, m => !f_idx_find m.w.sched.wqueue_ f
  | event.cancel f, m => !m.w.is_resumed f
  | _, _ => true

/-- Usage rule: `spawn( f)` only for a fiber in neither the run queue nor the
waiting set, `notify( f)` only for a fiber that is not in the run queue. -/
def spawn_unqueued_notify_unqueued : event → machine → Bool
  | event.spawn f, m => !m.w.sched.rqueue_.contains f && !f_idx_find m.w.sched.wqueue_ f
  | event.notify f, m => !m.w.sched.rqueue_.contains f
  | _, _ => true

/-- The fibers placed in the scheduler: run queue, waiting set, active slot. -/
def placed (s : default_scheduler) : List Nat :=
  s.rqueue_ ++ s.wqueue_.map schedulable.f ++ s.active_fiber_.toList

/-- The machine with the given active fiber, run queue, waiting set, complete
fibers, resumed fibers and pending calls. -/
def machine.of (a : Option Nat) (rq : List Nat) (wq : List schedulable) (c r : List Nat)
    (p : List (Option Nat)) : machine :=
  { w := { sched := { active_fiber_ := a, rqueue_ := rq, wqueue_ := wq },
           complete := c, resumed := r },
    pending := p }

/-- The fibers whose `resume()` has not returned: the active fiber and the saved
`tmp` handles of the pending calls. -/
def chain (m : machine) : List Nat := (m.w.sched.active_fiber_ :: m.pending).filterMap id

/-- Invariant kept by every event under `spawn_unwaiting_cancel_suspended`. -/
structure inv_complete (m : machine) : Prop where
  chain_nodup : (chain m).Nodup
  chain_live : ∀ x ∈ chain m, x ∈ m.w.resumed ∧ x ∉ m.w.complete
  resumed_out : ∀ x ∈ m.w.resumed, x ∉ m.w.sched.wqueue_.map schedulable.f
  complete_out : ∀ x ∈ m.w.complete, x ∉ m.w.sched.wqueue_.map schedulable.f

/-- Invariant kept by every event under `spawn_unqueued_notify_unqueued`. -/
structure inv_placed (m : machine) : Prop where
  chain_nodup : (chain m).Nodup
  chain_out : ∀ x ∈ chain m, x ∉ m.w.sched.rqueue_
    ∧ x ∉ m.w.sched.wqueue_.map schedulable.f ∧ (x ∈ m.w.resumed ∨ x ∈ m.w.complete)
  queues_nodup : (m.w.sched.rqueue_ ++ m.w.sched.wqueue_.map schedulable.f).Nodup

/-! ### join, notifiers and the fibers of the scenarios -/

/-- Modelled from the spec: the notifier classes are not part of the sources.
Section 4.4: `set_ready()` of a fiber's notifier calls `scheduler.notify( fiber)`,
that of a main notifier only flips its flag. -/
def set_ready (n : notify_ptr) (w : world) : Except fault world :=
  match n with
  | notify_ptr.fiber f => default_scheduler.notify f w
  | notify_ptr.main_notifier => Except.ok w

/-- How a call of `join( f)` stands: returned after so many `run()` calls;
the calling fiber suspended in `wait()`; still in the loop of line 80 when the
supply of runs is used up; left by an exception out of `run()`; stopped by a
failed assertion. -/
inductive join_outcome where
  | returned (w : world) (runs : Nat)
  | suspended (w : world)
  | pumping (w : world) (runs : Nat)
  | thrown (w : world) (runs : Nat)
  | failed (e : fault)
deriving DecidableEq, Repr

/-- The loop `while ( ! f->is_complete() ) run();` of lines 80-81.  Each entry of
the supply is one `run()`: its clock reading and what the fiber it resumes does. -/
def join_loop (f : Nat) : List (Nat × fiber_code) → world → Nat → join_outcome
  | [], w, n => if w.is_complete f then join_outcome.returned w n else join_outcome.pumping w n
  | (now, code) :: rest, w, n =>
    if w.is_complete f then join_outcome.returned w n
    else
      match default_scheduler.run code now w with
      | Except.error e => join_outcome.failed e
      | Except.ok (w1, none) => join_outcome.thrown w1 (n + 1)
      | Except.ok (w1, some _) => join_loop f rest w1 (n + 1)

/-- Operation `default_scheduler::join( f)`, lines 61-85.  With an active fiber:
`f->join( active_fiber_)` (a registration inside the fiber object) and `wait()`,
up to the suspension.  Without: the loop of `run()` calls; the assertion of line
84 holds when the loop ends. -/
def default_scheduler.join (f : Nat) (runs : List (Nat × fiber_code)) (w : world) :
    join_outcome :=
  if w.is_complete f then join_outcome.failed (fault.assert_at 65)
  else if some f == w.sched.active_fiber_ then join_outcome.failed (fault.assert_at 66)
  else
    match w.sched.active_fiber_ with
    | some _ =>
      match default_scheduler.wait w with
      | Except.ok w1 => join_outcome.suspended w1
      | Except.error e => join_outcome.failed e
    | none => join_loop f runs w 0

/-- A fiber that, once resumed, runs up to a call of `yield()` (lines 191-192):
`resume()` marks it resumed, `yield()` queues it at the back and suspends it. -/
def runs_to_yield : fiber_code := fun g w =>
  (suspend g { w with sched := { w.sched with rqueue_ := w.sched.rqueue_ ++ [g] },
                      resumed := g :: w.resumed }, false)

/-- A fiber that, once resumed, runs to the end of its function: it is complete
and no longer resumed (section 3 of the specification). -/
def runs_to_end : fiber_code := fun g w =>
  ({ w with complete := g :: w.complete, resumed := w.resumed.filter (fun x => x != g) }, false)

/-! ### Reachable states of the mutex -/

/-- The mutex a call leaves behind for the other fibers: on return, on
suspension, on an exception.  A failed assertion or an undefined step leaves
none. -/
def outcome.left {α : Type} : outcome α → Option recursive_timed_mutex
  | outcome.returned _ m _ => some m
  | outcome.blocked m _ => some m
  | outcome.thrown m _ => some m
  | outcome.assertion_failed _ _ _ => none
  | outcome.undefined _ _ => none

/-- The mutex a resumed caller finds. -/
def resume_info.found : resume_info → recursive_timed_mutex
  | resume_info.returned m _ => m
  | resume_info.thrown m => m

/-- The states of a mutex reachable from the freshly constructed one through
`lock()`, `try_lock()`, `try_lock_until()` by fibers and `unlock()` by the owner
of a LOCKED mutex.  What a suspended caller finds when resumed is itself a
reachable state. -/
inductive mutex_reachable (ndebug : Bool) : recursive_timed_mutex → Prop where
  | init : mutex_reachable ndebug recursive_timed_mutex.init
  | lock (g : Nat) (env : List resume_info) (m m1 : recursive_timed_mutex) :
      mutex_reachable ndebug m → (∀ r ∈ env, mutex_reachable ndebug r.found) →
      (recursive_timed_mutex.lock ndebug (some g) env m).left = some m1 →
      mutex_reachable ndebug m1
  | try_lock (g : Nat) (env : List resume_info) (m m1 : recursive_timed_mutex) :
      mutex_reachable ndebug m → (∀ r ∈ env, mutex_reachable ndebug r.found) →
      (recursive_timed_mutex.try_lock ndebug (some g) env m).left = some m1 →
      mutex_reachable ndebug m1
  | try_lock_until (g timeout_time : Nat) (clock : Nat → Nat) (env : List resume_info)
      (m m1 : recursive_timed_mutex) :
      mutex_reachable ndebug m → (∀ r ∈ env, mutex_reachable ndebug r.found) →
      (recursive_timed_mutex.try_lock_until ndebug (some g) timeout_time clock env m).left
        = some m1 →
      mutex_reachable ndebug m1
  | unlock (g : Nat) (m m1 : recursive_timed_mutex) :
      mutex_reachable ndebug m → m.state_ = state_t.LOCKED → m.owner_ = some g →
      (recursive_timed_mutex.unlock ndebug (some g) m).left = some m1 →
      mutex_reachable ndebug m1

/-- The state of the mutex is consistent: UNLOCKED iff count 0 iff no owner,
LOCKED iff count at least 1. -/
structure mutex_consistent (m : recursive_timed_mutex) : Prop where
  unlocked_iff : m.state_ = state_t.UNLOCKED ↔ m.count_ = 0
  count_iff : m.count_ = 0 ↔ m.owner_ = none
  locked_iff : m.state_ = state_t.LOCKED ↔ 1 ≤ m.count_
  count_nonneg : 0 ≤ m.count_

/-- The three assertions of the destructor, lines 35-37. -/
def destructor_assertions (m : recursive_timed_mutex) : Prop :=
  m.owner_ = none ∧ m.count_ = 0 ∧ m.waiting_ = []

/-! ## Theorems: recursive_timed_mutex -/

theorem repeat_call_lock_owner (ndebug : Bool) (self : Option Nat) (w : List notify_ptr)
    (n : Nat) (c : Int) :
    repeat_call (recursive_timed_mutex.lock ndebug self []) n
        { owner_ := self, count_ := c, state_ := state_t.LOCKED, waiting_ := w }
      = some { owner_ := self, count_ := c + n, state_ := state_t.LOCKED, waiting_ := w } := by
  induction n generalizing c with
  | zero => simp [repeat_call]
  | succ n ih =>
    simp only [repeat_call, recursive_timed_mutex.lock, and_self, if_true, List.all_nil]
    rw [ih]
    simp only [Nat.cast_add, Nat.cast_one, Option.some.injEq, recursive_timed_mutex.mk.injEq,
      and_true, true_and]
    ring

theorem repeat_call_unlock_owner (ndebug : Bool) (self : Option Nat) (w : List notify_ptr)
    (k : Nat) (c : Int) (h : (k : Int) < c) :
    repeat_call (recursive_timed_mutex.unlock ndebug self) k
        { owner_ := self, count_ := c, state_ := state_t.LOCKED, waiting_ := w }
      = some { owner_ := self, count_ := c - k, state_ := state_t.LOCKED, waiting_ := w } := by
  induction k generalizing c with
  | zero => simp [repeat_call]
  | succ k ih =>
    have hc : c - 1 ≠ 0 := by push_cast at h; omega
    have hk : (k : Int) < c - 1 := by push_cast at h; omega
    simp only [repeat_call, recursive_timed_mutex.unlock, bne_self_eq_false, Bool.and_false,
      Bool.false_eq_true, if_false, hc, List.all_nil, if_true]
    rw [ih _ hk]
    simp only [Nat.cast_add, Nat.cast_one, Option.some.injEq, recursive_timed_mutex.mk.injEq,
      and_true, true_and]
    ring

theorem repeat_call_succ (op : recursive_timed_mutex → outcome Unit) (a : Nat)
    (m m1 : recursive_timed_mutex) (h : repeat_call op a m = some m1) :
    repeat_call op (a + 1) m = repeat_call op 1 m1 := by
  induction a generalizing m with
  | zero => simp [repeat_call] at h; subst h; rfl
  | succ a ih =>
    rw [repeat_call] at h ⊢
    cases hop : op m with
    | returned v m2 calls =>
      rw [hop] at h
      simp only at h ⊢
      split at h
      · rename_i hc
        simp only [hc, if_true]
        exact ih m2 h
      · exact absurd h (by simp)
    | blocked _ _ => rw [hop] at h; exact absurd h (by simp)
    | thrown _ _ => rw [hop] at h; exact absurd h (by simp)
    | assertion_failed _ _ _ => rw [hop] at h; exact absurd h (by simp)
    | undefined _ _ => rw [hop] at h; exact absurd h (by simp)

/-- C2: recursive locking.  On an unlocked mutex (no owner, count 0) N successive
`lock()` calls by fiber g all return without suspending and leave owner = g,
count = N; k < N calls of `unlock()` by g leave the mutex LOCKED with owner g
and count N - k; the N-th `unlock()` leaves it UNLOCKED with count 0 and the
empty owner id (the front waiter, if any, popped). -/
theorem recursive_lock_needs_matching_unlocks (ndebug : Bool) (g : Nat)
    (w : List notify_ptr) (N k : Nat) (hN : 1 ≤ N) (hk : k < N) :
    repeat_call (recursive_timed_mutex.lock ndebug (some g) []) N
        { owner_ := none, count_ := 0, state_ := state_t.UNLOCKED, waiting_ := w }
      = some { owner_ := some g, count_ := N, state_ := state_t.LOCKED, waiting_ := w }
    ∧ repeat_call (recursive_timed_mutex.unlock ndebug (some g)) k
        { owner_ := some g, count_ := N, state_ := state_t.LOCKED, waiting_ := w }
      = some { owner_ := some g, count_ := N - k, state_ := state_t.LOCKED, waiting_ := w }
    ∧ repeat_call (recursive_timed_mutex.unlock ndebug (some g)) N
        { owner_ := some g, count_ := N, state_ := state_t.LOCKED, waiting_ := w }
      = some { owner_ := none, count_ := 0, state_ := state_t.UNLOCKED, waiting_ := w.tail } := by
  obtain ⟨n, rfl⟩ : ∃ n, N = n + 1 := ⟨N - 1, by omega⟩
  refine ⟨?_, ?_, ?_⟩
  · have h1 : recursive_timed_mutex.lock ndebug (some g) []
          { owner_ := none, count_ := 0, state_ := state_t.UNLOCKED, waiting_ := w }
        = outcome.returned ()
          { owner_ := some g, count_ := 1, state_ := state_t.LOCKED, waiting_ := w } [] := by
      simp [recursive_timed_mutex.lock, lock_loop, lock_to_suspension, take_ownership]
    simp only [repeat_call, h1, List.all_nil, if_true]
    rw [repeat_call_lock_owner]
    simp only [Nat.cast_add, Nat.cast_one, Option.some.injEq, recursive_timed_mutex.mk.injEq,
      and_true, true_and]
    ring
  · exact repeat_call_unlock_owner ndebug (some g) w k _ (by exact_mod_cast hk)
  · -- n unlocks bring the count to 1, the last one releases
    rw [repeat_call_succ _ n _ _
      (repeat_call_unlock_owner ndebug (some g) w n _ (by push_cast; omega))]
    have hc : ((n + 1 : Nat) : Int) - (n : Int) - 1 = 0 := by push_cast; ring
    cases w with
    | nil => simp [repeat_call, recursive_timed_mutex.unlock, hc]
    | cons a w => simp [repeat_call, recursive_timed_mutex.unlock, hc]

theorem recursive_lock_needs_matching_unlocks_witness :
    repeat_call (recursive_timed_mutex.lock false (some 4) []) 3
        { owner_ := none, count_ := 0, state_ := state_t.UNLOCKED,
          waiting_ := [notify_ptr.fiber 9] }
      = some { owner_ := some 4, count_ := ((3 : Nat) : Int), state_ := state_t.LOCKED,
               waiting_ := [notify_ptr.fiber 9] }
    ∧ repeat_call (recursive_timed_mutex.unlock false (some 4)) 2
        { owner_ := some 4, count_ := ((3 : Nat) : Int), state_ := state_t.LOCKED,
          waiting_ := [notify_ptr.fiber 9] }
      = some { owner_ := some 4, count_ := ((3 : Nat) : Int) - ((2 : Nat) : Int),
               state_ := state_t.LOCKED, waiting_ := [notify_ptr.fiber 9] }
    ∧ repeat_call (recursive_timed_mutex.unlock false (some 4)) 3
        { owner_ := some 4, count_ := ((3 : Nat) : Int), state_ := state_t.LOCKED,
          waiting_ := [notify_ptr.fiber 9] }
      = some { owner_ := none, count_ := 0, state_ := state_t.UNLOCKED,
               waiting_ := [notify_ptr.fiber 9].tail } :=
  recursive_lock_needs_matching_unlocks false 4 [notify_ptr.fiber 9] 3 2
    (by decide) (by decide)

/-- C1 (failing input): the mutex is LOCKED by fiber 1 with count 1, fiber 2
calls `try_lock_until` with a deadline (0) that has passed at the first clock
reading (5).  The loop of line 124 is skipped without a compare-and-swap, line
186 finds the state LOCKED, and the call goes on to lines 188-194: with the
assertions compiled out it overwrites the owner with fiber 2, raises the count
to 2 and returns true; with them compiled in `BOOST_ASSERT( ! owner_)` fails. -/
theorem try_lock_until_expired_overwrites_owner :
    recursive_timed_mutex.try_lock_until true (some 2) 0 (fun _ => 5) []
        { owner_ := some 1, count_ := 1, state_ := state_t.LOCKED, waiting_ := [] }
      = outcome.returned true
          { owner_ := some 2, count_ := 2, state_ := state_t.LOCKED, waiting_ := [] } []
    ∧ recursive_timed_mutex.try_lock_until false (some 2) 0 (fun _ => 5) []
        { owner_ := some 1, count_ := 1, state_ := state_t.LOCKED, waiting_ := [] }
      = outcome.assertion_failed assertion.owner_empty
          { owner_ := some 1, count_ := 1, state_ := state_t.LOCKED, waiting_ := [] } [] := by
  constructor <;> decide

/-- C3 (failing input): deadline 10 equal to the clock reading 10, mutex LOCKED
by fiber 3 with count 2 and one waiter, caller fiber 7.  `try_lock_until` does
not return false: with the assertions compiled out it returns true with owner 7
and count 3, with them compiled in it stops at `BOOST_ASSERT( ! owner_)`.  On
the same input with the mutex UNLOCKED it returns false and changes nothing. -/
theorem try_lock_until_expired_not_false_when_locked :
    recursive_timed_mutex.try_lock_until true (some 7) 10 (fun _ => 10) []
        { owner_ := some 3, count_ := 2, state_ := state_t.LOCKED,
          waiting_ := [notify_ptr.fiber 9] }
      = outcome.returned true
          { owner_ := some 7, count_ := 3, state_ := state_t.LOCKED,
            waiting_ := [notify_ptr.fiber 9] } []
    ∧ recursive_timed_mutex.try_lock_until false (some 7) 10 (fun _ => 10) []
        { owner_ := some 3, count_ := 2, state_ := state_t.LOCKED,
          waiting_ := [notify_ptr.fiber 9] }
      = outcome.assertion_failed assertion.owner_empty
          { owner_ := some 3, count_ := 2, state_ := state_t.LOCKED,
            waiting_ := [notify_ptr.fiber 9] } []
    ∧ recursive_timed_mutex.try_lock_until false (some 7) 10 (fun _ => 10) []
        { owner_ := none, count_ := 0, state_ := state_t.UNLOCKED,
          waiting_ := [notify_ptr.fiber 9] }
      = outcome.returned false
          { owner_ := none, count_ := 0, state_ := state_t.UNLOCKED,
            waiting_ := [notify_ptr.fiber 9] } [] := by
  refine ⟨?_, ?_, ?_⟩ <;> decide

/-! ## Theorems: default_scheduler, one operation at a time -/

theorem BOOST_ASSERT_ok_iff (line : Nat) (c : Bool) :
    BOOST_ASSERT line c = Except.ok () ↔ c = true := by
  cases c <;> simp [BOOST_ASSERT]

theorem bind_ok_iff {ε α β : Type} (x : Except ε α) (k : α → Except ε β) (b : β) :
    (x >>= k) = Except.ok b ↔ ∃ a, x = Except.ok a ∧ k a = Except.ok b := by
  cases x <;> simp [bind, Except.bind]

theorem f_idx_find_iff (wq : List schedulable) (f : Nat) :
    f_idx_find wq f = true ↔ f ∈ wq.map schedulable.f := by
  simp only [f_idx_find, List.any_eq_true, beq_iff_eq, List.mem_map]

theorem f_idx_find_false_iff (wq : List schedulable) (f : Nat) :
    f_idx_find wq f = false ↔ f ∉ wq.map schedulable.f := by
  rw [← f_idx_find_iff]; simp

theorem mem_f_idx_erase (f : Nat) (wq : List schedulable) (r : schedulable) :
    r ∈ f_idx_erase f wq ↔ r ∈ wq ∧ r.f ≠ f := by
  simp [f_idx_erase]

theorem mem_map_f_idx_erase (f x : Nat) (wq : List schedulable) :
    x ∈ (f_idx_erase f wq).map schedulable.f ↔ x ∈ wq.map schedulable.f ∧ x ≠ f := by
  simp only [List.mem_map, mem_f_idx_erase]
  constructor
  · rintro ⟨r, ⟨hr, hne⟩, rfl⟩; exact ⟨⟨r, hr, rfl⟩, hne⟩
  · rintro ⟨⟨r, hr, rfl⟩, hne⟩; exact ⟨r, ⟨hr, hne⟩, rfl⟩

theorem is_complete_iff (w : world) (f : Nat) : w.is_complete f = true ↔ f ∈ w.complete := by
  simp [world.is_complete]

theorem is_resumed_iff (w : world) (f : Nat) : w.is_resumed f = true ↔ f ∈ w.resumed := by
  simp [world.is_resumed]

/-- C8: `notify( f)` under its asserted preconditions (f not complete, not
resumed, not the active fiber) returns with f at the front of the run queue,
the former run queue behind it in unchanged order, the waiting set reduced to
the records of the other fibers (in unchanged order, each with its deadline),
and the active fiber and the fibers' flags unchanged. -/
theorem notify_postcondition (f : Nat) (w : world) (hc : f ∉ w.complete) (hr : f ∉ w.resumed)
    (ha : w.sched.active_fiber_ ≠ some f) :
    ∃ w1, default_scheduler.notify f w = Except.ok w1
      ∧ w1.sched.rqueue_ = f :: w.sched.rqueue_
      ∧ w1.sched.wqueue_ = w.sched.wqueue_.filter (fun r => decide (r.f ≠ f))
      ∧ w1.sched.active_fiber_ = w.sched.active_fiber_
      ∧ w1.complete = w.complete ∧ w1.resumed = w.resumed := by
  have h1 : w.is_complete f = false := by
    rw [← Bool.not_eq_true, is_complete_iff]; exact hc
  have h2 : w.is_resumed f = false := by
    rw [← Bool.not_eq_true, is_resumed_iff]; exact hr
  have h3 : (some f != w.sched.active_fiber_) = true := by
    simp only [bne_iff_ne, ne_eq]; exact fun h => ha h.symm
  refine ⟨{ w with sched := { w.sched with
      wqueue_ := f_idx_erase f w.sched.wqueue_, rqueue_ := f :: w.sched.rqueue_ } },
    ?_, rfl, ?_, rfl, rfl, rfl⟩
  · simp [default_scheduler.notify, BOOST_ASSERT, h1, h2, h3, bind, Except.bind]
  · show f_idx_erase f w.sched.wqueue_ = _
    unfold f_idx_erase
    congr 1
    funext r
    by_cases h : r.f = f <;> simp [h, bne]

theorem notify_postcondition_witness :
    ∃ w1, default_scheduler.notify 2
        { sched := { active_fiber_ := some 1, rqueue_ := [3],
                     wqueue_ := [{ f := 2, abs_time := some 50 }, { f := 4, abs_time := none }] },
          complete := [], resumed := [1] } = Except.ok w1
      ∧ w1.sched.rqueue_ = 2 :: [3]
      ∧ w1.sched.wqueue_
          = List.filter (fun r => decide (r.f ≠ 2))
              [({ f := 2, abs_time := some 50 } : schedulable), { f := 4, abs_time := none }]
      ∧ w1.sched.active_fiber_ = some 1
      ∧ w1.complete = [] ∧ w1.resumed = [1] :=
  notify_postcondition 2
    { sched := { active_fiber_ := some 1, rqueue_ := [3],
                 wqueue_ := [{ f := 2, abs_time := some 50 }, { f := 4, abs_time := none }] },
      complete := [], resumed := [1] } (by decide) (by decide) (by decide)

theorem set_active_active (a : Option Nat) (w : world) :
    (w.set_active a).sched.active_fiber_ = a := rfl

theorem resume_and_restore_ok {α : Type} (resume : fiber_code) (tmp : Option Nat) (f : Nat)
    (v : α) (w w1 : world) (x : Option α)
    (h : resume_and_restore resume tmp f v w = Except.ok (w1, x)) :
    w1 = (resume f w).1.set_active tmp ∧ f ∉ w.complete ∧ f ∉ w.resumed
      ∧ ((resume f w).2 = true ∧ x = none ∨ (resume f w).2 = false ∧ x = some v) := by
  unfold resume_and_restore at h
  rw [bind_ok_iff] at h
  obtain ⟨_, hpre, h⟩ := h
  have hpre2 : f ∉ w.complete ∧ f ∉ w.resumed := by
    unfold resume_pre at hpre
    rw [bind_ok_iff] at hpre
    obtain ⟨_, h26, h27⟩ := hpre
    rw [BOOST_ASSERT_ok_iff] at h26 h27
    simp only [Bool.not_eq_true', ← Bool.not_eq_true, is_complete_iff, is_resumed_iff] at h26 h27
    exact ⟨h26, h27⟩
  by_cases hthrow : (resume f w).2 = true
  · simp only [hthrow, if_true, Except.ok.injEq, Prod.mk.injEq] at h
    exact ⟨h.1.symm, hpre2.1, hpre2.2, Or.inl ⟨hthrow, h.2.symm⟩⟩
  · simp only [hthrow, Bool.false_eq_true, if_false] at h
    rw [bind_ok_iff] at h
    obtain ⟨_, _, h⟩ := h
    simp only [Except.ok.injEq, Prod.mk.injEq] at h
    exact ⟨h.1.symm, hpre2.1, hpre2.2, Or.inr ⟨by simpa using hthrow, h.2.symm⟩⟩

theorem run_select_ok (now : Nat) (w w0 : world) (sel : Option Nat)
    (h : run_select now w = Except.ok (w0, sel)) :
    ∃ q, pop_runnable w.complete (deadline_sweep now w.sched).wqueue_
            (deadline_sweep now w.sched).rqueue_ = Except.ok (sel, q)
      ∧ w0 = { w with sched := { deadline_sweep now w.sched with rqueue_ := q } } := by
  unfold run_select at h
  dsimp only at h
  cases hp : pop_runnable w.complete (deadline_sweep now w.sched).wqueue_
      (deadline_sweep now w.sched).rqueue_ with
  | error e => rw [hp] at h; exact absurd h (by simp)
  | ok r =>
    obtain ⟨sel1, q⟩ := r
    rw [hp] at h
    simp only [Except.ok.injEq, Prod.mk.injEq] at h
    obtain ⟨rfl, rfl⟩ := h
    exact ⟨q, rfl, rfl⟩

theorem deadline_sweep_active (now : Nat) (s : default_scheduler) :
    (deadline_sweep now s).active_fiber_ = s.active_fiber_ := rfl

theorem run_select_active (now : Nat) (w w0 : world) (sel : Option Nat)
    (h : run_select now w = Except.ok (w0, sel)) :
    w0.sched.active_fiber_ = w.sched.active_fiber_ ∧ w0.complete = w.complete
      ∧ w0.resumed = w.resumed := by
  obtain ⟨q, _, rfl⟩ := run_select_ok now w w0 sel h
  exact ⟨rfl, rfl, rfl⟩

theorem cancel_ok (terminate : fiber_code) (f : Nat) (w w1 : world) (v : Option Unit)
    (h : default_scheduler.cancel terminate f w = Except.ok (w1, v)) :
    w.sched.active_fiber_ ≠ some f ∧
    (f ∈ w.complete ∧ w1 = w ∧ v = some ()
      ∨ f ∉ w.complete ∧ (terminate f (w.set_active (some f))).2 = true ∧ v = none
          ∧ w1 = (terminate f (w.set_active (some f))).1.set_active w.sched.active_fiber_
      ∨ f ∉ w.complete ∧ (terminate f (w.set_active (some f))).2 = false ∧ v = some ()
          ∧ f ∈ w1.complete
          ∧ w1 = { (terminate f (w.set_active (some f))).1 with
                sched := { (terminate f (w.set_active (some f))).1.sched with
                  active_fiber_ := w.sched.active_fiber_,
                  wqueue_ := f_idx_erase f
                    (terminate f (w.set_active (some f))).1.sched.wqueue_ } }) := by
  unfold default_scheduler.cancel at h
  rw [bind_ok_iff] at h
  obtain ⟨_, h91, h⟩ := h
  rw [BOOST_ASSERT_ok_iff] at h91
  have ha : w.sched.active_fiber_ ≠ some f := by
    intro hEq
    rw [hEq] at h91
    simp at h91
  refine ⟨ha, ?_⟩
  by_cases hc : w.is_complete f = true
  · simp only [hc, if_true, Except.ok.injEq, Prod.mk.injEq] at h
    exact Or.inl ⟨(is_complete_iff w f).1 hc, h.1.symm, h.2.symm⟩
  · have hc2 : f ∉ w.complete := fun hm => hc ((is_complete_iff w f).2 hm)
    simp only [hc, Bool.false_eq_true, if_false] at h
    by_cases hthrow : (terminate f (w.set_active (some f))).2 = true
    · simp only [hthrow, if_true, Except.ok.injEq, Prod.mk.injEq] at h
      exact Or.inr (Or.inl ⟨hc2, hthrow, h.2.symm, h.1.symm⟩)
    · simp only [hthrow, Bool.false_eq_true, if_false] at h
      rw [bind_ok_iff] at h
      obtain ⟨_, h110, h⟩ := h
      rw [BOOST_ASSERT_ok_iff, is_complete_iff] at h110
      simp only [Except.ok.injEq, Prod.mk.injEq] at h
      obtain ⟨rfl, rfl⟩ := h
      exact Or.inr (Or.inr ⟨hc2, by simpa using hthrow, rfl, h110, rfl⟩)

theorem cancel_of_complete (terminate : fiber_code) (f : Nat) (w : world)
    (ha : w.sched.active_fiber_ ≠ some f) (hc : f ∈ w.complete) :
    default_scheduler.cancel terminate f w = Except.ok (w, some ()) := by
  have h3 : (some f != w.sched.active_fiber_) = true := by
    simp only [bne_iff_ne, ne_eq]; exact fun h => ha h.symm
  simp [default_scheduler.cancel, BOOST_ASSERT, h3, (is_complete_iff w f).2 hc, bind,
    Except.bind]

/-- C10: `cancel( f)` for a fiber f that is not the active one.  If f is complete
the call returns the world unchanged, whatever `terminate` would do (it is not
called).  Otherwise, when `terminate` returns normally with f complete, the call
returns with f complete, no record of f in the waiting set, the records of the
other fibers exactly as `terminate` left them, and the active fiber as before.
A second `cancel( f)` after one that returned changes nothing. -/
theorem cancel_contract (terminate : fiber_code) (f : Nat) (w : world)
    (ha : w.sched.active_fiber_ ≠ some f) :
    (f ∈ w.complete → default_scheduler.cancel terminate f w = Except.ok (w, some ()))
    ∧ (f ∉ w.complete → (terminate f (w.set_active (some f))).2 = false →
        f ∈ (terminate f (w.set_active (some f))).1.complete →
        ∃ w2, default_scheduler.cancel terminate f w = Except.ok (w2, some ())
          ∧ f ∈ w2.complete
          ∧ f ∉ w2.sched.wqueue_.map schedulable.f
          ∧ w2.sched.wqueue_
              = (terminate f (w.set_active (some f))).1.sched.wqueue_.filter
                  (fun r => decide (r.f ≠ f))
          ∧ w2.sched.rqueue_ = (terminate f (w.set_active (some f))).1.sched.rqueue_
          ∧ w2.sched.active_fiber_ = w.sched.active_fiber_)
    ∧ (∀ w2, default_scheduler.cancel terminate f w = Except.ok (w2, some ()) →
        default_scheduler.cancel terminate f w2 = Except.ok (w2, some ())) := by
  have h3 : (some f != w.sched.active_fiber_) = true := by
    simp only [bne_iff_ne, ne_eq]; exact fun h => ha h.symm
  refine ⟨cancel_of_complete terminate f w ha, ?_, ?_⟩
  · intro hc hret hdone
    have hc1 : w.is_complete f = false := by
      rw [← Bool.not_eq_true, is_complete_iff]; exact hc
    refine ⟨{ (terminate f (w.set_active (some f))).1 with
        sched := { (terminate f (w.set_active (some f))).1.sched with
          active_fiber_ := w.sched.active_fiber_,
          wqueue_ := f_idx_erase f (terminate f (w.set_active (some f))).1.sched.wqueue_ } },
      ?_, hdone, ?_, ?_, rfl, rfl⟩
    · have h110 : world.is_complete
          { ((terminate f (w.set_active (some f))).1.set_active w.sched.active_fiber_) with
            sched := { ((terminate f (w.set_active (some f))).1.set_active
                          w.sched.active_fiber_).sched with
              wqueue_ := f_idx_erase f ((terminate f (w.set_active (some f))).1.set_active
                          w.sched.active_fiber_).sched.wqueue_ } } f = true :=
        (is_complete_iff _ f).2 hdone
      simp only [default_scheduler.cancel, BOOST_ASSERT, h3, hc1, hret, bind, Except.bind,
        if_true, Bool.false_eq_true, if_false, h110]
      rfl
    · intro hmem
      exact ((mem_map_f_idx_erase f f _).1 hmem).2 rfl
    · show f_idx_erase f _ = _
      unfold f_idx_erase
      congr 1
      funext r
      by_cases h : r.f = f <;> simp [h, bne]
  · intro w2 h
    obtain ⟨_, hcase⟩ := cancel_ok terminate f w w2 (some ()) h
    rcases hcase with ⟨hc, rfl, _⟩ | ⟨_, _, hv, _⟩ | ⟨_, _, _, hc2, hw2⟩
    · exact cancel_of_complete terminate f w2 ha hc
    · exact absurd hv (by simp)
    · refine cancel_of_complete terminate f w2 ?_ hc2
      rw [hw2]
      exact ha

theorem cancel_contract_witness :
    ∃ w2, default_scheduler.cancel terminate_spec 2
        { sched := { active_fiber_ := some 1, rqueue_ := [3],
                     wqueue_ := [{ f := 2, abs_time := some 50 }, { f := 4, abs_time := none }] },
          complete := [], resumed := [1] } = Except.ok (w2, some ())
      ∧ 2 ∈ w2.complete
      ∧ 2 ∉ w2.sched.wqueue_.map schedulable.f
      ∧ w2.sched.wqueue_
          = List.filter (fun r => decide (r.f ≠ 2))
              [({ f := 2, abs_time := some 50 } : schedulable), { f := 4, abs_time := none }]
      ∧ w2.sched.rqueue_ = [3]
      ∧ w2.sched.active_fiber_ = some 1 :=
  (cancel_contract terminate_spec 2
    { sched := { active_fiber_ := some 1, rqueue_ := [3],
                 wqueue_ := [{ f := 2, abs_time := some 50 }, { f := 4, abs_time := none }] },
      complete := [], resumed := [1] } (by decide)).2.1 (by decide) rfl (by decide)

/-- C9: the active fiber is restored.  Whatever the resumed fiber does (`resume`,
`terminate` are arbitrary, and may come back by an exception: value `none`), a
`spawn( f)`, `run()` or `cancel( f)` that comes back leaves `active_fiber_` as it
was before the call.  The fiber runs in a world whose `active_fiber_` is that
fiber: f for `spawn` and `cancel`, the selected fiber for `run`.  A `run()` that
returns false and a `cancel` of a complete fiber resume nothing. -/
theorem active_fiber_restored (resume terminate : fiber_code) (f now : Nat) (w : world) :
    (∀ w1 v, default_scheduler.spawn resume f w = Except.ok (w1, v) →
        w1.sched.active_fiber_ = w.sched.active_fiber_
        ∧ (w.set_active (some f)).sched.active_fiber_ = some f
        ∧ w1 = (resume f (w.set_active (some f))).1.set_active w.sched.active_fiber_)
    ∧ (∀ w1 v, default_scheduler.run resume now w = Except.ok (w1, v) →
        w1.sched.active_fiber_ = w.sched.active_fiber_
        ∧ (v = some false ∧ run_select now w = Except.ok (w1, none)
          ∨ ∃ g w0, run_select now w = Except.ok (w0, some g)
              ∧ (w0.set_active (some g)).sched.active_fiber_ = some g
              ∧ w1 = (resume g (w0.set_active (some g))).1.set_active w.sched.active_fiber_))
    ∧ (∀ w1 v, default_scheduler.cancel terminate f w = Except.ok (w1, v) →
        w1.sched.active_fiber_ = w.sched.active_fiber_
        ∧ (f ∈ w.complete ∧ w1 = w
          ∨ (w.set_active (some f)).sched.active_fiber_ = some f
              ∧ (w1 = (terminate f (w.set_active (some f))).1.set_active w.sched.active_fiber_
                ∨ w1 = { (terminate f (w.set_active (some f))).1 with
                    sched := { (terminate f (w.set_active (some f))).1.sched with
                      active_fiber_ := w.sched.active_fiber_,
                      wqueue_ := f_idx_erase f
                        (terminate f (w.set_active (some f))).1.sched.wqueue_ } }))) := by
  refine ⟨?_, ?_, ?_⟩
  · intro w1 v h
    unfold default_scheduler.spawn at h
    rw [bind_ok_iff] at h
    obtain ⟨_, _, h⟩ := h
    rw [bind_ok_iff] at h
    obtain ⟨_, _, h⟩ := h
    obtain ⟨hw1, _⟩ := resume_and_restore_ok _ _ _ _ _ _ _ h
    exact ⟨by rw [hw1]; rfl, rfl, hw1⟩
  · intro w1 v h
    unfold default_scheduler.run at h
    rw [bind_ok_iff] at h
    obtain ⟨⟨w0, sel⟩, hsel, h⟩ := h
    cases sel with
    | none =>
      simp only [Except.ok.injEq, Prod.mk.injEq] at h
      obtain ⟨rfl, rfl⟩ := h
      exact ⟨(run_select_active now w w0 none hsel).1, Or.inl ⟨rfl, hsel⟩⟩
    | some g =>
      simp only at h
      obtain ⟨hw1, _⟩ := resume_and_restore_ok _ _ _ _ _ _ _ h
      exact ⟨by rw [hw1]; rfl, Or.inr ⟨g, w0, hsel, rfl, hw1⟩⟩
  · intro w1 v h
    obtain ⟨_, hcase⟩ := cancel_ok terminate f w w1 v h
    rcases hcase with ⟨hc, rfl, _⟩ | ⟨_, _, _, hw1⟩ | ⟨_, _, _, _, hw1⟩
    · exact ⟨rfl, Or.inl ⟨hc, rfl⟩⟩
    · exact ⟨by rw [hw1]; rfl, Or.inr ⟨rfl, Or.inl hw1⟩⟩
    · exact ⟨by rw [hw1], Or.inr ⟨rfl, Or.inr hw1⟩⟩

theorem active_fiber_restored_witness :
    (machine.of (some 1) [] [] [2] [1] []).w.sched.active_fiber_ = some 1
    ∧ (machine.of (some 1) [] [] [3] [1] []).w.sched.active_fiber_ = some 1
    ∧ (machine.of (some 1) [3] [] [2] [1] []).w.sched.active_fiber_ = some 1 :=
  ⟨((active_fiber_restored terminate_spec terminate_spec 2 0
        (machine.of (some 1) [] [] [] [1] []).w).1
      (machine.of (some 1) [] [] [2] [1] []).w (some ()) rfl).1,
   ((active_fiber_restored terminate_spec terminate_spec 2 0
        (machine.of (some 1) [3] [] [] [1] []).w).2.1
      (machine.of (some 1) [] [] [3] [1] []).w (some true) rfl).1,
   ((active_fiber_restored terminate_spec terminate_spec 2 0
        (machine.of (some 1) [3] [] [] [1] []).w).2.2
      (machine.of (some 1) [3] [] [2] [1] []).w (some ()) rfl).1⟩

/-! ### The deadline sweep -/

theorem deadline_le_total (a b : Option Nat) : deadline_le a b = true ∨ deadline_le b a = true := by
  cases a <;> cases b <;> simp [deadline_le]
  exact le_total _ _

theorem deadline_le_trans (a b c : Option Nat) (h1 : deadline_le a b = true)
    (h2 : deadline_le b c = true) : deadline_le a c = true := by
  cases a <;> cases b <;> cases c <;> simp_all [deadline_le]
  exact le_trans h1 h2

instance : IsTotal schedulable tp_le := ⟨fun _ _ => deadline_le_total _ _⟩

instance : IsTrans schedulable tp_le := ⟨fun _ _ _ h1 h2 => deadline_le_trans _ _ _ h1 h2⟩

theorem due_of_tp_le (now : Nat) (a b : schedulable) (hab : tp_le a b)
    (hb : due now b = true) : due now a = true := by
  unfold tp_le at hab
  unfold due at hb ⊢
  cases ha : a.abs_time <;> cases hb2 : b.abs_time <;> simp_all [deadline_le]
  omega

theorem takeWhile_due_eq_filter (now : Nat) (l : List schedulable) (hs : l.Sorted tp_le) :
    l.takeWhile (due now) = l.filter (due now) := by
  induction l with
  | nil => rfl
  | cons a t ih =>
    have hs2 := List.sorted_cons.1 hs
    by_cases ha : due now a = true
    · simp only [List.takeWhile_cons, ha, if_true, List.filter_cons]
      rw [ih hs2.2]
    · have hnone : ∀ b ∈ t, ¬ due now b = true := fun b hb hdue =>
        ha (due_of_tp_le now a b (hs2.1 b hb) hdue)
      simp only [List.takeWhile_cons, ha, Bool.false_eq_true, if_false, List.filter_cons]
      symm
      rw [List.filter_eq_nil_iff]
      exact hnone

theorem expired_range_eq_filter (now : Nat) (wq : List schedulable) :
    expired_range now wq = (tp_idx wq).filter (due now) :=
  takeWhile_due_eq_filter now _ (List.sorted_insertionSort tp_le wq)

theorem mem_expired_range (now : Nat) (wq : List schedulable) (r : schedulable) :
    r ∈ expired_range now wq ↔ r ∈ wq ∧ due now r = true := by
  rw [expired_range_eq_filter, List.mem_filter, tp_idx, List.mem_insertionSort]

theorem expired_range_perm (now : Nat) (wq : List schedulable) :
    (expired_range now wq).Perm (wq.filter (due now)) := by
  rw [expired_range_eq_filter]
  exact (List.perm_insertionSort tp_le wq).filter _

theorem foldl_push_front (e : List schedulable) (q : List Nat) :
    e.foldl (fun q r => r.f :: q) q = (e.map schedulable.f).reverse ++ q := by
  induction e generalizing q with
  | nil => rfl
  | cons a t ih => simp [List.foldl_cons, ih]

theorem deadline_sweep_rqueue (now : Nat) (s : default_scheduler) :
    (deadline_sweep now s).rqueue_
      = ((expired_range now s.wqueue_).map schedulable.f).reverse ++ s.rqueue_ :=
  foldl_push_front _ _

theorem deadline_sweep_wqueue (now : Nat) (s : default_scheduler) :
    (deadline_sweep now s).wqueue_ = s.wqueue_.filter (fun r => !due now r) := by
  show s.wqueue_.filter (fun r => !((expired_range now s.wqueue_).contains r)) = _
  apply List.filter_congr
  intro r hr
  by_cases hd : due now r = true
  · have : r ∈ expired_range now s.wqueue_ := (mem_expired_range now _ r).2 ⟨hr, hd⟩
    simp [hd, this]
  · have : r ∉ expired_range now s.wqueue_ := fun hm => hd ((mem_expired_range now _ r).1 hm).2
    simp [hd, this]

/-- C7: the deadline sweep of `run()` at clock reading t.  The waiting set
afterwards is the former one restricted, in unchanged order, to the records
whose deadline is strictly later than t and the records without deadline; the
run queue afterwards is the former one with the fibers of exactly the records
with deadline <= t pushed in front, each once; a record without deadline stays,
for every t.  With A (fiber 1) sleeping until 100 and B (fiber 2) until 200, the
sweep at 150 moves only A, `run()` selects A and B is still waiting. -/
theorem deadline_sweep_moves_exactly_expired (t : Nat) (s : default_scheduler) :
    (deadline_sweep t s).wqueue_
        = s.wqueue_.filter (fun r =>
            match r.abs_time with
            | some d => decide (t < d)
            | none => true)
    ∧ (∃ pushed, (deadline_sweep t s).rqueue_ = pushed ++ s.rqueue_
        ∧ pushed.Perm ((s.wqueue_.filter (fun r =>
            match r.abs_time with
            | some d => decide (d ≤ t)
            | none => false)).map schedulable.f))
    ∧ (∀ r ∈ s.wqueue_, r.abs_time = none → r ∈ (deadline_sweep t s).wqueue_)
    ∧ (deadline_sweep t s).active_fiber_ = s.active_fiber_
    ∧ deadline_sweep 150
          { active_fiber_ := none, rqueue_ := [],
            wqueue_ := [{ f := 1, abs_time := some 100 }, { f := 2, abs_time := some 200 }] }
        = { active_fiber_ := none, rqueue_ := [1],
            wqueue_ := [{ f := 2, abs_time := some 200 }] }
    ∧ run_select 150
          { sched :=
              { active_fiber_ := none, rqueue_ := [],
                wqueue_ := [{ f := 1, abs_time := some 100 }, { f := 2, abs_time := some 200 }] },
            complete := [], resumed := [] }
        = Except.ok
          ({ sched :=
               { active_fiber_ := none, rqueue_ := [],
                 wqueue_ := [{ f := 2, abs_time := some 200 }] },
             complete := [], resumed := [] }, some 1) := by
  have hw : (deadline_sweep t s).wqueue_
        = s.wqueue_.filter (fun r =>
            match r.abs_time with
            | some d => decide (t < d)
            | none => true) := by
    rw [deadline_sweep_wqueue]
    congr 1
    funext r
    unfold due
    cases r.abs_time with
    | none => rfl
    | some d =>
      by_cases h : d ≤ t
      · have h2 : ¬ t < d := by omega
        simp [h, h2]
      · have h2 : t < d := by omega
        simp [h, h2]
  refine ⟨hw, ⟨((expired_range t s.wqueue_).map schedulable.f).reverse,
    deadline_sweep_rqueue t s, ?_⟩, ?_, rfl, by decide, by rfl⟩
  · refine (List.reverse_perm _).trans ?_
    exact (expired_range_perm t s.wqueue_).map _
  · intro r hr hnone
    rw [hw, List.mem_filter]
    exact ⟨hr, by rw [hnone]⟩

/-! ### The choice of the fiber to resume -/

theorem pop_runnable_none (c : List Nat) (wq : List schedulable) (q q1 : List Nat) :
    pop_runnable c wq q = Except.ok (none, q1)
      ↔ (∀ x ∈ q, x ∈ c ∧ x ∉ wq.map schedulable.f) ∧ q1 = [] := by
  induction q with
  | nil => simp [pop_runnable, eq_comm]
  | cons a t ih =>
    unfold pop_runnable
    by_cases hw : f_idx_find wq a = true
    · have hw2 := (f_idx_find_iff wq a).1 hw
      simp only [hw, if_true, List.mem_cons, forall_eq_or_imp]
      constructor
      · intro h; exact absurd h (by simp)
      · intro h; exact absurd hw2 h.1.1.2
    · have hw2 : a ∉ wq.map schedulable.f := fun hm => hw ((f_idx_find_iff wq a).2 hm)
      simp only [hw, Bool.false_eq_true, if_false, List.mem_cons, forall_eq_or_imp]
      by_cases hc : a ∈ c
      · have hc2 : c.contains a = true := by simpa using hc
        simp only [hc2, if_true, ih]
        constructor
        · rintro ⟨h1, h2⟩; exact ⟨⟨⟨hc, hw2⟩, h1⟩, h2⟩
        · rintro ⟨⟨_, h1⟩, h2⟩; exact ⟨h1, h2⟩
      · have hc2 : c.contains a = false := by simpa using hc
        simp only [hc2, Bool.false_eq_true, if_false]
        constructor
        · intro h; exact absurd h (by simp)
        · intro h; exact absurd h.1.1.1 hc

theorem pop_runnable_some (c : List Nat) (wq : List schedulable) (q q1 : List Nat) (g : Nat) :
    pop_runnable c wq q = Except.ok (some g, q1)
      ↔ ∃ pre, q = pre ++ g :: q1 ∧ (∀ x ∈ pre, x ∈ c ∧ x ∉ wq.map schedulable.f)
          ∧ g ∉ c ∧ g ∉ wq.map schedulable.f := by
  induction q with
  | nil =>
    simp only [pop_runnable, Except.ok.injEq, Prod.mk.injEq]
    constructor
    · intro h; exact absurd h.1 (by simp)
    · rintro ⟨pre, h, _⟩; exact absurd h (by simp)
  | cons a t ih =>
    unfold pop_runnable
    by_cases hw : f_idx_find wq a = true
    · have hw2 := (f_idx_find_iff wq a).1 hw
      simp only [hw, if_true]
      constructor
      · intro h; exact absurd h (by simp)
      · rintro ⟨pre, h, hpre, hg, hgw⟩
        cases pre with
        | nil =>
          simp only [List.nil_append, List.cons.injEq] at h
          exact absurd (h.1 ▸ hw2) hgw
        | cons p pre =>
          simp only [List.cons_append, List.cons.injEq] at h
          exact absurd (h.1 ▸ hw2) (hpre p (List.mem_cons_self _ _)).2
    · have hw2 : a ∉ wq.map schedulable.f := fun hm => hw ((f_idx_find_iff wq a).2 hm)
      simp only [hw, Bool.false_eq_true, if_false]
      by_cases hc : a ∈ c
      · have hc2 : c.contains a = true := by simpa using hc
        simp only [hc2, if_true, ih]
        constructor
        · rintro ⟨pre, h, hpre, hg, hgw⟩
          refine ⟨a :: pre, by rw [h]; rfl, ?_, hg, hgw⟩
          intro x hx
          rcases List.mem_cons.1 hx with rfl | hx
          · exact ⟨hc, hw2⟩
          · exact hpre x hx
        · rintro ⟨pre, h, hpre, hg, hgw⟩
          cases pre with
          | nil =>
            simp only [List.nil_append, List.cons.injEq] at h
            exact absurd (h.1 ▸ hc) hg
          | cons p pre =>
            simp only [List.cons_append, List.cons.injEq] at h
            exact ⟨pre, h.2, fun x hx => hpre x (List.mem_cons_of_mem _ hx), hg, hgw⟩
      · have hc2 : c.contains a = false := by simpa using hc
        simp only [hc2, Bool.false_eq_true, if_false, Except.ok.injEq, Prod.mk.injEq,
          Option.some.injEq]
        constructor
        · rintro ⟨rfl, rfl⟩
          exact ⟨[], rfl, by simp, hc, hw2⟩
        · rintro ⟨pre, h, hpre, hg, hgw⟩
          cases pre with
          | nil =>
            simp only [List.nil_append, List.cons.injEq] at h
            exact ⟨h.1, h.2⟩
          | cons p pre =>
            simp only [List.cons_append, List.cons.injEq] at h
            exact absurd (hpre p (List.mem_cons_self _ _)).1 (h.1 ▸ hc)

theorem run_ok (resume : fiber_code) (now : Nat) (w w1 : world) (v : Option Bool)
    (h : default_scheduler.run resume now w = Except.ok (w1, v)) :
    (v = some false ∧ run_select now w = Except.ok (w1, none))
    ∨ ∃ g w0, run_select now w = Except.ok (w0, some g) ∧ v ≠ some false
        ∧ w1 = (resume g (w0.set_active (some g))).1.set_active w.sched.active_fiber_ := by
  unfold default_scheduler.run at h
  rw [bind_ok_iff] at h
  obtain ⟨⟨w0, sel⟩, hsel, h⟩ := h
  cases sel with
  | none =>
    simp only [Except.ok.injEq, Prod.mk.injEq] at h
    obtain ⟨rfl, rfl⟩ := h
    exact Or.inl ⟨rfl, hsel⟩
  | some g =>
    simp only at h
    obtain ⟨hw1, _, _, hv⟩ := resume_and_restore_ok _ _ _ _ _ _ _ h
    refine Or.inr ⟨g, w0, hsel, ?_, hw1⟩
    rcases hv with ⟨_, rfl⟩ | ⟨_, rfl⟩ <;> simp

/-- C6: selection and result of `run()`.  Q is the run queue after the deadline
sweep.  (1) A `run()` that comes back has returned false iff Q holds no
incomplete fiber.  (2) When every handle of Q is complete (and, as line 152
asserts, none has a waiting record) `run()` returns false with the run queue
empty, whatever `resume` is: no fiber is resumed.  (3) When Q = pre ++ g :: post
with pre complete and g incomplete (and the assertions of lines 152, 26, 27 and
29 hold), `run()` resumes g in a world whose run queue is post and whose active
fiber is g, and returns true.  (4) A `run()` that comes back without having
returned false has resumed exactly that g, which is not complete. -/
theorem run_selects_first_incomplete (resume : fiber_code) (now : Nat) (w : world) :
    (∀ w1 v, default_scheduler.run resume now w = Except.ok (w1, v) →
        (v = some false ↔ ∀ x ∈ (deadline_sweep now w.sched).rqueue_, x ∈ w.complete))
    ∧ ((∀ x ∈ (deadline_sweep now w.sched).rqueue_,
          x ∈ w.complete ∧ x ∉ (deadline_sweep now w.sched).wqueue_.map schedulable.f) →
        default_scheduler.run resume now w
          = Except.ok ({ w with sched := { deadline_sweep now w.sched with rqueue_ := [] } },
              some false))
    ∧ (∀ pre g post, (deadline_sweep now w.sched).rqueue_ = pre ++ g :: post →
        (∀ x ∈ pre,
          x ∈ w.complete ∧ x ∉ (deadline_sweep now w.sched).wqueue_.map schedulable.f) →
        g ∉ w.complete → g ∉ (deadline_sweep now w.sched).wqueue_.map schedulable.f →
        g ∉ w.resumed →
        (resume g { w with sched := { deadline_sweep now w.sched with
            rqueue_ := post, active_fiber_ := some g } }).2 = false →
        resume_post (resume g { w with sched := { deadline_sweep now w.sched with
            rqueue_ := post, active_fiber_ := some g } }).1 = Except.ok () →
        default_scheduler.run resume now w
          = Except.ok ((resume g { w with sched := { deadline_sweep now w.sched with
              rqueue_ := post, active_fiber_ := some g } }).1.set_active
                w.sched.active_fiber_, some true))
    ∧ (∀ w1 v, default_scheduler.run resume now w = Except.ok (w1, v) → v ≠ some false →
        ∃ pre g post, (deadline_sweep now w.sched).rqueue_ = pre ++ g :: post
          ∧ (∀ x ∈ pre, x ∈ w.complete) ∧ g ∉ w.complete
          ∧ w1 = (resume g { w with sched := { deadline_sweep now w.sched with
              rqueue_ := post, active_fiber_ := some g } }).1.set_active
                w.sched.active_fiber_) := by
  refine ⟨?_, ?_, ?_, ?_⟩
  · intro w1 v h
    rcases run_ok resume now w w1 v h with ⟨hv, hsel⟩ | ⟨g, w0, hsel, hv, _⟩
    · obtain ⟨q, hpop, _⟩ := run_select_ok now w w1 none hsel
      have hall := ((pop_runnable_none _ _ _ _).1 hpop).1
      exact ⟨fun _ x hx => (hall x hx).1, fun _ => hv⟩
    · obtain ⟨q, hpop, _⟩ := run_select_ok now w w0 (some g) hsel
      obtain ⟨pre, hQ, _, hg, _⟩ := (pop_runnable_some _ _ _ _ _).1 hpop
      constructor
      · intro h2; exact absurd h2 hv
      · intro hall
        exact absurd (hall g (by rw [hQ]; simp)) hg
  · intro hall
    have hpop := (pop_runnable_none w.complete (deadline_sweep now w.sched).wqueue_
      (deadline_sweep now w.sched).rqueue_ []).2 ⟨hall, rfl⟩
    simp only [default_scheduler.run, run_select, hpop, bind, Except.bind]
  · intro pre g post hQ hpre hg hgw hgr hret hpost
    have hpop := (pop_runnable_some w.complete (deadline_sweep now w.sched).wqueue_
      (deadline_sweep now w.sched).rqueue_ post g).2 ⟨pre, hQ, hpre, hg, hgw⟩
    have h26 : world.is_complete (world.set_active (some g)
        { w with sched := { deadline_sweep now w.sched with rqueue_ := post } }) g = false := by
      rw [← Bool.not_eq_true, is_complete_iff]; exact hg
    have h27 : world.is_resumed (world.set_active (some g)
        { w with sched := { deadline_sweep now w.sched with rqueue_ := post } }) g = false := by
      rw [← Bool.not_eq_true, is_resumed_iff]; exact hgr
    have hpost2 : resume_post (resume g (world.set_active (some g)
        { w with sched := { deadline_sweep now w.sched with rqueue_ := post } })).1
          = Except.ok () := hpost
    have hret2 : (resume g (world.set_active (some g)
        { w with sched := { deadline_sweep now w.sched with rqueue_ := post } })).2
          = false := hret
    simp only [default_scheduler.run, run_select, hpop, bind, Except.bind, resume_and_restore,
      resume_pre, BOOST_ASSERT, h26, h27, Bool.not_false, if_true, hret2, Bool.false_eq_true,
      if_false, hpost2]
    rfl
  · intro w1 v h hv
    rcases run_ok resume now w w1 v h with ⟨hv2, _⟩ | ⟨g, w0, hsel, _, hw1⟩
    · exact absurd hv2 hv
    · obtain ⟨q, hpop, hw0⟩ := run_select_ok now w w0 (some g) hsel
      obtain ⟨pre, hQ, hpre, hg, _⟩ := (pop_runnable_some _ _ _ _ _).1 hpop
      refine ⟨pre, g, q, hQ, fun x hx => (hpre x hx).1, hg, ?_⟩
      rw [hw1, hw0]
      rfl

theorem run_selects_first_incomplete_witness :
    default_scheduler.run terminate_spec 20
        { sched :=
            { active_fiber_ := none, rqueue_ := [5, 6],
              wqueue_ := [{ f := 1, abs_time := some 10 }, { f := 2, abs_time := none }] },
          complete := [1], resumed := [] }
      = Except.ok
          ({ sched :=
               { active_fiber_ := none, rqueue_ := [6],
                 wqueue_ := [{ f := 2, abs_time := none }] },
             complete := [5, 1], resumed := [] }, some true) :=
  (run_selects_first_incomplete terminate_spec 20
      { sched :=
          { active_fiber_ := none, rqueue_ := [5, 6],
            wqueue_ := [{ f := 1, abs_time := some 10 }, { f := 2, abs_time := none }] },
        complete := [1], resumed := [] }).2.2.1 [1] 5 [6]
    (by decide) (by decide) (by decide) (by decide) (by decide) rfl rfl

/-! ## Theorems: reachable states of the scheduler -/

/-- C4 (counterexample): main spawns fiber 1, fiber 1 calls `yield()`, main calls
`cancel( 1)`: every assertion holds, and fiber 1 ends complete and still in the
run queue.  The same state is reached when fiber 1 calls `wait()`, is notified
and is then cancelled.  So a complete fiber can be queued in a reachable state.
Two more runs under the assertions alone: a second `spawn( 1)` of the waiting
fiber 1, which then returns, leaves it complete with its waiting record; fiber 2,
spawned by fiber 1, cancels fiber 1 and yields, which leaves the complete fiber 1
active. -/
theorem complete_fiber_left_in_run_queue :
    machine.exec asserted_only [event.spawn 1, event.yield, event.cancel 1] machine.init
      = Except.ok (machine.of none [1] [] [1] [] [])
    ∧ machine.exec asserted_only [event.spawn 1, event.wait, event.notify 1, event.cancel 1]
        machine.init
      = Except.ok (machine.of none [1] [] [1] [] [])
    ∧ ¬ (∀ m, machine.reachable asserted_only m → ∀ f ∈ m.w.complete,
          f ∉ m.w.sched.rqueue_ ∧ f ∉ m.w.sched.wqueue_.map schedulable.f
            ∧ m.w.sched.active_fiber_ ≠ some f)
    ∧ machine.exec asserted_only [event.spawn 1, event.wait, event.spawn 1, event.finish]
        machine.init
      = Except.ok (machine.of none [] [{ f := 1, abs_time := none }] [1] [] [])
    ∧ machine.exec asserted_only [event.spawn 1, event.spawn 2, event.cancel 1, event.yield]
        machine.init
      = Except.ok (machine.of (some 1) [2] [] [1] [] [none]) := by
  refine ⟨rfl, rfl, ?_, rfl, rfl⟩
  intro h
  have h1 := h _ ⟨[event.spawn 1, event.yield, event.cancel 1], rfl⟩ 1 (by decide)
  exact h1.1 (by decide)

/-- C5 (counterexample): main spawns fiber 1, fiber 1 calls `yield()`, main calls
`notify( 1)`.  The three assertions of `notify` hold (fiber 1 is not complete,
not resumed and not active), and fiber 1 is in the run queue twice.  Likewise a
second `spawn( 1)` of the yielded fiber 1 leaves it active and in the run queue. -/
theorem notify_of_yielded_fiber_duplicates :
    machine.exec asserted_only [event.spawn 1, event.yield, event.notify 1] machine.init
      = Except.ok (machine.of none [1, 1] [] [] [] [])
    ∧ ¬ (∀ m, machine.reachable asserted_only m → (placed m.w.sched).Nodup)
    ∧ machine.exec asserted_only [event.spawn 1, event.yield, event.spawn 1] machine.init
      = Except.ok (machine.of (some 1) [1] [] [] [1] [none]) := by
  refine ⟨rfl, ?_, rfl⟩
  intro h
  have h1 := h _ ⟨[event.spawn 1, event.yield, event.notify 1], rfl⟩
  exact absurd h1 (by decide)

/-! ### What one event does -/

theorem active_pre_ok (l1 l2 l3 : Nat) (w : world) (a : Nat)
    (h : active_pre l1 l2 l3 w = Except.ok a) :
    w.sched.active_fiber_ = some a ∧ a ∉ w.complete ∧ a ∈ w.resumed := by
  unfold active_pre at h
  cases hact : w.sched.active_fiber_ with
  | none => rw [hact] at h; exact absurd h (by simp)
  | some b =>
    rw [hact] at h
    simp only at h
    rw [bind_ok_iff] at h
    obtain ⟨_, h2, h⟩ := h
    rw [bind_ok_iff] at h
    obtain ⟨_, h3, h⟩ := h
    rw [BOOST_ASSERT_ok_iff] at h2 h3
    simp only [Except.ok.injEq] at h
    subst h
    simp only [Bool.not_eq_true', ← Bool.not_eq_true, is_complete_iff] at h2
    exact ⟨rfl, h2, (is_resumed_iff w b).1 h3⟩

theorem notify_ok (f : Nat) (w w1 : world) (h : default_scheduler.notify f w = Except.ok w1) :
    f ∉ w.complete ∧ f ∉ w.resumed ∧ w.sched.active_fiber_ ≠ some f
      ∧ w1 = { w with sched := { w.sched with
          wqueue_ := f_idx_erase f w.sched.wqueue_, rqueue_ := f :: w.sched.rqueue_ } } := by
  unfold default_scheduler.notify at h
  rw [bind_ok_iff] at h
  obtain ⟨_, h1, h⟩ := h
  rw [bind_ok_iff] at h
  obtain ⟨_, h2, h⟩ := h
  rw [bind_ok_iff] at h
  obtain ⟨_, h3, h⟩ := h
  rw [BOOST_ASSERT_ok_iff] at h1 h2 h3
  simp only [Bool.not_eq_true', ← Bool.not_eq_true, is_complete_iff, is_resumed_iff] at h1 h2
  simp only [Except.ok.injEq] at h
  refine ⟨h1, h2, ?_, h.symm⟩
  intro hEq
  rw [hEq] at h3
  simp at h3

theorem wait_ok (w w1 : world) (h : default_scheduler.wait w = Except.ok w1) :
    ∃ a, w.sched.active_fiber_ = some a ∧ a ∉ w.complete ∧ a ∈ w.resumed
      ∧ w1 = suspend a { w with sched := { w.sched with
          wqueue_ := wqueue_insert { f := a, abs_time := none } w.sched.wqueue_ } } := by
  unfold default_scheduler.wait at h
  rw [bind_ok_iff] at h
  obtain ⟨a, hpre, h⟩ := h
  simp only [Except.ok.injEq] at h
  obtain ⟨h1, h2, h3⟩ := active_pre_ok _ _ _ _ _ hpre
  exact ⟨a, h1, h2, h3, h.symm⟩

theorem yield_ok (w w1 : world) (h : default_scheduler.yield w = Except.ok w1) :
    ∃ a, w.sched.active_fiber_ = some a ∧ a ∉ w.complete ∧ a ∈ w.resumed
      ∧ w1 = suspend a { w with sched := { w.sched with
          rqueue_ := w.sched.rqueue_ ++ [a] } } := by
  unfold default_scheduler.yield at h
  rw [bind_ok_iff] at h
  obtain ⟨a, hpre, h⟩ := h
  simp only [Except.ok.injEq] at h
  obtain ⟨h1, h2, h3⟩ := active_pre_ok _ _ _ _ _ hpre
  exact ⟨a, h1, h2, h3, h.symm⟩

theorem sleep_ok (abs_time now : Nat) (w w1 : world) (b : Bool)
    (h : default_scheduler.sleep abs_time now w = Except.ok (w1, b)) :
    ∃ a, w.sched.active_fiber_ = some a ∧ a ∉ w.complete ∧ a ∈ w.resumed
      ∧ (b = true ∧ now < abs_time ∧ w1 = suspend a { w with sched := { w.sched with
            wqueue_ := wqueue_insert { f := a, abs_time := some abs_time } w.sched.wqueue_ } }
        ∨ b = false ∧ abs_time ≤ now ∧ w1 = w) := by
  unfold default_scheduler.sleep at h
  rw [bind_ok_iff] at h
  obtain ⟨a, hpre, h⟩ := h
  obtain ⟨h1, h2, h3⟩ := active_pre_ok _ _ _ _ _ hpre
  refine ⟨a, h1, h2, h3, ?_⟩
  by_cases hlt : abs_time > now
  · simp only [hlt, if_true, Except.ok.injEq, Prod.mk.injEq] at h
    exact Or.inl ⟨h.2.symm, hlt, h.1.symm⟩
  · simp only [hlt, if_false, Except.ok.injEq, Prod.mk.injEq] at h
    exact Or.inr ⟨h.2.symm, by omega, h.1.symm⟩

theorem cancel_spec_ok (f : Nat) (w w1 : world) (v : Option Unit)
    (h : default_scheduler.cancel terminate_spec f w = Except.ok (w1, v)) :
    w.sched.active_fiber_ ≠ some f ∧
    (f ∈ w.complete ∧ w1 = w
      ∨ f ∉ w.complete ∧
          w1 = { sched := { w.sched with wqueue_ := f_idx_erase f w.sched.wqueue_ },
                 complete := f :: w.complete,
                 resumed := w.resumed.filter (fun x => x != f) }) := by
  obtain ⟨ha, hcase⟩ := cancel_ok terminate_spec f w w1 v h
  refine ⟨ha, ?_⟩
  rcases hcase with ⟨hc, hw, _⟩ | ⟨_, hthrow, _⟩ | ⟨hc, _, _, _, hw⟩
  · exact Or.inl ⟨hc, hw⟩
  · exact absurd hthrow (by simp [terminate_spec])
  · exact Or.inr ⟨hc, hw⟩

theorem enter_ok (f : Nat) (w1 : world) (m m1 : machine)
    (h : m.enter f w1 = Except.ok m1) :
    f ∉ w1.complete ∧ f ∉ w1.resumed
      ∧ m1 = { w := { sched := { w1.sched with active_fiber_ := some f },
                      complete := w1.complete, resumed := f :: w1.resumed },
               pending := m.w.sched.active_fiber_ :: m.pending } := by
  unfold machine.enter at h
  rw [bind_ok_iff] at h
  obtain ⟨_, hpre, h⟩ := h
  unfold resume_pre at hpre
  rw [bind_ok_iff] at hpre
  obtain ⟨_, h26, h27⟩ := hpre
  rw [BOOST_ASSERT_ok_iff] at h26 h27
  simp only [Bool.not_eq_true', ← Bool.not_eq_true, is_complete_iff, is_resumed_iff] at h26 h27
  simp only [Except.ok.injEq] at h
  exact ⟨h26, h27, h.symm⟩

theorem leave_ok (w1 : world) (m m1 : machine) (h : m.leave w1 = Except.ok m1) :
    ∃ tmp rest, m.pending = tmp :: rest ∧ m1 = { w := w1.set_active tmp, pending := rest } := by
  unfold machine.leave at h
  cases hp : m.pending with
  | nil => rw [hp] at h; exact absurd h (by simp)
  | cons tmp rest =>
    rw [hp] at h
    simp only at h
    rw [bind_ok_iff] at h
    obtain ⟨_, _, h⟩ := h
    simp only [Except.ok.injEq] at h
    exact ⟨tmp, rest, rfl, h.symm⟩

theorem mem_chain (m : machine) (x : Nat) :
    x ∈ chain m ↔ m.w.sched.active_fiber_ = some x ∨ some x ∈ m.pending := by
  simp [chain, List.mem_filterMap, eq_comm]

theorem mem_map_wqueue_insert (r : schedulable) (wq : List schedulable) (x : Nat)
    (h : x ∈ (wqueue_insert r wq).map schedulable.f) : x ∈ wq.map schedulable.f ∨ x = r.f := by
  unfold wqueue_insert at h
  split at h
  · exact Or.inl h
  · simp only [List.map_append, List.map_cons, List.map_nil, List.mem_append,
      List.mem_singleton] at h
    exact h

theorem wqueue_insert_new (r : schedulable) (wq : List schedulable)
    (h : r.f ∉ wq.map schedulable.f) : wqueue_insert r wq = wq ++ [r] := by
  unfold wqueue_insert
  rw [(f_idx_find_false_iff wq r.f).2 h]
  simp

theorem mem_map_deadline_sweep (now : Nat) (s : default_scheduler) (x : Nat)
    (h : x ∈ (deadline_sweep now s).wqueue_.map schedulable.f) :
    x ∈ s.wqueue_.map schedulable.f := by
  rw [deadline_sweep_wqueue] at h
  obtain ⟨r, hr, rfl⟩ := List.mem_map.1 h
  exact List.mem_map.2 ⟨r, (List.mem_filter.1 hr).1, rfl⟩

theorem step_spawn_ok (f : Nat) (m m1 : machine) (h : m.step (event.spawn f) = Except.ok m1) :
    f ∉ m.w.complete ∧ f ∉ m.w.resumed ∧ m.w.sched.active_fiber_ ≠ some f
      ∧ m1 = { w := { sched := { m.w.sched with active_fiber_ := some f },
                      complete := m.w.complete, resumed := f :: m.w.resumed },
               pending := m.w.sched.active_fiber_ :: m.pending } := by
  simp only [machine.step] at h
  rw [bind_ok_iff] at h
  obtain ⟨_, _, h⟩ := h
  rw [bind_ok_iff] at h
  obtain ⟨_, h51, h⟩ := h
  rw [BOOST_ASSERT_ok_iff] at h51
  obtain ⟨h1, h2, h3⟩ := enter_ok _ _ _ _ h
  refine ⟨h1, h2, ?_, h3⟩
  intro hEq
  rw [hEq] at h51
  simp at h51

theorem step_run_ok (now : Nat) (m m1 : machine) (h : m.step (event.run now) = Except.ok m1) :
    ∃ sel q, pop_runnable m.w.complete (deadline_sweep now m.w.sched).wqueue_
        (deadline_sweep now m.w.sched).rqueue_ = Except.ok (sel, q)
      ∧ (sel = none ∧ m1 = { m with w := { m.w with
              sched := { deadline_sweep now m.w.sched with rqueue_ := q } } }
        ∨ ∃ g, sel = some g ∧ g ∉ m.w.resumed
            ∧ m1 = { w := { sched := { deadline_sweep now m.w.sched with
                              rqueue_ := q, active_fiber_ := some g },
                            complete := m.w.complete, resumed := g :: m.w.resumed },
                     pending := m.w.sched.active_fiber_ :: m.pending }) := by
  simp only [machine.step] at h
  rw [bind_ok_iff] at h
  obtain ⟨⟨w1, sel⟩, hsel, h⟩ := h
  obtain ⟨q, hpop, rfl⟩ := run_select_ok now m.w w1 sel hsel
  refine ⟨sel, q, hpop, ?_⟩
  cases sel with
  | none =>
    simp only [Except.ok.injEq] at h
    exact Or.inl ⟨rfl, h.symm⟩
  | some g =>
    simp only at h
    obtain ⟨_, h2, h3⟩ := enter_ok _ _ _ _ h
    exact Or.inr ⟨g, rfl, h2, h3⟩

theorem machine_eq_of (m : machine) :
    m = machine.of m.w.sched.active_fiber_ m.w.sched.rqueue_ m.w.sched.wqueue_ m.w.complete
          m.w.resumed m.pending := rfl

theorem step_wait_ok (m m1 : machine) (h : m.step event.wait = Except.ok m1) :
    ∃ a tmp rest, m.w.sched.active_fiber_ = some a ∧ a ∉ m.w.complete ∧ a ∈ m.w.resumed
      ∧ m.pending = tmp :: rest
      ∧ m1 = machine.of tmp m.w.sched.rqueue_
              (wqueue_insert { f := a, abs_time := none } m.w.sched.wqueue_) m.w.complete
              (m.w.resumed.filter (fun x => x != a)) rest := by
  simp only [machine.step] at h
  rw [bind_ok_iff] at h
  obtain ⟨w1, hw, h⟩ := h
  obtain ⟨a, h1, h2, h3, rfl⟩ := wait_ok _ _ hw
  obtain ⟨tmp, rest, hp, rfl⟩ := leave_ok _ _ _ h
  exact ⟨a, tmp, rest, h1, h2, h3, hp, rfl⟩

theorem step_yield_ok (m m1 : machine) (h : m.step event.yield = Except.ok m1) :
    ∃ a tmp rest, m.w.sched.active_fiber_ = some a ∧ a ∉ m.w.complete ∧ a ∈ m.w.resumed
      ∧ m.pending = tmp :: rest
      ∧ m1 = machine.of tmp (m.w.sched.rqueue_ ++ [a]) m.w.sched.wqueue_ m.w.complete
              (m.w.resumed.filter (fun x => x != a)) rest := by
  simp only [machine.step] at h
  rw [bind_ok_iff] at h
  obtain ⟨w1, hw, h⟩ := h
  obtain ⟨a, h1, h2, h3, rfl⟩ := yield_ok _ _ hw
  obtain ⟨tmp, rest, hp, rfl⟩ := leave_ok _ _ _ h
  exact ⟨a, tmp, rest, h1, h2, h3, hp, rfl⟩

theorem step_sleep_ok (abs_time now : Nat) (m m1 : machine)
    (h : m.step (event.sleep abs_time now) = Except.ok m1) :
    m1 = m
    ∨ ∃ a tmp rest, m.w.sched.active_fiber_ = some a ∧ a ∉ m.w.complete ∧ a ∈ m.w.resumed
      ∧ m.pending = tmp :: rest
      ∧ m1 = machine.of tmp m.w.sched.rqueue_
              (wqueue_insert { f := a, abs_time := some abs_time } m.w.sched.wqueue_)
              m.w.complete (m.w.resumed.filter (fun x => x != a)) rest := by
  simp only [machine.step] at h
  rw [bind_ok_iff] at h
  obtain ⟨⟨w1, b⟩, hw, h⟩ := h
  obtain ⟨a, h1, h2, h3, hcase⟩ := sleep_ok _ _ _ _ _ hw
  rcases hcase with ⟨rfl, _, rfl⟩ | ⟨rfl, _, rfl⟩
  · simp only [if_true] at h
    obtain ⟨tmp, rest, hp, rfl⟩ := leave_ok _ _ _ h
    exact Or.inr ⟨a, tmp, rest, h1, h2, h3, hp, rfl⟩
  · simp only [Bool.false_eq_true, if_false, Except.ok.injEq] at h
    exact Or.inl h.symm

theorem step_finish_ok (m m1 : machine) (h : m.step event.finish = Except.ok m1) :
    ∃ a tmp rest, m.w.sched.active_fiber_ = some a ∧ m.pending = tmp :: rest
      ∧ m1 = machine.of tmp m.w.sched.rqueue_ m.w.sched.wqueue_ (a :: m.w.complete)
              (m.w.resumed.filter (fun x => x != a)) rest := by
  simp only [machine.step] at h
  cases hact : m.w.sched.active_fiber_ with
  | none => rw [hact] at h; exact absurd h (by simp)
  | some a =>
    rw [hact] at h
    simp only at h
    obtain ⟨tmp, rest, hp, rfl⟩ := leave_ok _ _ _ h
    exact ⟨a, tmp, rest, rfl, hp, rfl⟩

theorem step_join_ok (f : Nat) (m m1 : machine) (h : m.step (event.join f) = Except.ok m1) :
    m1 = m
    ∨ ∃ a tmp rest, m.w.sched.active_fiber_ = some a ∧ a ∉ m.w.complete ∧ a ∈ m.w.resumed
      ∧ m.pending = tmp :: rest
      ∧ m1 = machine.of tmp m.w.sched.rqueue_
              (wqueue_insert { f := a, abs_time := none } m.w.sched.wqueue_) m.w.complete
              (m.w.resumed.filter (fun x => x != a)) rest := by
  simp only [machine.step] at h
  rw [bind_ok_iff] at h
  obtain ⟨_, _, h⟩ := h
  rw [bind_ok_iff] at h
  obtain ⟨_, _, h⟩ := h
  cases hact : m.w.sched.active_fiber_ with
  | none =>
    rw [hact] at h
    simp only [Except.ok.injEq] at h
    exact Or.inl h.symm
  | some b =>
    rw [hact] at h
    simp only at h
    rw [bind_ok_iff] at h
    obtain ⟨w1, hw, h⟩ := h
    obtain ⟨a, h1, h2, h3, rfl⟩ := wait_ok _ _ hw
    obtain ⟨tmp, rest, hp, rfl⟩ := leave_ok _ _ _ h
    rw [hact] at h1
    exact Or.inr ⟨a, tmp, rest, h1, h2, h3, hp, rfl⟩

theorem step_notify_ok (f : Nat) (m m1 : machine) (h : m.step (event.notify f) = Except.ok m1) :
    f ∉ m.w.complete ∧ f ∉ m.w.resumed ∧ m.w.sched.active_fiber_ ≠ some f
      ∧ m1 = machine.of m.w.sched.active_fiber_ (f :: m.w.sched.rqueue_)
              (f_idx_erase f m.w.sched.wqueue_) m.w.complete m.w.resumed m.pending := by
  simp only [machine.step] at h
  rw [bind_ok_iff] at h
  obtain ⟨w1, hw, h⟩ := h
  obtain ⟨h1, h2, h3, rfl⟩ := notify_ok _ _ _ hw
  simp only [Except.ok.injEq] at h
  exact ⟨h1, h2, h3, h.symm⟩

theorem step_cancel_ok (f : Nat) (m m1 : machine) (h : m.step (event.cancel f) = Except.ok m1) :
    m.w.sched.active_fiber_ ≠ some f
    ∧ (m1 = m
      ∨ f ∉ m.w.complete
        ∧ m1 = machine.of m.w.sched.active_fiber_ m.w.sched.rqueue_
              (f_idx_erase f m.w.sched.wqueue_) (f :: m.w.complete)
              (m.w.resumed.filter (fun x => x != f)) m.pending) := by
  simp only [machine.step] at h
  rw [bind_ok_iff] at h
  obtain ⟨⟨w1, v⟩, hw, h⟩ := h
  obtain ⟨ha, hcase⟩ := cancel_spec_ok _ _ _ _ hw
  simp only [Except.ok.injEq] at h
  refine ⟨ha, ?_⟩
  rcases hcase with ⟨_, rfl⟩ | ⟨hc, rfl⟩
  · exact Or.inl h.symm
  · exact Or.inr ⟨hc, h.symm⟩

theorem step_spawn_of (f : Nat) (m m1 : machine) (h : m.step (event.spawn f) = Except.ok m1) :
    f ∉ m.w.complete ∧ f ∉ m.w.resumed ∧ m.w.sched.active_fiber_ ≠ some f
      ∧ m1 = machine.of (some f) m.w.sched.rqueue_ m.w.sched.wqueue_ m.w.complete
              (f :: m.w.resumed) (m.w.sched.active_fiber_ :: m.pending) :=
  step_spawn_ok f m m1 h

theorem step_run_of (now : Nat) (m m1 : machine) (h : m.step (event.run now) = Except.ok m1) :
    (m1 = machine.of m.w.sched.active_fiber_ [] (deadline_sweep now m.w.sched).wqueue_
            m.w.complete m.w.resumed m.pending
      ∧ ∀ x ∈ (deadline_sweep now m.w.sched).rqueue_, x ∈ m.w.complete)
    ∨ ∃ pre g q, (deadline_sweep now m.w.sched).rqueue_ = pre ++ g :: q
        ∧ g ∉ m.w.complete ∧ g ∉ m.w.resumed
        ∧ g ∉ (deadline_sweep now m.w.sched).wqueue_.map schedulable.f
        ∧ m1 = machine.of (some g) q (deadline_sweep now m.w.sched).wqueue_ m.w.complete
                (g :: m.w.resumed) (m.w.sched.active_fiber_ :: m.pending) := by
  obtain ⟨sel, q, hpop, hcase⟩ := step_run_ok now m m1 h
  rcases hcase with ⟨rfl, rfl⟩ | ⟨g, rfl, hg, rfl⟩
  · obtain ⟨hall, rfl⟩ := (pop_runnable_none _ _ _ _).1 hpop
    exact Or.inl ⟨rfl, fun x hx => (hall x hx).1⟩
  · obtain ⟨pre, hQ, _, hc, hw⟩ := (pop_runnable_some _ _ _ _ _).1 hpop
    exact Or.inr ⟨pre, g, q, hQ, hc, hg, hw, rfl⟩

/-! ### Events keep `inv_complete` -/

theorem chain_cons_some (a : Nat) (w : world) (p : List (Option Nat))
    (h : w.sched.active_fiber_ = some a) :
    chain { w := w, pending := p } = a :: p.filterMap id := by
  simp [chain, h]

theorem chain_of_pending (m : machine) (a : Nat) (tmp : Option Nat) (rest : List (Option Nat))
    (ha : m.w.sched.active_fiber_ = some a) (hp : m.pending = tmp :: rest) :
    chain m = a :: (tmp :: rest).filterMap id := by
  unfold chain
  rw [ha, hp]
  rfl

theorem inv_complete_enter (m : machine) (f : Nat) (rq1 : List Nat) (wq1 : List schedulable)
    (hinv : inv_complete m) (hc : f ∉ m.w.complete) (hr : f ∉ m.w.resumed)
    (hw : f ∉ wq1.map schedulable.f)
    (hsub : ∀ x ∈ wq1.map schedulable.f, x ∈ m.w.sched.wqueue_.map schedulable.f) :
    inv_complete (machine.of (some f) rq1 wq1 m.w.complete (f :: m.w.resumed)
      (m.w.sched.active_fiber_ :: m.pending)) := by
  have hch : chain (machine.of (some f) rq1 wq1 m.w.complete (f :: m.w.resumed)
      (m.w.sched.active_fiber_ :: m.pending)) = f :: chain m := rfl
  refine ⟨?_, ?_, ?_, ?_⟩
  · rw [hch, List.nodup_cons]
    exact ⟨fun hm => hr (hinv.chain_live f hm).1, hinv.chain_nodup⟩
  · intro x hx
    rw [hch] at hx
    rcases List.mem_cons.1 hx with rfl | hx
    · exact ⟨List.mem_cons_self _ _, hc⟩
    · exact ⟨List.mem_cons_of_mem _ (hinv.chain_live x hx).1, (hinv.chain_live x hx).2⟩
  · intro x hx
    rcases List.mem_cons.1 hx with rfl | hx
    · exact hw
    · exact fun hm => hinv.resumed_out x hx (hsub x hm)
  · intro x hx hm
    exact hinv.complete_out x hx (hsub x hm)

theorem inv_complete_leave (m : machine) (a : Nat) (tmp : Option Nat)
    (rest : List (Option Nat)) (rq1 : List Nat) (wq1 : List schedulable) (c1 : List Nat)
    (hinv : inv_complete m) (ha : m.w.sched.active_fiber_ = some a)
    (hp : m.pending = tmp :: rest)
    (hw : ∀ x ∈ wq1.map schedulable.f, x ∈ m.w.sched.wqueue_.map schedulable.f ∨ x = a)
    (hc : ∀ x ∈ c1, x ∈ m.w.complete ∨ (x = a ∧ a ∉ wq1.map schedulable.f)) :
    inv_complete (machine.of tmp rq1 wq1 c1 (m.w.resumed.filter (fun x => x != a)) rest) := by
  have hch := chain_of_pending m a tmp rest ha hp
  have hch1 : chain (machine.of tmp rq1 wq1 c1 (m.w.resumed.filter (fun x => x != a)) rest)
      = (tmp :: rest).filterMap id := rfl
  have hnd := hinv.chain_nodup
  rw [hch, List.nodup_cons] at hnd
  have hlive : ∀ x ∈ (tmp :: rest).filterMap id,
      x ∈ m.w.resumed ∧ x ∉ m.w.complete ∧ x ≠ a := by
    intro x hx
    have h1 := hinv.chain_live x (by rw [hch]; exact List.mem_cons_of_mem _ hx)
    exact ⟨h1.1, h1.2, fun hEq => hnd.1 (hEq ▸ hx)⟩
  have ha_live := hinv.chain_live a (by rw [hch]; exact List.mem_cons_self _ _)
  refine ⟨?_, ?_, ?_, ?_⟩
  · rw [hch1]; exact hnd.2
  · intro x hx
    rw [hch1] at hx
    obtain ⟨h1, h2, h3⟩ := hlive x hx
    refine ⟨?_, ?_⟩
    · show x ∈ m.w.resumed.filter (fun x => x != a)
      simp only [List.mem_filter, bne_iff_ne, ne_eq]
      exact ⟨h1, h3⟩
    · intro hxc
      rcases hc x hxc with h | ⟨h, _⟩
      · exact h2 h
      · exact h3 h
  · intro x hx hm
    replace hx : x ∈ m.w.resumed.filter (fun x => x != a) := hx
    simp only [List.mem_filter, bne_iff_ne, ne_eq] at hx
    rcases hw x hm with h | h
    · exact hinv.resumed_out x hx.1 h
    · exact hx.2 h
  · intro x hxc hm
    rcases hc x hxc with h | ⟨h, hnot⟩
    · rcases hw x hm with h2 | h2
      · exact hinv.complete_out x h h2
      · exact ha_live.2 (h2 ▸ h)
    · exact hnot (h ▸ hm)

theorem inv_complete_stay (m : machine) (rq1 : List Nat) (wq1 : List schedulable)
    (c1 r1 : List Nat) (hinv : inv_complete m)
    (hw : ∀ x ∈ wq1.map schedulable.f, x ∈ m.w.sched.wqueue_.map schedulable.f)
    (hc : ∀ x ∈ c1, x ∈ m.w.complete ∨ (x ∉ chain m ∧ x ∉ wq1.map schedulable.f))
    (hr : ∀ x ∈ r1, x ∈ m.w.resumed) (hr2 : ∀ x ∈ chain m, x ∈ r1) :
    inv_complete (machine.of m.w.sched.active_fiber_ rq1 wq1 c1 r1 m.pending) := by
  have hch1 : chain (machine.of m.w.sched.active_fiber_ rq1 wq1 c1 r1 m.pending) = chain m :=
    rfl
  refine ⟨?_, ?_, ?_, ?_⟩
  · rw [hch1]; exact hinv.chain_nodup
  · intro x hx
    rw [hch1] at hx
    refine ⟨hr2 x hx, ?_⟩
    intro hxc
    rcases hc x hxc with h | ⟨h, _⟩
    · exact (hinv.chain_live x hx).2 h
    · exact h hx
  · intro x hx hm
    exact hinv.resumed_out x (hr x hx) (hw x hm)
  · intro x hxc hm
    rcases hc x hxc with h | ⟨_, h⟩
    · exact hinv.complete_out x h (hw x hm)
    · exact h hm

theorem inv_complete_suspend (m : machine) (a : Nat) (tmp : Option Nat)
    (rest : List (Option Nat)) (rq1 : List Nat) (r : schedulable) (hinv : inv_complete m)
    (ha : m.w.sched.active_fiber_ = some a) (hp : m.pending = tmp :: rest) (hr : r.f = a) :
    inv_complete (machine.of tmp rq1 (wqueue_insert r m.w.sched.wqueue_) m.w.complete
      (m.w.resumed.filter (fun x => x != a)) rest) := by
  refine inv_complete_leave m a tmp rest rq1 _ _ hinv ha hp ?_ (fun x hx => Or.inl hx)
  intro x hx
  rcases mem_map_wqueue_insert r _ x hx with h | h
  · exact Or.inl h
  · exact Or.inr (h.trans hr)

theorem inv_complete_step (e : event) (m m1 : machine) (hinv : inv_complete m)
    (hrule : spawn_unwaiting_cancel_suspended e m = true)
    (hstep : m.step e = Except.ok m1) : inv_complete m1 := by
  cases e with
  | spawn f =>
    obtain ⟨hc, hr, _, rfl⟩ := step_spawn_of f m m1 hstep
    have hw : f ∉ m.w.sched.wqueue_.map schedulable.f := by
      rw [← f_idx_find_false_iff]
      simpa [spawn_unwaiting_cancel_suspended] using hrule
    exact inv_complete_enter m f _ _ hinv hc hr hw (fun x hx => hx)
  | join f =>
    rcases step_join_ok f m m1 hstep with rfl | ⟨a, tmp, rest, ha, _, _, hp, rfl⟩
    · exact hinv
    · exact inv_complete_suspend m a tmp rest _ _ hinv ha hp rfl
  | cancel f =>
    obtain ⟨_, hcase⟩ := step_cancel_ok f m m1 hstep
    rcases hcase with rfl | ⟨_, rfl⟩
    · exact hinv
    · have hres : f ∉ m.w.resumed := by
        rw [← is_resumed_iff]
        simpa [spawn_unwaiting_cancel_suspended] using hrule
      refine inv_complete_stay m _ _ _ _ hinv ?_ ?_ ?_ ?_
      · intro x hx
        exact ((mem_map_f_idx_erase f x _).1 hx).1
      · intro x hx
        rcases List.mem_cons.1 hx with rfl | hx
        · exact Or.inr ⟨fun hm => hres (hinv.chain_live x hm).1,
            fun hm => ((mem_map_f_idx_erase x x _).1 hm).2 rfl⟩
        · exact Or.inl hx
      · intro x hx
        exact (List.mem_filter.1 hx).1
      · intro x hx
        have h1 := (hinv.chain_live x hx).1
        simp only [List.mem_filter, bne_iff_ne, ne_eq]
        exact ⟨h1, fun hEq => hres (hEq ▸ h1)⟩
  | notify f =>
    obtain ⟨_, _, _, rfl⟩ := step_notify_ok f m m1 hstep
    refine inv_complete_stay m _ _ _ _ hinv ?_ (fun x hx => Or.inl hx) (fun x hx => hx)
      (fun x hx => (hinv.chain_live x hx).1)
    intro x hx
    exact ((mem_map_f_idx_erase f x _).1 hx).1
  | run now =>
    rcases step_run_of now m m1 hstep with ⟨rfl, _⟩ | ⟨pre, g, q, _, hc, hr, hw, rfl⟩
    · exact inv_complete_stay m _ _ _ _ hinv (fun x hx => mem_map_deadline_sweep now _ x hx)
        (fun x hx => Or.inl hx) (fun x hx => hx) (fun x hx => (hinv.chain_live x hx).1)
    · exact inv_complete_enter m g _ _ hinv hc hr hw
        (fun x hx => mem_map_deadline_sweep now _ x hx)
  | wait =>
    obtain ⟨a, tmp, rest, ha, _, _, hp, rfl⟩ := step_wait_ok m m1 hstep
    exact inv_complete_suspend m a tmp rest _ _ hinv ha hp rfl
  | yield =>
    obtain ⟨a, tmp, rest, ha, _, _, hp, rfl⟩ := step_yield_ok m m1 hstep
    exact inv_complete_leave m a tmp rest _ _ _ hinv ha hp (fun x hx => Or.inl hx)
      (fun x hx => Or.inl hx)
  | sleep abs_time now =>
    rcases step_sleep_ok abs_time now m m1 hstep with rfl | ⟨a, tmp, rest, ha, _, _, hp, rfl⟩
    · exact hinv
    · exact inv_complete_suspend m a tmp rest _ _ hinv ha hp rfl
  | finish =>
    obtain ⟨a, tmp, rest, ha, hp, rfl⟩ := step_finish_ok m m1 hstep
    have hlive := hinv.chain_live a ((mem_chain m a).2 (Or.inl ha))
    refine inv_complete_leave m a tmp rest _ _ _ hinv ha hp (fun x hx => Or.inl hx) ?_
    intro x hx
    rcases List.mem_cons.1 hx with rfl | hx
    · exact Or.inr ⟨rfl, hinv.resumed_out x hlive.1⟩
    · exact Or.inl hx

theorem inv_complete_init : inv_complete machine.init := by
  refine ⟨?_, ?_, ?_, ?_⟩ <;> simp [chain, machine.init, world.init]

theorem exec_invariant (permitted : event → machine → Bool) (P : machine → Prop)
    (hstep : ∀ e m m1, P m → permitted e m = true → m.step e = Except.ok m1 → P m1)
    (es : List event) (m m1 : machine) (hm : P m)
    (h : machine.exec permitted es m = Except.ok m1) : P m1 := by
  induction es generalizing m with
  | nil =>
    simp only [machine.exec, Except.ok.injEq] at h
    exact h ▸ hm
  | cons e es ih =>
    simp only [machine.exec] at h
    by_cases hp : permitted e m = true
    · simp only [hp, if_true] at h
      cases hs : m.step e with
      | error x => rw [hs] at h; exact absurd h (by simp)
      | ok m2 =>
        rw [hs] at h
        exact ih m2 (hstep e m m2 hm hp hs) h
    · simp only [hp, Bool.false_eq_true, if_false] at h
      exact absurd h (by simp)

/-- C4 (amended): in every state reachable from the empty scheduler through
spawn, join, cancel, notify, run, wait, yield, sleep and the return of a fiber's
function, each under the assertions of the code, where `spawn( f)` is only
applied to a fiber without a record in the waiting set and `cancel( f)` only to
a fiber that is not resumed, every complete fiber is absent from the waiting
set and is not the active fiber.  (It can still be in the run queue.) -/
theorem complete_fiber_not_waiting_not_active (m : machine)
    (h : machine.reachable spawn_unwaiting_cancel_suspended m) (f : Nat)
    (hf : f ∈ m.w.complete) :
    f ∉ m.w.sched.wqueue_.map schedulable.f ∧ m.w.sched.active_fiber_ ≠ some f := by
  obtain ⟨es, hes⟩ := h
  have hinv : inv_complete m :=
    exec_invariant _ inv_complete inv_complete_step es machine.init m inv_complete_init hes
  refine ⟨hinv.complete_out f hf, ?_⟩
  intro ha
  exact (hinv.chain_live f ((mem_chain m f).2 (Or.inl ha))).2 hf

theorem complete_fiber_not_waiting_not_active_witness :
    1 ∉ List.map schedulable.f
          (machine.of (some 2) [] [{ f := 3, abs_time := none }] [1] [2] [none]).w.sched.wqueue_
    ∧ (machine.of (some 2) [] [{ f := 3, abs_time := none }] [1] [2] [none]).w.sched.active_fiber_
        ≠ some 1 :=
  complete_fiber_not_waiting_not_active
    (machine.of (some 2) [] [{ f := 3, abs_time := none }] [1] [2] [none])
    ⟨[event.spawn 1, event.wait, event.spawn 3, event.wait, event.cancel 1, event.spawn 2],
      rfl⟩ 1 (by decide)

/-! ### Events keep `inv_placed` -/

theorem deadline_sweep_perm (now : Nat) (s : default_scheduler) :
    ((deadline_sweep now s).rqueue_ ++ (deadline_sweep now s).wqueue_.map schedulable.f).Perm
      (s.rqueue_ ++ s.wqueue_.map schedulable.f) := by
  rw [deadline_sweep_rqueue, deadline_sweep_wqueue]
  have h1 : (((expired_range now s.wqueue_).map schedulable.f).reverse).Perm
      ((s.wqueue_.filter (due now)).map schedulable.f) :=
    (List.reverse_perm _).trans ((expired_range_perm now s.wqueue_).map _)
  have h2 : ((s.wqueue_.filter (due now)).map schedulable.f
      ++ (s.wqueue_.filter (fun r => !due now r)).map schedulable.f).Perm
      (s.wqueue_.map schedulable.f) := by
    rw [← List.map_append]
    exact (List.filter_append_perm (due now) s.wqueue_).map _
  have h3 : (((expired_range now s.wqueue_).map schedulable.f).reverse ++ s.rqueue_
      ++ (s.wqueue_.filter (fun r => !due now r)).map schedulable.f).Perm
      (s.rqueue_ ++ (s.wqueue_.filter (due now)).map schedulable.f
        ++ (s.wqueue_.filter (fun r => !due now r)).map schedulable.f) :=
    ((h1.append_right _).trans List.perm_append_comm).append_right _
  refine h3.trans ?_
  rw [List.append_assoc]
  exact h2.append_left _

theorem inv_placed_enter (m : machine) (f : Nat) (rq1 : List Nat) (wq1 : List schedulable)
    (hinv : inv_placed m) (hc : f ∉ m.w.complete) (hr : f ∉ m.w.resumed)
    (hq : f ∉ rq1) (hw : f ∉ wq1.map schedulable.f)
    (hnd : (rq1 ++ wq1.map schedulable.f).Nodup)
    (hout : ∀ x ∈ chain m, x ∉ rq1 ∧ x ∉ wq1.map schedulable.f) :
    inv_placed (machine.of (some f) rq1 wq1 m.w.complete (f :: m.w.resumed)
      (m.w.sched.active_fiber_ :: m.pending)) := by
  have hch : chain (machine.of (some f) rq1 wq1 m.w.complete (f :: m.w.resumed)
      (m.w.sched.active_fiber_ :: m.pending)) = f :: chain m := rfl
  refine ⟨?_, ?_, hnd⟩
  · rw [hch, List.nodup_cons]
    refine ⟨fun hm => ?_, hinv.chain_nodup⟩
    rcases (hinv.chain_out f hm).2.2 with h | h
    · exact hr h
    · exact hc h
  · intro x hx
    rw [hch] at hx
    rcases List.mem_cons.1 hx with rfl | hx
    · exact ⟨hq, hw, Or.inl (List.mem_cons_self _ _)⟩
    · refine ⟨(hout x hx).1, (hout x hx).2, ?_⟩
      rcases (hinv.chain_out x hx).2.2 with h | h
      · exact Or.inl (List.mem_cons_of_mem _ h)
      · exact Or.inr h

theorem inv_placed_leave (m : machine) (a : Nat) (tmp : Option Nat)
    (rest : List (Option Nat)) (rq1 : List Nat) (wq1 : List schedulable) (c1 : List Nat)
    (hinv : inv_placed m) (ha : m.w.sched.active_fiber_ = some a)
    (hp : m.pending = tmp :: rest)
    (hnd : (rq1 ++ wq1.map schedulable.f).Nodup)
    (hsub : ∀ x, x ∈ rq1 ∨ x ∈ wq1.map schedulable.f →
      x ∈ m.w.sched.rqueue_ ∨ x ∈ m.w.sched.wqueue_.map schedulable.f ∨ x = a)
    (hc : ∀ x ∈ m.w.complete, x ∈ c1) :
    inv_placed (machine.of tmp rq1 wq1 c1 (m.w.resumed.filter (fun x => x != a)) rest) := by
  have hch := chain_of_pending m a tmp rest ha hp
  have hch1 : chain (machine.of tmp rq1 wq1 c1 (m.w.resumed.filter (fun x => x != a)) rest)
      = (tmp :: rest).filterMap id := rfl
  have hnd0 := hinv.chain_nodup
  rw [hch, List.nodup_cons] at hnd0
  refine ⟨?_, ?_, hnd⟩
  · rw [hch1]; exact hnd0.2
  · intro x hx
    rw [hch1] at hx
    have hxa : x ≠ a := fun hEq => hnd0.1 (hEq ▸ hx)
    obtain ⟨h1, h2, h3⟩ := hinv.chain_out x (by rw [hch]; exact List.mem_cons_of_mem _ hx)
    refine ⟨?_, ?_, ?_⟩
    · intro hm
      rcases hsub x (Or.inl hm) with h | h | h
      · exact h1 h
      · exact h2 h
      · exact hxa h
    · intro hm
      rcases hsub x (Or.inr hm) with h | h | h
      · exact h1 h
      · exact h2 h
      · exact hxa h
    · rcases h3 with h | h
      · refine Or.inl ?_
        show x ∈ m.w.resumed.filter (fun x => x != a)
        simp only [List.mem_filter, bne_iff_ne, ne_eq]
        exact ⟨h, hxa⟩
      · exact Or.inr (hc x h)

theorem inv_placed_stay (m : machine) (rq1 : List Nat) (wq1 : List schedulable)
    (c1 r1 : List Nat) (hinv : inv_placed m)
    (hnd : (rq1 ++ wq1.map schedulable.f).Nodup)
    (hout : ∀ x ∈ chain m, x ∉ rq1 ∧ x ∉ wq1.map schedulable.f ∧ (x ∈ r1 ∨ x ∈ c1)) :
    inv_placed (machine.of m.w.sched.active_fiber_ rq1 wq1 c1 r1 m.pending) := by
  have hch1 : chain (machine.of m.w.sched.active_fiber_ rq1 wq1 c1 r1 m.pending) = chain m :=
    rfl
  refine ⟨?_, ?_, hnd⟩
  · rw [hch1]; exact hinv.chain_nodup
  · intro x hx
    rw [hch1] at hx
    exact hout x hx

theorem contains_false_iff (l : List Nat) (f : Nat) : l.contains f = false ↔ f ∉ l := by
  simp

theorem inv_placed_suspend (m : machine) (a : Nat) (tmp : Option Nat)
    (rest : List (Option Nat)) (r : schedulable) (hinv : inv_placed m)
    (ha : m.w.sched.active_fiber_ = some a) (hp : m.pending = tmp :: rest) (hr : r.f = a) :
    inv_placed (machine.of tmp m.w.sched.rqueue_ (wqueue_insert r m.w.sched.wqueue_)
      m.w.complete (m.w.resumed.filter (fun x => x != a)) rest) := by
  obtain ⟨h1, h2, _⟩ := hinv.chain_out a ((mem_chain m a).2 (Or.inl ha))
  have hins : wqueue_insert r m.w.sched.wqueue_ = m.w.sched.wqueue_ ++ [r] :=
    wqueue_insert_new r _ (by rw [hr]; exact h2)
  refine inv_placed_leave m a tmp rest _ _ _ hinv ha hp ?_ ?_ (fun x hx => hx)
  · rw [hins, List.map_append, ← List.append_assoc]
    refine List.Nodup.append hinv.queues_nodup (by simp) ?_
    intro x hx1 hx2
    simp only [List.map_cons, List.map_nil, List.mem_singleton] at hx2
    rw [hx2, hr] at hx1
    rcases List.mem_append.1 hx1 with h | h
    · exact h1 h
    · exact h2 h
  · intro x hx
    rcases hx with h | h
    · exact Or.inl h
    · rcases mem_map_wqueue_insert r _ x h with h | h
      · exact Or.inr (Or.inl h)
      · exact Or.inr (Or.inr (h.trans hr))

theorem inv_placed_step (e : event) (m m1 : machine) (hinv : inv_placed m)
    (hrule : spawn_unqueued_notify_unqueued e m = true)
    (hstep : m.step e = Except.ok m1) : inv_placed m1 := by
  cases e with
  | spawn f =>
    obtain ⟨hc, hr, _, rfl⟩ := step_spawn_of f m m1 hstep
    simp only [spawn_unqueued_notify_unqueued, Bool.and_eq_true, Bool.not_eq_true',
      contains_false_iff, f_idx_find_false_iff] at hrule
    exact inv_placed_enter m f _ _ hinv hc hr hrule.1 hrule.2 hinv.queues_nodup
      (fun x hx => ⟨(hinv.chain_out x hx).1, (hinv.chain_out x hx).2.1⟩)
  | join f =>
    rcases step_join_ok f m m1 hstep with rfl | ⟨a, tmp, rest, ha, _, _, hp, rfl⟩
    · exact hinv
    · exact inv_placed_suspend m a tmp rest _ hinv ha hp rfl
  | cancel f =>
    obtain ⟨_, hcase⟩ := step_cancel_ok f m m1 hstep
    rcases hcase with rfl | ⟨_, rfl⟩
    · exact hinv
    · refine inv_placed_stay m _ _ _ _ hinv ?_ ?_
      · refine hinv.queues_nodup.sublist ?_
        exact List.Sublist.append_left
          ((List.filter_sublist _).map schedulable.f) _
      · intro x hx
        obtain ⟨h1, h2, h3⟩ := hinv.chain_out x hx
        refine ⟨h1, fun hm => h2 ((mem_map_f_idx_erase f x _).1 hm).1, ?_⟩
        by_cases hxf : x = f
        · exact Or.inr (hxf ▸ List.mem_cons_self _ _)
        · rcases h3 with h | h
          · refine Or.inl ?_
            simp only [List.mem_filter, bne_iff_ne, ne_eq]
            exact ⟨h, hxf⟩
          · exact Or.inr (List.mem_cons_of_mem _ h)
  | notify f =>
    obtain ⟨hc, hr, _, rfl⟩ := step_notify_ok f m m1 hstep
    simp only [spawn_unqueued_notify_unqueued, Bool.not_eq_true',
      contains_false_iff] at hrule
    refine inv_placed_stay m _ _ _ _ hinv ?_ ?_
    · rw [List.cons_append, List.nodup_cons]
      refine ⟨?_, hinv.queues_nodup.sublist
        (List.Sublist.append_left ((List.filter_sublist _).map schedulable.f) _)⟩
      intro hm
      rcases List.mem_append.1 hm with h | h
      · exact hrule h
      · exact ((mem_map_f_idx_erase f f _).1 h).2 rfl
    · intro x hx
      obtain ⟨h1, h2, h3⟩ := hinv.chain_out x hx
      have hxf : x ≠ f := by
        rintro rfl
        rcases h3 with h | h
        · exact hr h
        · exact hc h
      refine ⟨?_, fun hm => h2 ((mem_map_f_idx_erase f x _).1 hm).1, h3⟩
      intro hm
      rcases List.mem_cons.1 hm with h | h
      · exact hxf h
      · exact h1 h
  | run now =>
    have hperm := deadline_sweep_perm now m.w.sched
    have hnd : ((deadline_sweep now m.w.sched).rqueue_
        ++ (deadline_sweep now m.w.sched).wqueue_.map schedulable.f).Nodup :=
      hperm.nodup_iff.2 hinv.queues_nodup
    have hout : ∀ x ∈ chain m, x ∉ (deadline_sweep now m.w.sched).rqueue_
        ∧ x ∉ (deadline_sweep now m.w.sched).wqueue_.map schedulable.f := by
      intro x hx
      obtain ⟨h1, h2, _⟩ := hinv.chain_out x hx
      have hnot : x ∉ (deadline_sweep now m.w.sched).rqueue_
          ++ (deadline_sweep now m.w.sched).wqueue_.map schedulable.f := by
        intro hm
        rcases List.mem_append.1 (hperm.mem_iff.1 hm) with h | h
        · exact h1 h
        · exact h2 h
      exact ⟨fun h => hnot (List.mem_append_left _ h), fun h => hnot (List.mem_append_right _ h)⟩
    rcases step_run_of now m m1 hstep with ⟨rfl, _⟩ | ⟨pre, g, q, hQ, hc, hr, hw, rfl⟩
    · refine inv_placed_stay m _ _ _ _ hinv ?_ ?_
      · exact hnd.sublist (List.sublist_append_right _ _)
      · intro x hx
        exact ⟨by simp, (hout x hx).2, (hinv.chain_out x hx).2.2⟩
    · rw [hQ] at hnd hout
      have hnd2 : (g :: (q ++ (deadline_sweep now m.w.sched).wqueue_.map schedulable.f)).Nodup := by
        refine hnd.sublist ?_
        rw [List.append_assoc]
        exact List.sublist_append_right _ _
      rw [List.nodup_cons] at hnd2
      refine inv_placed_enter m g _ _ hinv hc hr
        (fun h => hnd2.1 (List.mem_append_left _ h)) hw hnd2.2 ?_
      intro x hx
      refine ⟨fun h => (hout x hx).1 ?_, (hout x hx).2⟩
      exact List.mem_append_right _ (List.mem_cons_of_mem _ h)
  | wait =>
    obtain ⟨a, tmp, rest, ha, _, _, hp, rfl⟩ := step_wait_ok m m1 hstep
    exact inv_placed_suspend m a tmp rest _ hinv ha hp rfl
  | yield =>
    obtain ⟨a, tmp, rest, ha, _, _, hp, rfl⟩ := step_yield_ok m m1 hstep
    obtain ⟨h1, h2, _⟩ := hinv.chain_out a ((mem_chain m a).2 (Or.inl ha))
    refine inv_placed_leave m a tmp rest _ _ _ hinv ha hp ?_ ?_ (fun x hx => hx)
    · have hp2 : (m.w.sched.rqueue_ ++ [a] ++ m.w.sched.wqueue_.map schedulable.f).Perm
          (a :: (m.w.sched.rqueue_ ++ m.w.sched.wqueue_.map schedulable.f)) := by
        rw [List.append_assoc]
        exact List.perm_middle
      rw [hp2.nodup_iff, List.nodup_cons]
      refine ⟨?_, hinv.queues_nodup⟩
      intro hm
      rcases List.mem_append.1 hm with h | h
      · exact h1 h
      · exact h2 h
    · intro x hx
      rcases hx with h | h
      · rcases List.mem_append.1 h with h | h
        · exact Or.inl h
        · exact Or.inr (Or.inr (List.mem_singleton.1 h))
      · exact Or.inr (Or.inl h)
  | sleep abs_time now =>
    rcases step_sleep_ok abs_time now m m1 hstep with rfl | ⟨a, tmp, rest, ha, _, _, hp, rfl⟩
    · exact hinv
    · exact inv_placed_suspend m a tmp rest _ hinv ha hp rfl
  | finish =>
    obtain ⟨a, tmp, rest, ha, hp, rfl⟩ := step_finish_ok m m1 hstep
    refine inv_placed_leave m a tmp rest _ _ _ hinv ha hp hinv.queues_nodup ?_
      (fun x hx => List.mem_cons_of_mem _ hx)
    intro x hx
    rcases hx with h | h
    · exact Or.inl h
    · exact Or.inr (Or.inl h)

theorem inv_placed_init : inv_placed machine.init := by
  refine ⟨?_, ?_, ?_⟩ <;> simp [chain, machine.init, world.init]

/-- C5 (amended): in every state reachable from the empty scheduler through
spawn, join, cancel, notify, run, wait, yield, sleep and the return of a fiber's
function, each under the assertions of the code, where `spawn( f)` is only
applied to a fiber that is in neither the run queue nor the waiting set and
`notify( f)` only to a fiber that is not in the run queue, every fiber occurs at
most once in total across the run queue, the waiting set and the active slot. -/
theorem placed_at_most_once (m : machine)
    (h : machine.reachable spawn_unqueued_notify_unqueued m) :
    (placed m.w.sched).Nodup := by
  obtain ⟨es, hes⟩ := h
  have hinv : inv_placed m :=
    exec_invariant _ inv_placed inv_placed_step es machine.init m inv_placed_init hes
  unfold placed
  refine List.Nodup.append hinv.queues_nodup ?_ ?_
  · cases m.w.sched.active_fiber_ <;> simp
  · intro x hx1 hx2
    have ha : m.w.sched.active_fiber_ = some x := by
      cases hact : m.w.sched.active_fiber_ with
      | none => rw [hact] at hx2; simp at hx2
      | some b =>
        rw [hact] at hx2
        simp only [Option.toList_some, List.mem_singleton] at hx2
        rw [hx2]
    obtain ⟨h1, h2, _⟩ := hinv.chain_out x ((mem_chain m x).2 (Or.inl ha))
    rcases List.mem_append.1 hx1 with h | h
    · exact h1 h
    · exact h2 h

theorem placed_at_most_once_witness :
    (placed (machine.of (some 2) [1] [{ f := 3, abs_time := some 70 }] [] [2]
      [none]).w.sched).Nodup :=
  placed_at_most_once
    (machine.of (some 2) [1] [{ f := 3, abs_time := some 70 }] [] [2] [none])
    ⟨[event.spawn 1, event.yield, event.spawn 3, event.sleep 70 10, event.spawn 2], rfl⟩

/-! ## Theorems: recursive_timed_mutex, second part -/

theorem lock_blocks_when_locked (ndebug : Bool) (h f : Nat) (c : Int) (w : List notify_ptr)
    (hne : h ≠ f) :
    recursive_timed_mutex.lock ndebug (some h) []
        { owner_ := some f, count_ := c, state_ := state_t.LOCKED, waiting_ := w }
      = outcome.blocked
          { owner_ := some f, count_ := c, state_ := state_t.LOCKED,
            waiting_ := w ++ [notify_ptr.fiber h] } [ext_call.wait] := by
  have hne2 : ¬ (some h = some f) := fun hEq => hne (Option.some.inj hEq)
  simp [recursive_timed_mutex.lock, lock_loop, lock_to_suspension, push_waiter, hne2]

theorem try_lock_until_blocks_when_locked (ndebug : Bool) (h f d : Nat) (clock : Nat → Nat)
    (c : Int) (w : List notify_ptr) (hne : h ≠ f) (hd : clock 0 < d) :
    recursive_timed_mutex.try_lock_until ndebug (some h) d clock []
        { owner_ := some f, count_ := c, state_ := state_t.LOCKED, waiting_ := w }
      = outcome.blocked
          { owner_ := some f, count_ := c, state_ := state_t.LOCKED,
            waiting_ := w ++ [notify_ptr.fiber h] } [ext_call.wait_until d] := by
  have hne2 : ¬ (some h = some f) := fun hEq => hne (Option.some.inj hEq)
  simp [recursive_timed_mutex.try_lock_until, try_lock_until_loop,
    try_lock_until_to_suspension, push_waiter, hne2, hd]

/-- C11: `unlock()` by the owner g.  With count 1 and waiters n, w2, ..., the call
removes exactly the front waiter n, leaves the others in order, clears the owner,
sets the state UNLOCKED and calls `set_ready()` on n and on nothing else; with no
waiter it notifies nobody.  With count c > 1 it only decrements the count: waiter
list, owner and state stay and no notifier is touched.  The waiters stand in the
order of registration: a `lock()` or `try_lock_until()` that blocks appends its
notifier at the back. -/
theorem unlock_hands_off_to_front_waiter (ndebug : Bool) (g : Nat) (c : Int)
    (n : notify_ptr) (ws w : List notify_ptr) (hc : 1 < c) :
    recursive_timed_mutex.unlock ndebug (some g)
        { owner_ := some g, count_ := 1, state_ := state_t.LOCKED, waiting_ := n :: ws }
      = outcome.returned ()
          { owner_ := none, count_ := 0, state_ := state_t.UNLOCKED, waiting_ := ws }
          [ext_call.set_ready n]
    ∧ recursive_timed_mutex.unlock ndebug (some g)
        { owner_ := some g, count_ := 1, state_ := state_t.LOCKED, waiting_ := [] }
      = outcome.returned ()
          { owner_ := none, count_ := 0, state_ := state_t.UNLOCKED, waiting_ := [] } []
    ∧ recursive_timed_mutex.unlock ndebug (some g)
        { owner_ := some g, count_ := c, state_ := state_t.LOCKED, waiting_ := w }
      = outcome.returned ()
          { owner_ := some g, count_ := c - 1, state_ := state_t.LOCKED, waiting_ := w } []
    ∧ (∀ h : Nat, h ≠ g →
        recursive_timed_mutex.lock ndebug (some h) []
            { owner_ := some g, count_ := c, state_ := state_t.LOCKED, waiting_ := w }
          = outcome.blocked
              { owner_ := some g, count_ := c, state_ := state_t.LOCKED,
                waiting_ := w ++ [notify_ptr.fiber h] } [ext_call.wait])
    ∧ (∀ (h d : Nat) (clock : Nat → Nat), h ≠ g → clock 0 < d →
        recursive_timed_mutex.try_lock_until ndebug (some h) d clock []
            { owner_ := some g, count_ := c, state_ := state_t.LOCKED, waiting_ := w }
          = outcome.blocked
              { owner_ := some g, count_ := c, state_ := state_t.LOCKED,
                waiting_ := w ++ [notify_ptr.fiber h] } [ext_call.wait_until d]) := by
  have hc1 : c - 1 ≠ 0 := by omega
  refine ⟨?_, ?_, ?_, ?_, ?_⟩
  · simp [recursive_timed_mutex.unlock]
  · simp [recursive_timed_mutex.unlock]
  · simp [recursive_timed_mutex.unlock, hc1]
  · intro h hne
    exact lock_blocks_when_locked ndebug h g c w hne
  · intro h d clock hne hd
    exact try_lock_until_blocks_when_locked ndebug h g d clock c w hne hd

theorem unlock_hands_off_to_front_waiter_witness :
    recursive_timed_mutex.unlock false (some 1)
        { owner_ := some 1, count_ := 3, state_ := state_t.LOCKED,
          waiting_ := [notify_ptr.fiber 2, notify_ptr.main_notifier] }
      = outcome.returned ()
          { owner_ := some 1, count_ := 3 - 1, state_ := state_t.LOCKED,
            waiting_ := [notify_ptr.fiber 2, notify_ptr.main_notifier] } [] :=
  (unlock_hands_off_to_front_waiter false 1 3 (notify_ptr.fiber 2) []
    [notify_ptr.fiber 2, notify_ptr.main_notifier] (by decide)).2.2.1

/-- C12: `try_lock()`.  On a mutex LOCKED by f with count c, a call by fiber
g ≠ f makes exactly one call, `yield()`, with the mutex untouched, and when the
yield comes back returns false with the mutex as the other fibers left it (the
call itself writes nothing); the `yield()` of the active fiber g appends g at
the back of the run queue.  On an UNLOCKED mutex the call returns true with
state LOCKED, owner g, count 1, without a yield.  Called by the owner f it
returns true with count c + 1 and nothing else changed.  Scenario: fiber 1 locks
three times and unlocks twice, then `try_lock()` by fiber 2 returns false and
the owner is still fiber 1. -/
theorem try_lock_contract (ndebug : Bool) (f g : Nat) (c : Int) (w : List notify_ptr)
    (env : List resume_info) (hne : g ≠ f) :
    recursive_timed_mutex.try_lock ndebug (some g) []
        { owner_ := some f, count_ := c, state_ := state_t.LOCKED, waiting_ := w }
      = outcome.blocked
          { owner_ := some f, count_ := c, state_ := state_t.LOCKED, waiting_ := w }
          [ext_call.yield]
    ∧ (∀ m2 flag rest,
        recursive_timed_mutex.try_lock ndebug (some g) (resume_info.returned m2 flag :: rest)
            { owner_ := some f, count_ := c, state_ := state_t.LOCKED, waiting_ := w }
          = outcome.returned false m2 [ext_call.yield])
    ∧ (∀ wd : world, wd.sched.active_fiber_ = some g → g ∉ wd.complete → g ∈ wd.resumed →
        ∃ w1, default_scheduler.yield wd = Except.ok w1
          ∧ w1.sched.rqueue_ = wd.sched.rqueue_ ++ [g])
    ∧ recursive_timed_mutex.try_lock ndebug (some g) env
        { owner_ := none, count_ := 0, state_ := state_t.UNLOCKED, waiting_ := w }
      = outcome.returned true
          { owner_ := some g, count_ := 1, state_ := state_t.LOCKED, waiting_ := w } []
    ∧ recursive_timed_mutex.try_lock ndebug (some f) env
        { owner_ := some f, count_ := c, state_ := state_t.LOCKED, waiting_ := w }
      = outcome.returned true
          { owner_ := some f, count_ := c + 1, state_ := state_t.LOCKED, waiting_ := w } []
    ∧ (repeat_call (recursive_timed_mutex.lock ndebug (some 1) []) 3
          recursive_timed_mutex.init).bind
        (repeat_call (recursive_timed_mutex.unlock ndebug (some 1)) 2)
      = some { owner_ := some 1, count_ := 1, state_ := state_t.LOCKED, waiting_ := [] }
    ∧ recursive_timed_mutex.try_lock ndebug (some 2)
        [resume_info.returned
          { owner_ := some 1, count_ := 1, state_ := state_t.LOCKED, waiting_ := [] } true]
        { owner_ := some 1, count_ := 1, state_ := state_t.LOCKED, waiting_ := [] }
      = outcome.returned false
          { owner_ := some 1, count_ := 1, state_ := state_t.LOCKED, waiting_ := [] }
          [ext_call.yield] := by
  have hne2 : ¬ (some g = some f) := fun hEq => hne (Option.some.inj hEq)
  refine ⟨?_, ?_, ?_, ?_, ?_, ?_, ?_⟩
  · simp [recursive_timed_mutex.try_lock, hne2]
  · intro m2 flag rest
    simp [recursive_timed_mutex.try_lock, hne2]
  · intro wd ha hc hr
    have h1 : wd.is_complete g = false := by
      rw [← Bool.not_eq_true, is_complete_iff]; exact hc
    have h2 : wd.is_resumed g = true := (is_resumed_iff wd g).2 hr
    refine ⟨suspend g { wd with sched := { wd.sched with
        rqueue_ := wd.sched.rqueue_ ++ [g] } }, ?_, rfl⟩
    simp only [default_scheduler.yield, active_pre, ha, BOOST_ASSERT, h1, h2, Bool.not_false,
      if_true, bind, Except.bind]
  · simp [recursive_timed_mutex.try_lock]
  · simp [recursive_timed_mutex.try_lock]
  · cases ndebug <;> rfl
  · cases ndebug <;> rfl

theorem try_lock_contract_witness :
    recursive_timed_mutex.try_lock false (some 2) []
        { owner_ := some 1, count_ := 1, state_ := state_t.LOCKED,
          waiting_ := [notify_ptr.fiber 3] }
      = outcome.blocked
          { owner_ := some 1, count_ := 1, state_ := state_t.LOCKED,
            waiting_ := [notify_ptr.fiber 3] }
          [ext_call.yield] :=
  (try_lock_contract false 1 2 1 [notify_ptr.fiber 3] [] (by decide)).1

/-- C14 (failing input): the mutex is LOCKED by fiber 1, fiber 2 is suspended in
`lock()` with its notifier registered; `cancel( 2)` unwinds it, that is, `wait()`
throws.  The function `lock()` has no handler: it is left with the notifier of
fiber 2 still in `waiting_`.  The next `unlock()` of fiber 1 pops that notifier
and calls `set_ready()` on it, which is `notify( 2)` on the complete fiber 2: the
assertion of line 117 fails.  On the same input `try_lock_until()` runs its
handler (lines 175-183) and leaves `waiting_` empty. -/
theorem lock_keeps_notifier_of_cancelled_fiber :
    recursive_timed_mutex.lock false (some 2)
        [resume_info.thrown { owner_ := some 1, count_ := 1, state_ := state_t.LOCKED,
                              waiting_ := [notify_ptr.fiber 2] }]
        { owner_ := some 1, count_ := 1, state_ := state_t.LOCKED, waiting_ := [] }
      = outcome.thrown
          { owner_ := some 1, count_ := 1, state_ := state_t.LOCKED,
            waiting_ := [notify_ptr.fiber 2] } [ext_call.wait]
    ∧ recursive_timed_mutex.unlock false (some 1)
        { owner_ := some 1, count_ := 1, state_ := state_t.LOCKED,
          waiting_ := [notify_ptr.fiber 2] }
      = outcome.returned ()
          { owner_ := none, count_ := 0, state_ := state_t.UNLOCKED, waiting_ := [] }
          [ext_call.set_ready (notify_ptr.fiber 2)]
    ∧ set_ready (notify_ptr.fiber 2) (machine.of (some 1) [] [] [2] [1] [none]).w
      = Except.error (fault.assert_at 117)
    ∧ recursive_timed_mutex.try_lock_until false (some 2) 100 (fun _ => 0)
        [resume_info.thrown { owner_ := some 1, count_ := 1, state_ := state_t.LOCKED,
                              waiting_ := [notify_ptr.fiber 2] }]
        { owner_ := some 1, count_ := 1, state_ := state_t.LOCKED, waiting_ := [] }
      = outcome.thrown
          { owner_ := some 1, count_ := 1, state_ := state_t.LOCKED, waiting_ := [] }
          [ext_call.wait_until 100] := by
  refine ⟨by decide, by decide, by rfl, by decide⟩

theorem expired_range_nil (now : Nat) (wq : List schedulable)
    (h : ∀ r ∈ wq, due now r = false) : expired_range now wq = [] := by
  rw [expired_range_eq_filter, List.filter_eq_nil_iff]
  intro r hr
  rw [tp_idx, List.mem_insertionSort] at hr
  rw [h r hr]
  simp

theorem deadline_sweep_no_due (now : Nat) (s : default_scheduler)
    (h : ∀ r ∈ s.wqueue_, due now r = false) : deadline_sweep now s = s := by
  have hr : (deadline_sweep now s).rqueue_ = s.rqueue_ := by
    rw [deadline_sweep_rqueue, expired_range_nil now _ h]
    rfl
  have hw : (deadline_sweep now s).wqueue_ = s.wqueue_ := by
    rw [deadline_sweep_wqueue, List.filter_eq_self]
    intro r hr
    rw [h r hr]
    rfl
  have ha : (deadline_sweep now s).active_fiber_ = s.active_fiber_ := rfl
  cases hs : deadline_sweep now s with
  | mk a q wl =>
    rw [hs] at hr hw ha
    cases s with
    | mk a0 q0 wl0 =>
      simp only at hr hw ha
      rw [hr, hw, ha]

theorem due_false_of_later (now : Nat) (r : schedulable)
    (h : ∀ d, r.abs_time = some d → now < d) : due now r = false := by
  unfold due
  cases hr : r.abs_time with
  | none => rfl
  | some d =>
    have := h d hr
    simp only [decide_eq_false_iff_not]
    omega

theorem run_resumes (resume : fiber_code) (now : Nat) (w : world) (pre : List Nat) (g : Nat)
    (post : List Nat) (hQ : (deadline_sweep now w.sched).rqueue_ = pre ++ g :: post)
    (hpre : ∀ x ∈ pre,
      x ∈ w.complete ∧ x ∉ (deadline_sweep now w.sched).wqueue_.map schedulable.f)
    (hg : g ∉ w.complete) (hgw : g ∉ (deadline_sweep now w.sched).wqueue_.map schedulable.f)
    (hgr : g ∉ w.resumed)
    (hret : (resume g { w with sched := { deadline_sweep now w.sched with
        rqueue_ := post, active_fiber_ := some g } }).2 = false)
    (hpost : resume_post (resume g { w with sched := { deadline_sweep now w.sched with
        rqueue_ := post, active_fiber_ := some g } }).1 = Except.ok ()) :
    default_scheduler.run resume now w
      = Except.ok ((resume g { w with sched := { deadline_sweep now w.sched with
          rqueue_ := post, active_fiber_ := some g } }).1.set_active
            w.sched.active_fiber_, some true) := by
  have hpop := (pop_runnable_some w.complete (deadline_sweep now w.sched).wqueue_
    (deadline_sweep now w.sched).rqueue_ post g).2 ⟨pre, hQ, hpre, hg, hgw⟩
  have h26 : world.is_complete (world.set_active (some g)
      { w with sched := { deadline_sweep now w.sched with rqueue_ := post } }) g = false := by
    rw [← Bool.not_eq_true, is_complete_iff]; exact hg
  have h27 : world.is_resumed (world.set_active (some g)
      { w with sched := { deadline_sweep now w.sched with rqueue_ := post } }) g = false := by
    rw [← Bool.not_eq_true, is_resumed_iff]; exact hgr
  have hpost2 : resume_post (resume g (world.set_active (some g)
      { w with sched := { deadline_sweep now w.sched with rqueue_ := post } })).1
        = Except.ok () := hpost
  have hret2 : (resume g (world.set_active (some g)
      { w with sched := { deadline_sweep now w.sched with rqueue_ := post } })).2
        = false := hret
  simp only [default_scheduler.run, run_select, hpop, bind, Except.bind, resume_and_restore,
    resume_pre, BOOST_ASSERT, h26, h27, Bool.not_false, if_true, hret2, Bool.false_eq_true,
    if_false, hpost2]
  rfl

theorem run_shape (resume : fiber_code) (now : Nat) (w w1 : world) (v : Option Bool)
    (h : default_scheduler.run resume now w = Except.ok (w1, v)) :
    (v = some false ∧ ∀ x ∈ (deadline_sweep now w.sched).rqueue_, x ∈ w.complete)
    ∨ ∃ pre g post, (deadline_sweep now w.sched).rqueue_ = pre ++ g :: post
        ∧ (∀ x ∈ pre, x ∈ w.complete) ∧ g ∉ w.complete
        ∧ g ∉ (deadline_sweep now w.sched).wqueue_.map schedulable.f
        ∧ v ≠ some false
        ∧ w1 = (resume g { w with sched := { deadline_sweep now w.sched with
            rqueue_ := post, active_fiber_ := some g } }).1.set_active w.sched.active_fiber_
        ∧ ((resume g { w with sched := { deadline_sweep now w.sched with
            rqueue_ := post, active_fiber_ := some g } }).2 = false → v = some true) := by
  unfold default_scheduler.run at h
  rw [bind_ok_iff] at h
  obtain ⟨⟨w0, sel⟩, hsel, h⟩ := h
  obtain ⟨q, hpop, hw0⟩ := run_select_ok now w w0 sel hsel
  cases sel with
  | none =>
    simp only [Except.ok.injEq, Prod.mk.injEq] at h
    obtain ⟨_, rfl⟩ := h
    exact Or.inl ⟨rfl, fun x hx => (((pop_runnable_none _ _ _ _).1 hpop).1 x hx).1⟩
  | some g =>
    simp only at h
    obtain ⟨hw1, _, _, hv⟩ := resume_and_restore_ok _ _ _ _ _ _ _ h
    obtain ⟨pre, hQ, hpre, hg, hgw⟩ := (pop_runnable_some _ _ _ _ _).1 hpop
    subst hw0
    refine Or.inr ⟨pre, g, q, hQ, fun x hx => (hpre x hx).1, hg, hgw, ?_, hw1, ?_⟩
    · rcases hv with ⟨_, rfl⟩ | ⟨_, rfl⟩ <;> simp
    · intro hf
      rcases hv with ⟨ht, _⟩ | ⟨_, rfl⟩
      · exact absurd (hf.symm.trans ht) (by simp)
      · rfl

/-- C16: `yield()` with the active fiber a not complete (and resumed, as lines
185-187 assert) returns control with a appended as the last element of the run
queue, the earlier entries in place, the waiting set and the complete fibers
unchanged, a suspended.  If the run queue was empty before and at the next
`run()` (called with any active fiber `tmp` restored) no waiting record has a
deadline that has expired, that `run()` resumes a itself, with an empty run
queue, and returns true; a has no waiting record, as line 152 asserts. -/
theorem yield_appends_and_comes_back (w : world) (a : Nat)
    (ha : w.sched.active_fiber_ = some a) (hc : a ∉ w.complete) (hr : a ∈ w.resumed) :
    ∃ w1, default_scheduler.yield w = Except.ok w1
      ∧ w1.sched.rqueue_ = w.sched.rqueue_ ++ [a]
      ∧ w1.sched.wqueue_ = w.sched.wqueue_
      ∧ w1.complete = w.complete
      ∧ a ∉ w1.resumed
      ∧ (∀ (resume : fiber_code) (tmp : Option Nat) (now : Nat),
          w.sched.rqueue_ = [] →
          (∀ r ∈ w.sched.wqueue_, ∀ d, r.abs_time = some d → now < d) →
          a ∉ w.sched.wqueue_.map schedulable.f →
          (resume a { w1 with sched := { w1.sched with
              rqueue_ := [], active_fiber_ := some a } }).2 = false →
          resume_post (resume a { w1 with sched := { w1.sched with
              rqueue_ := [], active_fiber_ := some a } }).1 = Except.ok () →
          default_scheduler.run resume now (w1.set_active tmp)
            = Except.ok ((resume a { w1 with sched := { w1.sched with
                rqueue_ := [], active_fiber_ := some a } }).1.set_active tmp, some true)) := by
  have h1 : w.is_complete a = false := by
    rw [← Bool.not_eq_true, is_complete_iff]; exact hc
  have h2 : w.is_resumed a = true := (is_resumed_iff w a).2 hr
  refine ⟨suspend a { w with sched := { w.sched with rqueue_ := w.sched.rqueue_ ++ [a] } },
    ?_, rfl, rfl, rfl, ?_, ?_⟩
  · simp only [default_scheduler.yield, active_pre, ha, BOOST_ASSERT, h1, h2, Bool.not_false,
      if_true, bind, Except.bind]
  · show a ∉ w.resumed.filter (fun x => x != a)
    simp
  · intro resume tmp now hq hdue hw hret hpost
    have hnodue : ∀ r ∈ w.sched.wqueue_, due now r = false :=
      fun r hr0 => due_false_of_later now r (hdue r hr0)
    have hsweep : deadline_sweep now
        (world.set_active tmp (suspend a { w with sched := { w.sched with
          rqueue_ := w.sched.rqueue_ ++ [a] } })).sched
        = { active_fiber_ := tmp, rqueue_ := [a], wqueue_ := w.sched.wqueue_ } := by
      rw [deadline_sweep_no_due now (world.set_active tmp (suspend a { w with sched :=
        { w.sched with rqueue_ := w.sched.rqueue_ ++ [a] } })).sched hnodue]
      simp [world.set_active, suspend, hq]
    have h := run_resumes resume now
      (world.set_active tmp (suspend a { w with sched := { w.sched with
          rqueue_ := w.sched.rqueue_ ++ [a] } })) [] a []
    rw [hsweep] at h
    exact h rfl (by simp) hc hw (by
      show a ∉ w.resumed.filter (fun x => x != a)
      simp) hret hpost

theorem yield_appends_and_comes_back_witness :
    ∃ w1, default_scheduler.yield (machine.of (some 1) [2] [] [] [1] [none]).w = Except.ok w1
      ∧ w1.sched.rqueue_ = [2] ++ [1]
      ∧ w1.sched.wqueue_ = []
      ∧ w1.complete = []
      ∧ 1 ∉ w1.resumed :=
  match yield_appends_and_comes_back (machine.of (some 1) [2] [] [] [1] [none]).w 1 rfl
      (by decide) (by decide) with
  | ⟨w1, h1, h2, h3, h4, h5, _⟩ => ⟨w1, h1, h2, h3, h4, h5⟩

/-- C17 (counterexample): main spawns fiber 1, fiber 1 calls `wait()`, main
spawns fiber 1 again (the assertions of lines 49-51 hold), and fiber 1, now
active with its waiting record `(1, none)` still in the set, calls `sleep( 5)`
at clock reading 0.  The assertions of lines 201-203 hold and 5 > 0, but the
insert of line 209 meets the record of fiber 1 in the unique fiber index and
inserts nothing: fiber 1 is suspended, the waiting set holds no record
`(1, 5)`, and the sweep of no later `run()` puts fiber 1 in the run queue. -/
theorem sleep_of_waiting_fiber_inserts_no_record :
    machine.exec asserted_only [event.spawn 1, event.wait, event.spawn 1] machine.init
        = Except.ok (machine.of (some 1) [] [{ f := 1, abs_time := none }] [] [1] [none])
    ∧ default_scheduler.sleep 5 0
          (machine.of (some 1) [] [{ f := 1, abs_time := none }] [] [1] [none]).w
        = Except.ok ((machine.of (some 1) [] [{ f := 1, abs_time := none }] [] [] [none]).w,
            true)
    ∧ ({ f := 1, abs_time := some 5 } : schedulable)
        ∉ (machine.of (some 1) [] [{ f := 1, abs_time := none }] [] [] [none]).w.sched.wqueue_
    ∧ ∀ t, 1 ∉ (deadline_sweep t
        (machine.of (some 1) [] [{ f := 1, abs_time := none }] [] [] [none]).w.sched).rqueue_ := by
  refine ⟨rfl, rfl, by decide, ?_⟩
  intro t
  rw [deadline_sweep_no_due t _ (by
    intro r hr
    have hr1 : r = { f := 1, abs_time := none } := by simpa [machine.of] using hr
    rw [hr1]
    rfl)]
  decide

/-- C17 (amended): `sleep( d)` called by the active fiber a (not complete and
resumed, lines 201-203) at clock reading `now`.  If d ≤ now, the case d = now
included, it returns at once: a is not suspended, the run queue and the waiting
set are unchanged.  If d > now and a has no record in the waiting set, it
inserts exactly the record (a, d), at no other change of the waiting set, leaves
the run queue unchanged and suspends a.  In every state s in which (a, d) is in
the waiting set and is the only record of a, the sweep of a `run()` at clock
reading t < d keeps the record and pushes no handle of a, and the sweep of a
`run()` at t with d ≤ t removes the record and pushes a at the front part of the
run queue. -/
theorem sleep_until_deadline (w : world) (a d now : Nat)
    (ha : w.sched.active_fiber_ = some a) (hc : a ∉ w.complete) (hr : a ∈ w.resumed) :
    (d ≤ now → default_scheduler.sleep d now w = Except.ok (w, false))
    ∧ (now < d → a ∉ w.sched.wqueue_.map schedulable.f →
        ∃ w1, default_scheduler.sleep d now w = Except.ok (w1, true)
          ∧ w1.sched.wqueue_ = w.sched.wqueue_ ++ [{ f := a, abs_time := some d }]
          ∧ w1.sched.rqueue_ = w.sched.rqueue_
          ∧ w1.complete = w.complete
          ∧ a ∉ w1.resumed)
    ∧ (∀ (s : default_scheduler) (t : Nat),
        ({ f := a, abs_time := some d } : schedulable) ∈ s.wqueue_ →
        (∀ r ∈ s.wqueue_, r.f = a → r = { f := a, abs_time := some d }) →
        (deadline_sweep t s).rqueue_
            = ((expired_range t s.wqueue_).map schedulable.f).reverse ++ s.rqueue_
          ∧ (t < d → ({ f := a, abs_time := some d } : schedulable) ∈ (deadline_sweep t s).wqueue_
                ∧ a ∉ (expired_range t s.wqueue_).map schedulable.f)
          ∧ (d ≤ t → a ∉ (deadline_sweep t s).wqueue_.map schedulable.f
                ∧ a ∈ (expired_range t s.wqueue_).map schedulable.f)) := by
  have h1 : w.is_complete a = false := by
    rw [← Bool.not_eq_true, is_complete_iff]; exact hc
  have h2 : w.is_resumed a = true := (is_resumed_iff w a).2 hr
  refine ⟨?_, ?_, ?_⟩
  · intro hle
    have hn : ¬ d > now := by omega
    simp only [default_scheduler.sleep, active_pre, ha, BOOST_ASSERT, h1, h2, Bool.not_false,
      if_true, bind, Except.bind, hn, if_false]
  · intro hlt hnew
    refine ⟨suspend a { w with sched := { w.sched with
        wqueue_ := w.sched.wqueue_ ++ [{ f := a, abs_time := some d }] } }, ?_, rfl, rfl, rfl, ?_⟩
    · have hn : d > now := hlt
      simp only [default_scheduler.sleep, active_pre, ha, BOOST_ASSERT, h1, h2, Bool.not_false,
        if_true, bind, Except.bind, hn]
      rw [wqueue_insert_new _ _ hnew]
    · show a ∉ w.resumed.filter (fun x => x != a)
      simp
  · intro s t hrec huniq
    have hdue : due t { f := a, abs_time := some d } = decide (d ≤ t) := rfl
    refine ⟨deadline_sweep_rqueue t s, ?_, ?_⟩
    · intro hlt
      have hnd : due t { f := a, abs_time := some d } = false := by
        rw [hdue]; simp only [decide_eq_false_iff_not]; omega
      constructor
      · rw [deadline_sweep_wqueue, List.mem_filter]
        exact ⟨hrec, by rw [hnd]; rfl⟩
      · intro hmem
        obtain ⟨r, hr0, hrf⟩ := List.mem_map.1 hmem
        obtain ⟨hrw, hrd⟩ := (mem_expired_range t s.wqueue_ r).1 hr0
        rw [huniq r hrw hrf, hnd] at hrd
        exact absurd hrd (by simp)
    · intro hle
      have hd : due t { f := a, abs_time := some d } = true := by
        rw [hdue]; simp only [decide_eq_true_eq]; exact hle
      constructor
      · intro hmem
        obtain ⟨r, hr0, hrf⟩ := List.mem_map.1 hmem
        rw [deadline_sweep_wqueue, List.mem_filter] at hr0
        obtain ⟨hrw, hrd⟩ := hr0
        rw [huniq r hrw hrf, hd] at hrd
        exact absurd hrd (by simp)
      · exact List.mem_map.2 ⟨_, (mem_expired_range t s.wqueue_ _).2 ⟨hrec, hd⟩, rfl⟩

theorem sleep_until_deadline_witness :
    default_scheduler.sleep 5 5 (machine.of (some 1) [2] [] [] [1] [none]).w
        = Except.ok ((machine.of (some 1) [2] [] [] [1] [none]).w, false)
    ∧ ∃ w1, default_scheduler.sleep 5 0 (machine.of (some 1) [2] [] [] [1] [none]).w
          = Except.ok (w1, true)
        ∧ w1.sched.wqueue_ = [] ++ [{ f := 1, abs_time := some 5 }]
        ∧ w1.sched.rqueue_ = [2]
        ∧ w1.complete = []
        ∧ 1 ∉ w1.resumed :=
  ⟨(sleep_until_deadline (machine.of (some 1) [2] [] [] [1] [none]).w 1 5 5 rfl
      (by decide) (by decide)).1 (by decide),
   (sleep_until_deadline (machine.of (some 1) [2] [] [] [1] [none]).w 1 5 0 rfl
      (by decide) (by decide)).2.1 (by decide) (by decide)⟩

/-! ### The order of the sweep and the notified fiber -/

theorem split_in_prefix (P rq pre q : List Nat) (g : Nat) (h : P ++ rq = pre ++ g :: q)
    (hex : ∃ x ∈ P, x ∉ pre) : ∃ tail, P = pre ++ g :: tail ∧ q = tail ++ rq := by
  obtain ⟨x, hxP, hxpre⟩ := hex
  rcases List.append_eq_append_iff.1 h with ⟨a1, h1, _⟩ | ⟨c1, h1, h2⟩
  · exact absurd (by rw [h1]; exact List.mem_append_left _ hxP) hxpre
  · cases c1 with
    | nil =>
      rw [List.append_nil] at h1
      exact absurd (h1 ▸ hxP) hxpre
    | cons y tail =>
      rw [List.cons_append, List.cons.injEq] at h2
      exact ⟨tail, by rw [h1, h2.1], h2.2⟩

theorem expired_range_sorted (now : Nat) (wq : List schedulable) :
    (expired_range now wq).Pairwise tp_le :=
  List.Pairwise.sublist (List.takeWhile_sublist _) (List.sorted_insertionSort tp_le wq)

theorem due_iff (now : Nat) (r : schedulable) :
    due now r = true ↔ ∃ d, r.abs_time = some d ∧ d ≤ now := by
  unfold due
  cases r.abs_time with
  | none => simp
  | some d => simp

/-- C19: the order produced by the deadline sweep of `run()` (lines 134-142).
The swept records are exactly the waiting records whose deadline is not later
than the clock reading; they are pushed at the front in ascending order of
deadline, so after the sweep the run queue is these fibers in descending order
of deadline (the latest one at the very front) followed by the whole previous
run queue in its order.  When some expired record belongs to a fiber that is not
complete, a `run()` that comes back has resumed the fiber of such a record r,
whose deadline is not earlier than that of any other expired record of an
incomplete fiber, with the whole previous run queue (hence every fiber `notify()`
had pushed) still queued behind. -/
theorem sweep_pushes_in_deadline_order (resume : fiber_code) (now : Nat) (w : world) :
    (deadline_sweep now w.sched).rqueue_
        = (expired_range now w.sched.wqueue_).reverse.map schedulable.f ++ w.sched.rqueue_
    ∧ (∀ r, r ∈ expired_range now w.sched.wqueue_
        ↔ r ∈ w.sched.wqueue_ ∧ ∃ d, r.abs_time = some d ∧ d ≤ now)
    ∧ (expired_range now w.sched.wqueue_).Pairwise tp_le
    ∧ (expired_range now w.sched.wqueue_).reverse.Pairwise (fun a b => tp_le b a)
    ∧ (∀ w1 v, default_scheduler.run resume now w = Except.ok (w1, v) →
        (∃ r ∈ expired_range now w.sched.wqueue_, r.f ∉ w.complete) →
        ∃ r ∈ expired_range now w.sched.wqueue_, r.f ∉ w.complete
          ∧ (∀ r1 ∈ expired_range now w.sched.wqueue_, r1.f ∉ w.complete → tp_le r1 r)
          ∧ v ≠ some false
          ∧ ∃ tail, w1 = (resume r.f { w with sched := { deadline_sweep now w.sched with
              rqueue_ := tail ++ w.sched.rqueue_, active_fiber_ := some r.f } }).1.set_active
                w.sched.active_fiber_) := by
  have hrq : (deadline_sweep now w.sched).rqueue_
      = (expired_range now w.sched.wqueue_).reverse.map schedulable.f ++ w.sched.rqueue_ := by
    rw [deadline_sweep_rqueue, List.map_reverse]
  have hsorted := expired_range_sorted now w.sched.wqueue_
  have hrev : (expired_range now w.sched.wqueue_).reverse.Pairwise (fun a b => tp_le b a) :=
    List.pairwise_reverse.2 (by simpa using hsorted)
  refine ⟨hrq, ?_, hsorted, hrev, ?_⟩
  · intro r
    rw [mem_expired_range, due_iff]
  · intro w1 v hrun ⟨r0, hr0, hr0c⟩
    have hr0Q : r0.f ∈ (expired_range now w.sched.wqueue_).reverse.map schedulable.f :=
      List.mem_map.2 ⟨r0, List.mem_reverse.2 hr0, rfl⟩
    rcases run_shape resume now w w1 v hrun with ⟨_, hall⟩ | ⟨pre, g, post, hQ, hpre, hg, _, hv,
      hw1, _⟩
    · exact absurd (hall r0.f (by rw [hrq]; exact List.mem_append_left _ hr0Q)) hr0c
    · rw [hrq] at hQ
      obtain ⟨tail, hP, hpost⟩ := split_in_prefix _ _ _ _ _ hQ
        ⟨r0.f, hr0Q, fun hin => hr0c (hpre _ hin)⟩
      obtain ⟨l1, l2, hE, hl1, hl2⟩ := List.map_eq_append_iff.1 hP
      obtain ⟨r, l3, hl2e, hrf, _⟩ := List.map_eq_cons_iff.1 hl2
      subst hl2e
      have hrE : r ∈ expired_range now w.sched.wqueue_ :=
        List.mem_reverse.1 (by rw [hE]; simp)
      refine ⟨r, hrE, by rw [hrf]; exact hg, ?_, hv, tail, ?_⟩
      · intro r1 hr1 hr1c
        have hr1rev : r1 ∈ l1 ++ r :: l3 := by rw [← hE]; exact List.mem_reverse.2 hr1
        rw [hE] at hrev
        rcases List.mem_append.1 hr1rev with hin | hin
        · exact absurd (hpre r1.f (by rw [← hl1]; exact List.mem_map.2 ⟨r1, hin, rfl⟩)) hr1c
        · rcases List.mem_cons.1 hin with heq | hin3
          · rw [heq]
            rcases deadline_le_total r.abs_time r.abs_time with h | h <;> exact h
          · exact (List.pairwise_cons.1 (List.pairwise_append.1 hrev).2.1).1 r1 hin3
      · rw [hw1, hrf, hpost]

theorem sweep_pushes_in_deadline_order_witness :
    ∃ r ∈ expired_range 20 [{ f := 1, abs_time := some 10 }, { f := 2, abs_time := some 5 },
          { f := 3, abs_time := some 30 }, { f := 4, abs_time := some 15 }],
      r.f ∉ [4]
      ∧ (∀ r1 ∈ expired_range 20 [{ f := 1, abs_time := some 10 },
            { f := 2, abs_time := some 5 }, { f := 3, abs_time := some 30 },
            { f := 4, abs_time := some 15 }], r1.f ∉ [4] → tp_le r1 r)
      ∧ (some true : Option Bool) ≠ some false
      ∧ ∃ tail, (machine.of none [2, 7, 1] [{ f := 3, abs_time := some 30 }] [4] [] []).w
          = (runs_to_yield r.f { (machine.of none [7]
                [{ f := 1, abs_time := some 10 }, { f := 2, abs_time := some 5 },
                 { f := 3, abs_time := some 30 }, { f := 4, abs_time := some 15 }]
                [4] [] []).w with sched := { deadline_sweep 20 (machine.of none [7]
                [{ f := 1, abs_time := some 10 }, { f := 2, abs_time := some 5 },
                 { f := 3, abs_time := some 30 }, { f := 4, abs_time := some 15 }]
                [4] [] []).w.sched with
              rqueue_ := tail ++ [7], active_fiber_ := some r.f } }).1.set_active none :=
  (sweep_pushes_in_deadline_order runs_to_yield 20 (machine.of none [7]
      [{ f := 1, abs_time := some 10 }, { f := 2, abs_time := some 5 },
       { f := 3, abs_time := some 30 }, { f := 4, abs_time := some 15 }]
      [4] [] []).w).2.2.2.2
    (machine.of none [2, 7, 1] [{ f := 3, abs_time := some 30 }] [4] [] []).w (some true)
    rfl ⟨{ f := 1, abs_time := some 10 }, by decide, by decide⟩

theorem split_before_last (A pre tail : List Nat) (f g : Nat)
    (h : A ++ [f] = pre ++ g :: tail) :
    (tail = [] ∧ A = pre ∧ f = g) ∨ ∃ t, tail = t ++ [f] ∧ A = pre ++ g :: t := by
  rcases List.eq_nil_or_concat tail with ht | ⟨t, b, ht⟩
  · subst ht
    have h2 : A ++ [f] = pre ++ [g] := h
    obtain ⟨h3, h4⟩ := List.append_inj' h2 rfl
    exact Or.inl ⟨rfl, h3, by simpa using h4⟩
  · rw [List.concat_eq_append] at ht
    subst ht
    have h2 : A ++ [f] = (pre ++ g :: t) ++ [b] := by rw [h]; simp
    obtain ⟨h3, h4⟩ := List.append_inj' h2 rfl
    have h5 : f = b := by simpa using h4
    exact Or.inr ⟨t, by rw [h5], h3⟩

/-- C15 (counterexample): main spawns fiber 1, which calls `yield()`: fiber 1 is
in the run queue.  `notify( 1)` passes its assertions (lines 116-119: fiber 1 is
not complete, not resumed, not active) and pushes a second handle of fiber 1 at
the front; the next `run()` resumes fiber 1, a fiber that was in the run queue
before the notify.  Second run: fiber 2 waits, fiber 3 sleeps until 5, is
spawned again and returns, so its record `(3, 5)` stays in the waiting set;
after `notify( 2)` the `run()` at clock reading 10 sweeps the expired record of
the complete fiber 3, skips it, and resumes fiber 2, which is not one of the
expired fibers. -/
theorem notify_of_queued_fiber_resumes_queued :
    machine.exec asserted_only [event.spawn 1, event.yield] machine.init
        = Except.ok (machine.of none [1] [] [] [] [])
    ∧ default_scheduler.notify 1 (machine.of none [1] [] [] [] []).w
        = Except.ok (machine.of none [1, 1] [] [] [] []).w
    ∧ run_select 0 (machine.of none [1, 1] [] [] [] []).w
        = Except.ok ((machine.of none [1] [] [] [] []).w, some 1)
    ∧ default_scheduler.run runs_to_yield 0 (machine.of none [1, 1] [] [] [] []).w
        = Except.ok ((machine.of none [1, 1] [] [] [] []).w, some true)
    ∧ 1 ∈ (machine.of none [1] [] [] [] []).w.sched.rqueue_
    ∧ machine.exec asserted_only [event.spawn 2, event.wait, event.spawn 3, event.sleep 5 0,
          event.spawn 3, event.finish] machine.init
        = Except.ok (machine.of none []
            [{ f := 2, abs_time := none }, { f := 3, abs_time := some 5 }] [3] [] [])
    ∧ default_scheduler.notify 2 (machine.of none []
            [{ f := 2, abs_time := none }, { f := 3, abs_time := some 5 }] [3] [] []).w
        = Except.ok (machine.of none [2] [{ f := 3, abs_time := some 5 }] [3] [] []).w
    ∧ expired_range 10 [{ f := 3, abs_time := some 5 }] = [{ f := 3, abs_time := some 5 }]
    ∧ run_select 10 (machine.of none [2] [{ f := 3, abs_time := some 5 }] [3] [] []).w
        = Except.ok ((machine.of none [] [] [3] [] []).w, some 2) :=
  ⟨rfl, rfl, rfl, rfl, by decide, rfl, rfl, by decide, rfl⟩

/-- C15 (amended): `notify( f)` under its assertions, then `run()` at clock
reading `now` as the next operation.  After the sweep the run queue is the
expired fibers, latest deadline first, then f, then the whole run queue of before
the notify.  A `run()` that comes back has not returned false: it has resumed
the first fiber g that is not complete in the list (expired fibers, then f), with
every entry of the earlier run queue still queued behind g, and it returns true
when g comes back without an exception.  If neither f nor an expired fiber was in
the run queue before the notify, g was not in it either.  If some expired record
belongs to an incomplete fiber, g is an expired fiber.  If no waiting record has
a deadline that has expired, g is f; in that case, f coming back normally with
the assertion of line 29 true, `run()` does return true. -/
theorem notified_fiber_runs_before_queued (resume : fiber_code) (f now : Nat) (w w1 : world)
    (hn : default_scheduler.notify f w = Except.ok w1) :
    (deadline_sweep now w1.sched).rqueue_
        = (expired_range now w1.sched.wqueue_).reverse.map schedulable.f
            ++ f :: w.sched.rqueue_
    ∧ (∀ w2 v, default_scheduler.run resume now w1 = Except.ok (w2, v) →
        v ≠ some false ∧ ∃ pre g tail,
          (expired_range now w1.sched.wqueue_).reverse.map schedulable.f ++ [f]
              = pre ++ g :: tail
          ∧ (∀ x ∈ pre, x ∈ w.complete) ∧ g ∉ w.complete
          ∧ w2 = (resume g { w1 with sched := { deadline_sweep now w1.sched with
              rqueue_ := tail ++ w.sched.rqueue_, active_fiber_ := some g } }).1.set_active
                w.sched.active_fiber_
          ∧ ((resume g { w1 with sched := { deadline_sweep now w1.sched with
              rqueue_ := tail ++ w.sched.rqueue_, active_fiber_ := some g } }).2 = false →
              v = some true)
          ∧ (f ∉ w.sched.rqueue_ →
              (∀ r ∈ expired_range now w1.sched.wqueue_, r.f ∉ w.sched.rqueue_) →
              g ∉ w.sched.rqueue_)
          ∧ ((∃ r ∈ expired_range now w1.sched.wqueue_, r.f ∉ w.complete) →
              g ∈ (expired_range now w1.sched.wqueue_).map schedulable.f)
          ∧ ((∀ r ∈ w1.sched.wqueue_, ∀ d, r.abs_time = some d → now < d) →
              g = f ∧ tail = []))
    ∧ ((∀ r ∈ w1.sched.wqueue_, ∀ d, r.abs_time = some d → now < d) →
        (resume f { w1 with sched := { w1.sched with
            rqueue_ := w.sched.rqueue_, active_fiber_ := some f } }).2 = false →
        resume_post (resume f { w1 with sched := { w1.sched with
            rqueue_ := w.sched.rqueue_, active_fiber_ := some f } }).1 = Except.ok () →
        default_scheduler.run resume now w1
          = Except.ok ((resume f { w1 with sched := { w1.sched with
              rqueue_ := w.sched.rqueue_, active_fiber_ := some f } }).1.set_active
                w.sched.active_fiber_, some true)) := by
  obtain ⟨hc, hr, _, hw1⟩ := notify_ok f w w1 hn
  have hrq1 : w1.sched.rqueue_ = f :: w.sched.rqueue_ := by rw [hw1]
  have hwq1 : w1.sched.wqueue_ = f_idx_erase f w.sched.wqueue_ := by rw [hw1]
  have hact1 : w1.sched.active_fiber_ = w.sched.active_fiber_ := by rw [hw1]
  have hcomp1 : w1.complete = w.complete := by rw [hw1]
  have hres1 : w1.resumed = w.resumed := by rw [hw1]
  have hrq : (deadline_sweep now w1.sched).rqueue_
      = (expired_range now w1.sched.wqueue_).reverse.map schedulable.f
          ++ f :: w.sched.rqueue_ := by
    rw [deadline_sweep_rqueue, List.map_reverse, hrq1]
  have hnil : (∀ r ∈ w1.sched.wqueue_, ∀ d, r.abs_time = some d → now < d) →
      expired_range now w1.sched.wqueue_ = [] := fun hdue =>
    expired_range_nil now _ (fun r hr0 => due_false_of_later now r (hdue r hr0))
  refine ⟨hrq, ?_, ?_⟩
  · intro w2 v hrun
    rcases run_shape resume now w1 w2 v hrun with ⟨_, hall⟩ | ⟨pre, g, post, hQ, hpre, hg, _,
      hv, hw2, hvt⟩
    · have hfc := hall f (by rw [hrq]; simp)
      rw [hcomp1] at hfc
      exact absurd hfc hc
    · rw [hcomp1] at hpre hg
      have hQ2 : ((expired_range now w1.sched.wqueue_).reverse.map schedulable.f ++ [f])
          ++ w.sched.rqueue_ = pre ++ g :: post := by
        rw [← hQ, hrq]; simp
      obtain ⟨tail, hP, hpost⟩ := split_in_prefix _ _ _ _ _ hQ2
        ⟨f, by simp, fun hin => hc (hpre _ hin)⟩
      subst hpost
      refine ⟨hv, pre, g, tail, hP, hpre, hg, ?_, hvt, ?_, ?_, ?_⟩
      · rw [hw2, hact1]
      · intro hf hE hgin
        have hgP : g ∈ (expired_range now w1.sched.wqueue_).reverse.map schedulable.f ++ [f] := by
          rw [hP]; simp
        rcases List.mem_append.1 hgP with hA | hA
        · obtain ⟨r, hr0, hrf⟩ := List.mem_map.1 hA
          exact hE r (List.mem_reverse.1 hr0) (hrf ▸ hgin)
        · rw [List.mem_singleton] at hA
          exact hf (hA ▸ hgin)
      · intro ⟨r0, hr0, hr0c⟩
        rcases split_before_last _ _ _ _ _ hP with ⟨_, hA, _⟩ | ⟨t, _, hA⟩
        · have : r0.f ∈ pre := by
            rw [← hA]; exact List.mem_map.2 ⟨r0, List.mem_reverse.2 hr0, rfl⟩
          exact absurd (hpre _ this) hr0c
        · have hgA : g ∈ (expired_range now w1.sched.wqueue_).reverse.map schedulable.f := by
            rw [hA]; simp
          obtain ⟨r, hr1, hrf⟩ := List.mem_map.1 hgA
          exact List.mem_map.2 ⟨r, List.mem_reverse.1 hr1, hrf⟩
      · intro hdue
        rw [hnil hdue] at hP
        cases pre with
        | nil =>
          simp only [List.reverse_nil, List.map_nil, List.nil_append, List.cons.injEq] at hP
          exact ⟨hP.1.symm, hP.2.symm⟩
        | cons x pre1 =>
          simp at hP
  · intro hdue hret hpost
    have hnodue : ∀ r ∈ w1.sched.wqueue_, due now r = false :=
      fun r hr0 => due_false_of_later now r (hdue r hr0)
    have hsweep : deadline_sweep now w1.sched = w1.sched := deadline_sweep_no_due now _ hnodue
    have hfw : f ∉ w1.sched.wqueue_.map schedulable.f := by
      rw [hwq1, mem_map_f_idx_erase]
      exact fun h => h.2 rfl
    have h := run_resumes resume now w1 [] f w.sched.rqueue_
    rw [hsweep, hact1] at h
    exact h hrq1 (by simp) (by rw [hcomp1]; exact hc) hfw (by rw [hres1]; exact hr) hret hpost

theorem notified_fiber_runs_before_queued_witness :
    default_scheduler.run runs_to_yield 0
        (machine.of none [2, 1] [{ f := 3, abs_time := some 5 }] [] [] []).w
      = Except.ok ((runs_to_yield 2
          { (machine.of none [2, 1] [{ f := 3, abs_time := some 5 }] [] [] []).w with
            sched := { (machine.of none [2, 1] [{ f := 3, abs_time := some 5 }] [] [] []).w.sched
              with rqueue_ := [1], active_fiber_ := some 2 } }).1.set_active none, some true) :=
  (notified_fiber_runs_before_queued runs_to_yield 2 0
      (machine.of none [1] [{ f := 2, abs_time := none }, { f := 3, abs_time := some 5 }]
        [] [] []).w
      (machine.of none [2, 1] [{ f := 3, abs_time := some 5 }] [] [] []).w rfl).2.2
    (by decide) rfl rfl

/-! ### join from the main context -/

theorem join_loop_of_complete (f : Nat) (runs : List (Nat × fiber_code)) (w : world) (n : Nat)
    (h : w.is_complete f = true) : join_loop f runs w n = join_outcome.returned w n := by
  cases runs with
  | nil => simp [join_loop, h]
  | cons r rest =>
    obtain ⟨now, code⟩ := r
    simp [join_loop, h]

theorem join_loop_step (f : Nat) (now : Nat) (code : fiber_code)
    (rest : List (Nat × fiber_code)) (w w1 : world) (n : Nat) (v : Bool)
    (h : w.is_complete f = false)
    (hrun : default_scheduler.run code now w = Except.ok (w1, some v)) :
    join_loop f ((now, code) :: rest) w n = join_loop f rest w1 (n + 1) := by
  simp [join_loop, h, hrun]

theorem join_loop_returned (f : Nat) (runs : List (Nat × fiber_code)) (w w1 : world) (n k : Nat)
    (h : join_loop f runs w n = join_outcome.returned w1 k) :
    w1.is_complete f = true ∧ n ≤ k ∧ k ≤ n + runs.length := by
  induction runs generalizing w n with
  | nil =>
    unfold join_loop at h
    split at h
    · rename_i hc
      simp only [join_outcome.returned.injEq] at h
      obtain ⟨rfl, rfl⟩ := h
      exact ⟨hc, le_refl _, by simp⟩
    · exact absurd h (by simp)
  | cons r rest ih =>
    obtain ⟨now, code⟩ := r
    unfold join_loop at h
    split at h
    · rename_i hc
      simp only [join_outcome.returned.injEq] at h
      obtain ⟨rfl, rfl⟩ := h
      exact ⟨hc, le_refl _, by simp⟩
    · split at h
      · exact absurd h (by simp)
      · exact absurd h (by simp)
      · obtain ⟨h1, h2, h3⟩ := ih _ _ h
        refine ⟨h1, by omega, ?_⟩
        simp only [List.length_cons]
        omega

theorem join_loop_pumping (f : Nat) (runs : List (Nat × fiber_code)) (w w1 : world) (n k : Nat)
    (h : join_loop f runs w n = join_outcome.pumping w1 k) :
    w1.is_complete f = false ∧ k = n + runs.length := by
  induction runs generalizing w n with
  | nil =>
    unfold join_loop at h
    split at h
    · exact absurd h (by simp)
    · rename_i hc
      simp only [join_outcome.pumping.injEq] at h
      obtain ⟨rfl, rfl⟩ := h
      exact ⟨by simpa using hc, by simp⟩
  | cons r rest ih =>
    obtain ⟨now, code⟩ := r
    unfold join_loop at h
    split at h
    · exact absurd h (by simp)
    · split at h
      · exact absurd h (by simp)
      · exact absurd h (by simp)
      · obtain ⟨h1, h2⟩ := ih _ _ h
        refine ⟨h1, ?_⟩
        simp only [List.length_cons]
        omega

/-- C18 (counterexample): main spawns fiber 1, whose function returns at once:
fiber 1 is complete, no fiber is active.  `join( 1)` from main does not return
with zero `run()` calls: it is stopped by `BOOST_ASSERT( ! f->is_complete() )`
of line 65, whatever runs are on offer.  The fiber not being complete is a
precondition the code states next to `f != active_fiber_`. -/
theorem join_of_complete_fiber_stops_at_assertion :
    machine.exec asserted_only [event.spawn 1, event.finish] machine.init
        = Except.ok (machine.of none [] [] [1] [] [])
    ∧ default_scheduler.join 1 [] (machine.of none [] [] [1] [] []).w
        = join_outcome.failed (fault.assert_at 65)
    ∧ default_scheduler.join 1 [(0, runs_to_end)] (machine.of none [] [] [1] [] []).w
        = join_outcome.failed (fault.assert_at 65)
    ∧ default_scheduler.join 1 [] (machine.of none [] [] [1] [] []).w
        ≠ join_outcome.returned (machine.of none [] [] [1] [] []).w 0 :=
  ⟨rfl, rfl, rfl, by simp [default_scheduler.join, machine.of, world.is_complete]⟩

/-- C18 (amended): `join( f)` from the main context (no fiber active, so
f ≠ active) for a fiber f that is not complete, as line 65 asserts.  It is the
loop of lines 80-81 on the supply of runs: while f is not complete a `run()`
that comes back is followed by the rest of the loop with one more call counted;
once f is complete the loop returns at once with no further call.  A `join`
that returns after k calls returns with f complete and k at most the supply; a
loop that has used up the supply without returning has made every call and f is
still not complete.  With f complete on entry the call stops at line 65.
Scenario: main spawns fiber 9, whose function is `yield(); yield(); return`;
`join( 9)` returns after exactly two `run()` calls, each of which resumes fiber
9, with fiber 9 complete and the run queue empty, also when a third run is on
offer. -/
theorem join_from_main_runs_until_complete (f : Nat) (w : world)
    (hact : w.sched.active_fiber_ = none) (hc : f ∉ w.complete) :
    (∀ runs, default_scheduler.join f runs w = join_loop f runs w 0)
    ∧ (∀ runs w1 k, default_scheduler.join f runs w = join_outcome.returned w1 k →
        f ∈ w1.complete ∧ k ≤ runs.length)
    ∧ (∀ runs w1 k, default_scheduler.join f runs w = join_outcome.pumping w1 k →
        f ∉ w1.complete ∧ k = runs.length)
    ∧ (∀ now code rest w0 w1 n v, f ∉ w0.complete →
        default_scheduler.run code now w0 = Except.ok (w1, some v) →
        join_loop f ((now, code) :: rest) w0 n = join_loop f rest w1 (n + 1))
    ∧ (∀ runs w0 n, f ∈ w0.complete → join_loop f runs w0 n = join_outcome.returned w0 n)
    ∧ (∀ runs w0, f ∈ w0.complete →
        default_scheduler.join f runs w0 = join_outcome.failed (fault.assert_at 65))
    ∧ default_scheduler.spawn runs_to_yield 9 world.init
        = Except.ok ((machine.of none [9] [] [] [] []).w, some ())
    ∧ default_scheduler.join 9 [(0, runs_to_yield), (0, runs_to_end)]
          (machine.of none [9] [] [] [] []).w
        = join_outcome.returned (machine.of none [] [] [9] [] []).w 2
    ∧ default_scheduler.join 9 [(0, runs_to_yield), (0, runs_to_end), (0, runs_to_end)]
          (machine.of none [9] [] [] [] []).w
        = join_outcome.returned (machine.of none [] [] [9] [] []).w 2
    ∧ run_select 0 (machine.of none [9] [] [] [] []).w
        = Except.ok ((machine.of none [] [] [] [] []).w, some 9)
    ∧ default_scheduler.run runs_to_yield 0 (machine.of none [9] [] [] [] []).w
        = Except.ok ((machine.of none [9] [] [] [] []).w, some true)
    ∧ default_scheduler.run runs_to_end 0 (machine.of none [9] [] [] [] []).w
        = Except.ok ((machine.of none [] [] [9] [] []).w, some true) := by
  have h1 : w.is_complete f = false := by
    rw [← Bool.not_eq_true, is_complete_iff]; exact hc
  have hjoin : ∀ runs, default_scheduler.join f runs w = join_loop f runs w 0 := by
    intro runs
    simp [default_scheduler.join, h1, hact]
  refine ⟨hjoin, ?_, ?_, ?_, ?_, ?_, rfl, rfl, rfl, rfl, rfl, rfl⟩
  · intro runs w1 k h
    rw [hjoin] at h
    obtain ⟨h2, _, h3⟩ := join_loop_returned f runs w w1 0 k h
    exact ⟨(is_complete_iff w1 f).1 h2, by omega⟩
  · intro runs w1 k h
    rw [hjoin] at h
    obtain ⟨h2, h3⟩ := join_loop_pumping f runs w w1 0 k h
    refine ⟨?_, by omega⟩
    rw [← is_complete_iff, h2]
    simp
  · intro now code rest w0 w1 n v hc0 hrun
    exact join_loop_step f now code rest w0 w1 n v
      (by rw [← Bool.not_eq_true, is_complete_iff]; exact hc0) hrun
  · intro runs w0 n hc0
    exact join_loop_of_complete f runs w0 n ((is_complete_iff w0 f).2 hc0)
  · intro runs w0 hc0
    simp [default_scheduler.join, (is_complete_iff w0 f).2 hc0]

theorem join_from_main_runs_until_complete_witness :
    9 ∈ (machine.of none [] [] [9] [] []).w.complete ∧ 2 ≤ 2 :=
  (join_from_main_runs_until_complete 9 (machine.of none [9] [] [] [] []).w rfl
      (by decide)).2.1 [(0, runs_to_yield), (0, runs_to_end)]
    (machine.of none [] [] [9] [] []).w 2 rfl

/-! ## Theorems: the reachable states of the mutex are consistent -/

theorem consistent_iff (m : recursive_timed_mutex) :
    mutex_consistent m ↔
      (m.state_ = state_t.UNLOCKED ∧ m.count_ = 0 ∧ m.owner_ = none)
      ∨ (m.state_ = state_t.LOCKED ∧ 1 ≤ m.count_ ∧ ∃ g, m.owner_ = some g) := by
  constructor
  · intro h
    cases hs : m.state_ with
    | UNLOCKED =>
      have hc := h.unlocked_iff.1 hs
      exact Or.inl ⟨rfl, hc, h.count_iff.1 hc⟩
    | LOCKED =>
      have hc := h.locked_iff.1 hs
      refine Or.inr ⟨rfl, hc, ?_⟩
      cases ho : m.owner_ with
      | none =>
        have := h.count_iff.2 ho
        omega
      | some g => exact ⟨g, rfl⟩
  · rintro (⟨hs, hc, ho⟩ | ⟨hs, hc, g, ho⟩)
    · exact ⟨by simp [hs, hc], by simp [hc, ho], by simp [hs, hc], by omega⟩
    · refine ⟨?_, ?_, by simp [hs, hc], by omega⟩
      · simp only [hs, false_iff]
        constructor
        · intro h; cases h
        · intro h; omega
      · simp only [ho, iff_false]
        constructor
        · intro h; omega
        · intro h; cases h

theorem consistent_of_same (m m1 : recursive_timed_mutex) (h : mutex_consistent m)
    (h1 : m1.state_ = m.state_) (h2 : m1.count_ = m.count_) (h3 : m1.owner_ = m.owner_) :
    mutex_consistent m1 := by
  rw [consistent_iff] at h ⊢
  rw [h1, h2, h3]
  exact h

theorem take_ownership_consistent {α : Type} (ndebug : Bool) (g : Nat) (v : α)
    (m m1 : recursive_timed_mutex) (calls : List ext_call)
    (hs : m.state_ = state_t.LOCKED) (hc : 0 ≤ m.count_)
    (h : (take_ownership ndebug (some g) v m calls).left = some m1) : mutex_consistent m1 := by
  unfold take_ownership at h
  split at h
  · exact absurd h (by simp [outcome.left])
  · split at h
    · exact absurd h (by simp [outcome.left])
    · simp only [outcome.left, Option.some.injEq] at h
      subst h
      rw [consistent_iff]
      exact Or.inr ⟨hs, by show 1 ≤ m.count_ + 1; omega, g, rfl⟩

theorem unlock_consistent (ndebug : Bool) (g : Nat) (m m1 : recursive_timed_mutex)
    (hm : mutex_consistent m) (hs : m.state_ = state_t.LOCKED)
    (h : (recursive_timed_mutex.unlock ndebug (some g) m).left = some m1) :
    mutex_consistent m1 := by
  rcases (consistent_iff m).1 hm with ⟨hu, _, _⟩ | ⟨_, hc, g1, ho⟩
  · rw [hs] at hu; cases hu
  · unfold recursive_timed_mutex.unlock at h
    split at h
    · exact absurd h (by simp [outcome.left])
    · split at h
      · exact absurd h (by simp [outcome.left])
      · simp only at h
        split at h
        · rename_i hz
          split at h <;>
          · simp only [outcome.left, Option.some.injEq] at h
            subst h
            rw [consistent_iff]
            exact Or.inl ⟨rfl, hz, rfl⟩
        · rename_i hz
          simp only [outcome.left, Option.some.injEq] at h
          subst h
          rw [consistent_iff]
          refine Or.inr ⟨hs, ?_, g1, ho⟩
          show 1 ≤ m.count_ - 1
          have : m.count_ - 1 ≠ 0 := hz
          omega

theorem try_lock_consistent (ndebug : Bool) (g : Nat) (env : List resume_info)
    (m m1 : recursive_timed_mutex) (hm : mutex_consistent m)
    (henv : ∀ r ∈ env, mutex_consistent r.found)
    (h : (recursive_timed_mutex.try_lock ndebug (some g) env m).left = some m1) :
    mutex_consistent m1 := by
  unfold recursive_timed_mutex.try_lock at h
  split at h
  · rename_i hown
    simp only [outcome.left, Option.some.injEq] at h
    subst h
    rcases (consistent_iff m).1 hm with ⟨hu, _, _⟩ | ⟨hs, hc, g1, ho⟩
    · rw [hown.1] at hu; cases hu
    · rw [consistent_iff]
      exact Or.inr ⟨hs, by show 1 ≤ m.count_ + 1; omega, g1, ho⟩
  · split at h
    · rename_i hu
      simp only [outcome.left, Option.some.injEq] at h
      subst h
      rcases (consistent_iff m).1 hm with ⟨_, hc, _⟩ | ⟨hs, _, _⟩
      · rw [consistent_iff]
        exact Or.inr ⟨rfl, by show 1 ≤ m.count_ + 1; omega, g, rfl⟩
      · rw [hs] at hu; cases hu
    · cases env with
      | nil =>
        simp only [outcome.left, Option.some.injEq] at h
        subst h
        exact hm
      | cons r rest =>
        cases r with
        | returned m2 flag =>
          simp only [outcome.left, Option.some.injEq] at h
          subst h
          exact henv _ (List.mem_cons_self _ _)
        | thrown m2 =>
          simp only [outcome.left, Option.some.injEq] at h
          subst h
          exact henv _ (List.mem_cons_self _ _)

theorem lock_to_suspension_consistent (ndebug : Bool) (g : Nat) (pc : lock_pc)
    (m : recursive_timed_mutex) (calls : List ext_call) (hm : mutex_consistent m) :
    (∀ o, lock_to_suspension ndebug (some g) pc m calls = progress.finished o →
        ∀ m1, o.left = some m1 → mutex_consistent m1)
    ∧ (∀ m1 calls1 i, lock_to_suspension ndebug (some g) pc m calls
        = progress.suspended m1 calls1 i → mutex_consistent m1) := by
  cases pc with
  | cas =>
    by_cases hu : m.state_ = state_t.UNLOCKED
    · simp only [lock_to_suspension, hu, if_true, progress.finished.injEq, reduceCtorEq,
        false_implies, implies_true, and_true]
      intro o ho m1 h
      subst ho
      exact take_ownership_consistent ndebug g () { m with state_ := state_t.LOCKED } m1 calls
        rfl hm.count_nonneg h
    · simp only [lock_to_suspension, hu, if_false, reduceCtorEq, false_implies, implies_true,
        true_and, progress.suspended.injEq]
      rintro m1 calls1 i ⟨rfl, _, _⟩
      exact consistent_of_same m _ hm rfl rfl rfl
  | pump =>
    simp only [lock_to_suspension, reduceCtorEq, false_implies, implies_true, true_and,
      progress.suspended.injEq]
    rintro m1 calls1 i ⟨rfl, _, _⟩
    exact hm

theorem lock_loop_consistent (ndebug : Bool) (g : Nat) (env : List resume_info) :
    ∀ (pc : lock_pc) (m : recursive_timed_mutex) (calls : List ext_call)
      (m1 : recursive_timed_mutex), mutex_consistent m →
      (∀ r ∈ env, mutex_consistent r.found) →
      (lock_loop ndebug (some g) env pc m calls).left = some m1 → mutex_consistent m1 := by
  induction env with
  | nil =>
    intro pc m calls m1 hm _ h
    obtain ⟨hf, hsus⟩ := lock_to_suspension_consistent ndebug g pc m calls hm
    cases hls : lock_to_suspension ndebug (some g) pc m calls with
    | finished o =>
      simp only [lock_loop, hls] at h
      exact hf o hls m1 h
    | suspended m2 calls1 i =>
      simp only [lock_loop, hls, outcome.left, Option.some.injEq] at h
      subst h
      exact hsus _ _ _ hls
  | cons r rest ih =>
    intro pc m calls m1 hm henv h
    obtain ⟨hf, hsus⟩ := lock_to_suspension_consistent ndebug g pc m calls hm
    have hr := henv r (List.mem_cons_self _ _)
    cases r with
    | thrown m2 =>
      cases hls : lock_to_suspension ndebug (some g) pc m calls with
      | finished o =>
        simp only [lock_loop, hls] at h
        exact hf o hls m1 h
      | suspended m3 calls1 i =>
        simp only [lock_loop, hls, outcome.left, Option.some.injEq] at h
        subst h
        exact hr
    | returned m2 flag =>
      cases hls : lock_to_suspension ndebug (some g) pc m calls with
      | finished o =>
        simp only [lock_loop, hls] at h
        exact hf o hls m1 h
      | suspended m3 calls1 i =>
        simp only [lock_loop, hls] at h
        exact ih _ m2 calls1 m1 hr (fun r1 hr1 => henv r1 (List.mem_cons_of_mem _ hr1)) h

theorem lock_consistent (ndebug : Bool) (g : Nat) (env : List resume_info)
    (m m1 : recursive_timed_mutex) (hm : mutex_consistent m)
    (henv : ∀ r ∈ env, mutex_consistent r.found)
    (h : (recursive_timed_mutex.lock ndebug (some g) env m).left = some m1) :
    mutex_consistent m1 := by
  unfold recursive_timed_mutex.lock at h
  split at h
  · rename_i hown
    simp only [outcome.left, Option.some.injEq] at h
    subst h
    rcases (consistent_iff m).1 hm with ⟨hu, _, _⟩ | ⟨hs, hc, g1, ho⟩
    · rw [hown.1] at hu; cases hu
    · rw [consistent_iff]
      exact Or.inr ⟨hs, by show 1 ≤ m.count_ + 1; omega, g1, ho⟩
  · exact lock_loop_consistent ndebug g env _ m [] m1 hm henv h

theorem unregister_left {α : Type} (n : notify_ptr) (m m1 : recursive_timed_mutex)
    (calls : List ext_call) (k : recursive_timed_mutex → outcome α)
    (h : (unregister n m calls k).left = some m1) : (k (erase_waiter n m)).left = some m1 := by
  unfold unregister at h
  split at h
  · exact h
  · exact absurd h (by simp [outcome.left])

theorem try_lock_until_exit_consistent (ndebug : Bool) (g : Nat)
    (m m1 : recursive_timed_mutex) (calls : List ext_call) (hc : 0 ≤ m.count_)
    (hm : m.state_ ≠ state_t.LOCKED → mutex_consistent m)
    (h : (try_lock_until_exit ndebug (some g) m calls).left = some m1) :
    mutex_consistent m1 := by
  unfold try_lock_until_exit at h
  split at h
  · rename_i hs
    simp only [outcome.left, Option.some.injEq] at h
    subst h
    exact hm hs
  · rename_i hs
    exact take_ownership_consistent ndebug g true m m1 calls (by simpa using hs) hc h

theorem try_lock_until_to_suspension_consistent (ndebug : Bool) (g timeout_time : Nat)
    (clock : Nat → Nat) (pc : lock_pc) (i : Nat) (m : recursive_timed_mutex)
    (calls : List ext_call) (hm : mutex_consistent m) :
    (∀ o, try_lock_until_to_suspension ndebug (some g) timeout_time clock pc i m calls
        = progress.finished o → ∀ m1, o.left = some m1 → mutex_consistent m1)
    ∧ (∀ m1 calls1 j, try_lock_until_to_suspension ndebug (some g) timeout_time clock pc i m calls
        = progress.suspended m1 calls1 j → mutex_consistent m1) := by
  cases pc with
  | cas =>
    by_cases ht : clock i < timeout_time
    · by_cases hu : m.state_ = state_t.UNLOCKED
      · simp only [try_lock_until_to_suspension, ht, hu, if_true, progress.finished.injEq,
          reduceCtorEq, false_implies, implies_true, and_true]
        intro o ho m1 h
        subst ho
        exact try_lock_until_exit_consistent ndebug g { m with state_ := state_t.LOCKED } m1 calls
          hm.count_nonneg (fun hne => absurd rfl hne) h
      · simp only [try_lock_until_to_suspension, ht, hu, if_true, if_false, reduceCtorEq,
          false_implies, implies_true, true_and, progress.suspended.injEq]
        rintro m1 calls1 j ⟨rfl, _, _⟩
        exact consistent_of_same m _ hm rfl rfl rfl
    · simp only [try_lock_until_to_suspension, ht, if_false, progress.finished.injEq,
        reduceCtorEq, false_implies, implies_true, and_true]
      intro o ho m1 h
      subst ho
      exact try_lock_until_exit_consistent ndebug g m m1 calls hm.count_nonneg (fun _ => hm) h
  | pump =>
    by_cases ht : clock i < timeout_time
    · simp only [try_lock_until_to_suspension, ht, if_true, reduceCtorEq, false_implies,
        implies_true, true_and, progress.suspended.injEq]
      rintro m1 calls1 j ⟨rfl, _, _⟩
      exact hm
    · simp only [try_lock_until_to_suspension, ht, if_false, progress.finished.injEq,
        reduceCtorEq, false_implies, implies_true, and_true]
      intro o ho m1 h
      subst ho
      have h2 := unregister_left _ _ _ _ _ h
      simp only [outcome.left, Option.some.injEq] at h2
      subst h2
      exact consistent_of_same m _ hm rfl rfl rfl

theorem try_lock_until_loop_consistent (ndebug : Bool) (g timeout_time : Nat)
    (clock : Nat → Nat) (env : List resume_info) :
    ∀ (pc : lock_pc) (i : Nat) (m : recursive_timed_mutex) (calls : List ext_call)
      (m1 : recursive_timed_mutex), mutex_consistent m →
      (∀ r ∈ env, mutex_consistent r.found) →
      (try_lock_until_loop ndebug (some g) timeout_time clock env pc i m calls).left = some m1 →
      mutex_consistent m1 := by
  induction env with
  | nil =>
    intro pc i m calls m1 hm _ h
    obtain ⟨hf, hsus⟩ :=
      try_lock_until_to_suspension_consistent ndebug g timeout_time clock pc i m calls hm
    cases hls : try_lock_until_to_suspension ndebug (some g) timeout_time clock pc i m calls with
    | finished o =>
      simp only [try_lock_until_loop, hls] at h
      exact hf o hls m1 h
    | suspended m2 calls1 j =>
      simp only [try_lock_until_loop, hls, outcome.left, Option.some.injEq] at h
      subst h
      exact hsus _ _ _ hls
  | cons r rest ih =>
    intro pc i m calls m1 hm henv h
    obtain ⟨hf, hsus⟩ :=
      try_lock_until_to_suspension_consistent ndebug g timeout_time clock pc i m calls hm
    have hr := henv r (List.mem_cons_self _ _)
    cases r with
    | thrown m2 =>
      cases hls : try_lock_until_to_suspension ndebug (some g) timeout_time clock pc i m calls with
      | finished o =>
        simp only [try_lock_until_loop, hls] at h
        exact hf o hls m1 h
      | suspended m3 calls1 j =>
        simp only [try_lock_until_loop, hls] at h
        have h2 := unregister_left _ _ _ _ _ h
        simp only [outcome.left, Option.some.injEq] at h2
        subst h2
        exact consistent_of_same m2 _ hr rfl rfl rfl
    | returned m2 flag =>
      cases hls : try_lock_until_to_suspension ndebug (some g) timeout_time clock pc i m calls with
      | finished o =>
        simp only [try_lock_until_loop, hls] at h
        exact hf o hls m1 h
      | suspended m3 calls1 j =>
        simp only [try_lock_until_loop, hls] at h
        cases flag with
        | true =>
          simp only [if_true] at h
          exact ih _ _ m2 calls1 m1 hr (fun r1 hr1 => henv r1 (List.mem_cons_of_mem _ hr1)) h
        | false =>
          simp only [Bool.false_eq_true, if_false] at h
          have h2 := unregister_left _ _ _ _ _ h
          simp only [outcome.left, Option.some.injEq] at h2
          subst h2
          exact consistent_of_same m2 _ hr rfl rfl rfl

theorem try_lock_until_consistent (ndebug : Bool) (g timeout_time : Nat) (clock : Nat → Nat)
    (env : List resume_info) (m m1 : recursive_timed_mutex) (hm : mutex_consistent m)
    (henv : ∀ r ∈ env, mutex_consistent r.found)
    (h : (recursive_timed_mutex.try_lock_until ndebug (some g) timeout_time clock env m).left
      = some m1) :
    mutex_consistent m1 := by
  unfold recursive_timed_mutex.try_lock_until at h
  split at h
  · rename_i hown
    simp only [outcome.left, Option.some.injEq] at h
    subst h
    rcases (consistent_iff m).1 hm with ⟨hu, _, _⟩ | ⟨hs, hc, g1, ho⟩
    · rw [hown.1] at hu; cases hu
    · rw [consistent_iff]
      exact Or.inr ⟨hs, by show 1 ≤ m.count_ + 1; omega, g1, ho⟩
  · exact try_lock_until_loop_consistent ndebug g timeout_time clock env _ _ m [] m1 hm henv h

/-- C20: in every state of the mutex reachable from the freshly constructed one
through `lock()`, `try_lock()`, `try_lock_until()` by fibers (each taken up to
its return, its suspension or an exception, the mutex a resumed caller finds
being reachable itself) and `unlock()` by the owner of a LOCKED mutex, with the
assertions compiled in or out: the state is UNLOCKED iff the count is 0 iff the
owner is the empty id, the state is LOCKED iff the count is at least 1, and the
count is not negative.  When such a mutex is UNLOCKED and its waiter list is
empty, the three assertions of the destructor (lines 35-37) hold. -/
theorem reachable_mutex_is_consistent (ndebug : Bool) (m : recursive_timed_mutex)
    (h : mutex_reachable ndebug m) :
    (m.state_ = state_t.UNLOCKED ↔ m.count_ = 0)
    ∧ (m.count_ = 0 ↔ m.owner_ = none)
    ∧ (m.state_ = state_t.LOCKED ↔ 1 ≤ m.count_)
    ∧ 0 ≤ m.count_
    ∧ (m.state_ = state_t.UNLOCKED → m.waiting_ = [] → destructor_assertions m) := by
  have hc : mutex_consistent m := by
    induction h with
    | init =>
      rw [consistent_iff]
      exact Or.inl ⟨rfl, rfl, rfl⟩
    | lock g env m0 m1 _ _ hl ih ihenv => exact lock_consistent ndebug g env m0 m1 ih ihenv hl
    | try_lock g env m0 m1 _ _ hl ih ihenv =>
      exact try_lock_consistent ndebug g env m0 m1 ih ihenv hl
    | try_lock_until g timeout_time clock env m0 m1 _ _ hl ih ihenv =>
      exact try_lock_until_consistent ndebug g timeout_time clock env m0 m1 ih ihenv hl
    | unlock g m0 m1 _ hs _ hl ih => exact unlock_consistent ndebug g m0 m1 ih hs hl
  refine ⟨hc.unlocked_iff, hc.count_iff, hc.locked_iff, hc.count_nonneg, ?_⟩
  intro hu hw
  have h0 := hc.unlocked_iff.1 hu
  exact ⟨hc.count_iff.1 h0, h0, hw⟩

theorem reachable_mutex_is_consistent_witness :
    ((state_t.LOCKED = state_t.UNLOCKED ↔ (2 : Int) = 0)
    ∧ ((2 : Int) = 0 ↔ some 2 = (none : Option Nat))
    ∧ (state_t.LOCKED = state_t.LOCKED ↔ (1 : Int) ≤ 2)
    ∧ (0 : Int) ≤ 2
    ∧ (state_t.LOCKED = state_t.UNLOCKED → [notify_ptr.fiber 3] = [] →
        destructor_assertions
          { owner_ := some 2, count_ := 2, state_ := state_t.LOCKED,
            waiting_ := [notify_ptr.fiber 3] })) :=
  reachable_mutex_is_consistent true
    { owner_ := some 2, count_ := 2, state_ := state_t.LOCKED, waiting_ := [notify_ptr.fiber 3] }
    (mutex_reachable.try_lock_until 2 5 (fun _ => 9) []
      { owner_ := some 1, count_ := 1, state_ := state_t.LOCKED, waiting_ := [notify_ptr.fiber 3] }
      _
      (mutex_reachable.lock 3 []
        { owner_ := some 1, count_ := 1, state_ := state_t.LOCKED, waiting_ := [] } _
        (mutex_reachable.lock 1 [] recursive_timed_mutex.init _ mutex_reachable.init
          (by simp) rfl)
        (by simp) rfl)
      (by simp) rfl)

end boost.fibers
